import Mathlib

/-!
A shallow embedding of `linq.h` (linq11).

Every range class of `linq.h` is a pair of a sequence value and a cursor
(`iterator`) type.  The embedding keeps that shape:

* a `Range ρ σ α` is the cursor protocol of one range class: `begin`/`end_`
  build cursors from the mutable part `ρ` of the sequence value (its caches),
  `eq`/`ne` are `operator==`/`operator!=`, `inc` is `operator++` and `deref`
  is `operator*`;
* `operator*` returns the element together with the cursor, because
  `from_to_range::iterator` writes its `mutable Value` member while reading;
* loops over an arbitrary predecessor need not terminate, so every loop takes
  fuel and every operation returns an `Option`: `none` stands for exhausted
  fuel, a failed bounds check (`vector::at`) or a read through an invalid
  cursor;
* a pointer held by a cursor (`EncounteredObjects`, `PrevIterators`) is
  modelled by the value it points to, carried inside the cursor;
* `size_t` is `Nat` taken modulo `SIZE_MOD`.
-/

namespace linq

/-- Modulus of `size_t` arithmetic (a 64-bit `size_t`). -/
def SIZE_MOD : Nat := 18446744073709551616

/-- The enum `sort_direction`. -/
inductive sort_direction where
  | ascending
  | descending
  deriving DecidableEq, Repr

/-- Cursor protocol shared by all range classes: `begin()`, `end()`,
`operator==`, `operator!=`, `operator++`, `operator*`. -/
structure Range (ρ σ α : Type) where
  begin : ρ → Option (σ × ρ)
  end_ : ρ → Option (σ × ρ)
  eq : σ → σ → Bool
  ne : σ → σ → Bool
  inc : σ → Option σ
  deref : σ → Option (α × σ)

/-- Body of `for (const auto& p : range) vec.push_back(p);` in
`base_range::to_vector`: cursor `it` runs until `it != e` fails.  The final
cursor is returned next to the vector. -/
def to_vector.loop {ρ σ α : Type} (R : Range ρ σ α) (e : σ) :
    Nat → σ → List α → Option (List α × σ)
  | 0, _, _ => none
  | fuel + 1, it, vec =>
    if R.ne it e then
      match R.deref it with
      | none => none
      | some (p, it1) =>
        match R.inc it1 with
        | none => none
        | some it2 => to_vector.loop R e fuel it2 (vec ++ [p])
    else some (vec, it)

/-- Range-for traversal of `base_range::to_vector`, keeping the final cursor:
`begin()` is evaluated first, then `end()`. -/
def to_vector.run {ρ σ α : Type} (fuel : Nat) (R : Range ρ σ α) (r : ρ) :
    Option (List α × σ) :=
  match R.begin r with
  | none => none
  | some (b, r1) =>
    match R.end_ r1 with
    | none => none
    | some (e, _) => to_vector.loop R e fuel b []

/-- The method `base_range::to_vector`. -/
def to_vector {ρ σ α : Type} (fuel : Nat) (R : Range ρ σ α) (r : ρ) : Option (List α) :=
  (to_vector.run fuel R r).map Prod.fst

/-! ## from_container -/

/-- The cursor `from_container_range::iterator`: `Pos` is the offset of the
container's `const_iterator` from `Container->begin()`. -/
structure from_container_range.iterator where
  Pos : Nat
  deriving DecidableEq, Repr

/-- The class `from_container_range` over the container `c` (the pointee of
`Container`).  Reading or advancing a cursor that is not inside the container
is undefined and gives `none`. -/
def from_container_range {α : Type} (c : List α) :
    Range Unit from_container_range.iterator α where
  begin := fun r => some (⟨0⟩, r)
  end_ := fun r => some (⟨c.length⟩, r)
  eq := fun a b => decide (a.Pos = b.Pos)
  ne := fun a b => decide (a.Pos ≠ b.Pos)
  inc := fun it => if it.Pos < c.length then some ⟨it.Pos + 1⟩ else none
  deref := fun it =>
    match c.get? it.Pos with
    | none => none
    | some v => some (v, it)

/-- The function `linq::from`. -/
def from_ {α : Type} (c : List α) : Range Unit from_container_range.iterator α :=
  from_container_range c

/-! ## where -/

/-- The cursor `where_range::iterator` (`Parent` is only used to reach the
predicate, which is passed to the operations instead). -/
structure where_range.iterator (σ : Type) where
  Begin : σ
  End : σ

/-- The loop `while (Begin != End && !pred(*Begin)) ++Begin;` shared by the
constructor and by `operator++` of `where_range::iterator`. -/
def where_range.iterator.seek {ρ σ α : Type} (Prev : Range ρ σ α) (pred : α → Bool) (End : σ) :
    Nat → σ → Option σ
  | 0, _ => none
  | fuel + 1, Begin =>
    if Prev.ne Begin End then
      match Prev.deref Begin with
      | none => none
      | some (v, Begin1) =>
        if !pred v then
          match Prev.inc Begin1 with
          | none => none
          | some Begin2 => where_range.iterator.seek Prev pred End fuel Begin2
        else some Begin1
    else some Begin

/-- Constructor `where_range::iterator::iterator(parent, begin, end)`. -/
def where_range.iterator.mk_ {ρ σ α : Type} (fuel : Nat) (Prev : Range ρ σ α) (pred : α → Bool)
    (b e : σ) : Option (where_range.iterator σ) :=
  (where_range.iterator.seek Prev pred e fuel b).map fun b1 => ⟨b1, e⟩

/-- The operator `where_range::iterator::operator++`: `do ++Begin; while (...)`. -/
def where_range.iterator.inc {ρ σ α : Type} (fuel : Nat) (Prev : Range ρ σ α) (pred : α → Bool)
    (it : where_range.iterator σ) : Option (where_range.iterator σ) :=
  match Prev.inc it.Begin with
  | none => none
  | some b1 => (where_range.iterator.seek Prev pred it.End fuel b1).map fun b2 => ⟨b2, it.End⟩

/-- The class `where_range`: `begin()` is `iterator(this, Prev.begin(), Prev.end())`
and `end()` is `iterator(this, Prev.end(), Prev.end())`. -/
def where_range {ρ σ α : Type} (fuel : Nat) (Prev : Range ρ σ α) (pred : α → Bool) :
    Range ρ (where_range.iterator σ) α where
  begin := fun r =>
    match Prev.begin r with
    | none => none
    | some (b, r1) =>
      match Prev.end_ r1 with
      | none => none
      | some (e, r2) => (where_range.iterator.mk_ fuel Prev pred b e).map fun it => (it, r2)
  end_ := fun r =>
    match Prev.end_ r with
    | none => none
    | some (e1, r1) =>
      match Prev.end_ r1 with
      | none => none
      | some (e2, r2) => (where_range.iterator.mk_ fuel Prev pred e1 e2).map fun it => (it, r2)
  eq := fun a b => Prev.eq a.Begin b.Begin
  ne := fun a b => Prev.ne a.Begin b.Begin
  inc := where_range.iterator.inc fuel Prev pred
  deref := fun it =>
    match Prev.deref it.Begin with
    | none => none
    | some (v, b1) => some (v, ⟨b1, it.End⟩)

/-! ## take -/

/-- The cursor `take_range::iterator`; `Count` is a `size_t`. -/
structure take_range.iterator (σ : Type) where
  Begin : σ
  Count : Nat

/-- The class `take_range`: `begin()` is `iterator(Prev.begin(), Count)`, `end()` is
`iterator(Prev.end(), 0)`; `operator!=` is `Count != o.Count && Begin != o.Begin`
and `operator++` is `++Begin; --Count;`. -/
def take_range {ρ σ α : Type} (Prev : Range ρ σ α) (Count : Nat) :
    Range ρ (take_range.iterator σ) α where
  begin := fun r =>
    match Prev.begin r with
    | none => none
    | some (b, r1) => some (⟨b, Count⟩, r1)
  end_ := fun r =>
    match Prev.end_ r with
    | none => none
    | some (e, r1) => some (⟨e, 0⟩, r1)
  eq := fun a b => decide (a.Count = b.Count) || Prev.eq a.Begin b.Begin
  ne := fun a b => decide (a.Count ≠ b.Count) && Prev.ne a.Begin b.Begin
  inc := fun it =>
    match Prev.inc it.Begin with
    | none => none
    | some b1 => some ⟨b1, (it.Count + SIZE_MOD - 1) % SIZE_MOD⟩
  deref := fun it =>
    match Prev.deref it.Begin with
    | none => none
    | some (v, b1) => some (v, ⟨b1, it.Count⟩)

/-! ## distinct -/

/-- The cursor `distinct_range::iterator`; `EncounteredObjects` is the content of
the vector the cursor points to (cursors of the predecessor already yielded).
In the source all cursors of one `distinct_range` point to the one vector of
that range; here every cursor carries the content as a component of its own.
The two agree as long as only one cursor of the range is advanced, as in a
traversal by `to_vector` or a range-for loop.  A use that advances one cursor
and later goes back to an earlier copy of it (as `join` does with its inner
sequence) sees the later content in the source and the earlier one here, so
such uses of a `distinct` sequence are not covered by this embedding. -/
structure distinct_range.iterator (σ : Type) where
  Begin : σ
  End : σ
  EncounteredObjects : List σ

/-- The `for` loop of `ContainsObject`: reads the stored cursors in order and
stops at the first whose element equals `itVal`. -/
def distinct_range.iterator.ContainsObject.scan {ρ σ α : Type} [DecidableEq α]
    (Prev : Range ρ σ α) (itVal : α) : List σ → Option (Bool × List σ)
  | [] => some (false, [])
  | o :: os =>
    match Prev.deref o with
    | none => none
    | some (v, o1) =>
      if v = itVal then some (true, o1 :: os)
      else
        match distinct_range.iterator.ContainsObject.scan Prev itVal os with
        | none => none
        | some (found, os1) => some (found, o1 :: os1)

/-- The method `distinct_range::iterator::ContainsObject(it)`; returns the
answer with the cursor read and the vector of stored cursors. -/
def distinct_range.iterator.ContainsObject {ρ σ α : Type} [DecidableEq α]
    (Prev : Range ρ σ α) (it : σ) (enc : List σ) : Option (Bool × σ × List σ) :=
  match Prev.deref it with
  | none => none
  | some (itVal, it1) =>
    match distinct_range.iterator.ContainsObject.scan Prev itVal enc with
    | none => none
    | some (found, enc1) => some (found, it1, enc1)

/-- The loop `do ++Begin; while (Begin != End && ContainsObject(Begin));` of
`distinct_range::iterator::operator++`. -/
def distinct_range.iterator.advance {ρ σ α : Type} [DecidableEq α]
    (Prev : Range ρ σ α) (End : σ) : Nat → σ → List σ → Option (σ × List σ)
  | 0, _, _ => none
  | fuel + 1, Begin, enc =>
    match Prev.inc Begin with
    | none => none
    | some b1 =>
      if Prev.ne b1 End then
        match distinct_range.iterator.ContainsObject Prev b1 enc with
        | none => none
        | some (true, b2, enc1) => distinct_range.iterator.advance Prev End fuel b2 enc1
        | some (false, b2, enc1) => some (b2, enc1)
      else some (b1, enc)

/-- Constructor `distinct_range::iterator::iterator(begin, end, encounteredObjects)`:
`if (Begin != End) { clear(); push_back(Begin); }`. -/
def distinct_range.iterator.mk_ {ρ σ α : Type} (Prev : Range ρ σ α) (b e : σ) (enc : List σ) :
    distinct_range.iterator σ :=
  if Prev.ne b e then ⟨b, e, [b]⟩ else ⟨b, e, enc⟩

/-- The operator `distinct_range::iterator::operator++`. -/
def distinct_range.iterator.inc {ρ σ α : Type} [DecidableEq α] (fuel : Nat)
    (Prev : Range ρ σ α) (it : distinct_range.iterator σ) : Option (distinct_range.iterator σ) :=
  match distinct_range.iterator.advance Prev it.End fuel it.Begin it.EncounteredObjects with
  | none => none
  | some (b, enc) =>
    if Prev.ne b it.End then some ⟨b, it.End, enc ++ [b]⟩ else some ⟨b, it.End, enc⟩

/-- The class `distinct_range`; its mutable part is the predecessor's together
with the member `EncounteredObjects`, which the cursor constructor writes. -/
def distinct_range {ρ σ α : Type} [DecidableEq α] (fuel : Nat) (Prev : Range ρ σ α) :
    Range (ρ × List σ) (distinct_range.iterator σ) α where
  begin := fun r =>
    match Prev.begin r.1 with
    | none => none
    | some (b, r1) =>
      match Prev.end_ r1 with
      | none => none
      | some (e, r2) =>
        some (distinct_range.iterator.mk_ Prev b e r.2,
          (r2, (distinct_range.iterator.mk_ Prev b e r.2).EncounteredObjects))
  end_ := fun r =>
    match Prev.end_ r.1 with
    | none => none
    | some (e1, r1) =>
      match Prev.end_ r1 with
      | none => none
      | some (e2, r2) =>
        some (distinct_range.iterator.mk_ Prev e1 e2 r.2,
          (r2, (distinct_range.iterator.mk_ Prev e1 e2 r.2).EncounteredObjects))
  eq := fun a b => Prev.eq a.Begin b.Begin
  ne := fun a b => Prev.ne a.Begin b.Begin
  inc := distinct_range.iterator.inc fuel Prev
  deref := fun it =>
    match Prev.deref it.Begin with
    | none => none
    | some (v, b1) => some (v, ⟨b1, it.End, it.EncounteredObjects⟩)

/-- Elements of `l` not in `seen` and not repeated, in order of first
occurrence: what `distinct` yields after the values `seen` (proof-side
description of the traversal, used to state its result). -/
def firstOccurrences {α : Type} [DecidableEq α] : List α → List α → List α
  | _, [] => []
  | seen, a :: l =>
    if a ∈ seen then firstOccurrences seen l else a :: firstOccurrences (seen ++ [a]) l

/-! ## reverse -/

/-- The cursor `reverse_range::iterator`: `PrevIterators` is the vector the
cursor points to (`none` for `nullptr`), `Index` is a `size_t`. -/
structure reverse_range.iterator (σ : Type) where
  PrevIterators : Option (List σ)
  Index : Nat

/-- The loop `for (auto beg = Prev.begin(), end = Prev.end(); beg != end; ++beg)
PrevIterators.push_back(beg);` of `reverse_range::begin`. -/
def reverse_range.begin.loop {ρ σ α : Type} (Prev : Range ρ σ α) (e : σ) :
    Nat → σ → List σ → Option (List σ)
  | 0, _, _ => none
  | fuel + 1, beg, buf =>
    if Prev.ne beg e then
      match Prev.inc beg with
      | none => none
      | some beg1 => reverse_range.begin.loop Prev e fuel beg1 (buf ++ [beg])
    else some buf

/-- The class `reverse_range`: `begin()` clears and refills the member
`PrevIterators` and returns `iterator(&PrevIterators, PrevIterators.size() - 1)`;
`end()` is `iterator(nullptr, -1)`; `operator++` is `--Index`; `operator*` is
`*PrevIterators->at(Index)`. -/
def reverse_range {ρ σ α : Type} (fuel : Nat) (Prev : Range ρ σ α) :
    Range (ρ × List σ) (reverse_range.iterator σ) α where
  begin := fun r =>
    match Prev.begin r.1 with
    | none => none
    | some (b, r1) =>
      match Prev.end_ r1 with
      | none => none
      | some (e, r2) =>
        match reverse_range.begin.loop Prev e fuel b [] with
        | none => none
        | some buf => some (⟨some buf, (buf.length + SIZE_MOD - 1) % SIZE_MOD⟩, (r2, buf))
  end_ := fun r => some (⟨none, SIZE_MOD - 1⟩, r)
  eq := fun a b => decide (a.Index = b.Index)
  ne := fun a b => decide (a.Index ≠ b.Index)
  inc := fun it => some ⟨it.PrevIterators, (it.Index + SIZE_MOD - 1) % SIZE_MOD⟩
  deref := fun it =>
    match it.PrevIterators with
    | none => none
    | some buf =>
      match buf.get? it.Index with
      | none => none
      | some o =>
        match Prev.deref o with
        | none => none
        | some (v, o1) => some (v, ⟨some (buf.set it.Index o1), it.Index⟩)

/-! ## from_to -/

/-- The cursor `from_to_range<T>::iterator`; `Index` is an `int`, `Value` is the
`mutable` member written by `operator*`. -/
structure from_to_range.iterator (T : Type) where
  Index : Int
  Start : T
  Value : T
  Bound : T
  Step : T
  deriving DecidableEq, Repr

/-- Constructor `from_to_range::iterator::iterator(value, bound, step)`. -/
def from_to_range.iterator.mk_ {T : Type} (value bound step : T) : from_to_range.iterator T :=
  ⟨0, value, value, bound, step⟩

/-- The operator `from_to_range::iterator::operator*`: computes
`Step * Index + Start`, clamps it to `Bound` in the direction of `Step`, stores
it in `Value` and returns it. -/
def from_to_range.iterator.deref {T : Type} [Zero T] [Add T] [Mul T] [IntCast T] [LT T]
    [DecidableRel (fun (a b : T) => a < b)] (it : from_to_range.iterator T) :
    T × from_to_range.iterator T :=
  let Value := it.Step * (it.Index : T) + it.Start
  let Value :=
    if it.Step < 0 then
      if Value < it.Bound then it.Bound else Value
    else
      if Value > it.Bound then it.Bound else Value
  (Value, { it with Value := Value })

/-- The member `Step` after the constructor `from_to_range::from_to_range(start, end, step)`:
`if (Step < T()) Step = -Step; if (Start > End) Step = -Step;`. -/
def from_to_range.Step {T : Type} [Zero T] [Neg T] [LT T]
    [DecidableRel (fun (a b : T) => a < b)] (start end_ step : T) : T :=
  let Step := if step < 0 then -step else step
  if start > end_ then -Step else Step

/-- The class `from_to_range<T>` built by `from_to(start, end, step)`: `begin()`
is `iterator(Start, End, Step)`, `end()` is `iterator(End, T(), T())`, cursors
are compared by `Value`, `operator++` is `++Index`. -/
def from_to {T : Type} [Zero T] [Neg T] [Add T] [Mul T] [IntCast T] [LT T]
    [DecidableRel (fun (a b : T) => a < b)] [DecidableEq T] (start end_ step : T) :
    Range Unit (from_to_range.iterator T) T where
  begin := fun r =>
    some (from_to_range.iterator.mk_ start end_ (from_to_range.Step start end_ step), r)
  end_ := fun r => some (from_to_range.iterator.mk_ end_ 0 0, r)
  eq := fun a b => decide (a.Value = b.Value)
  ne := fun a b => decide (a.Value ≠ b.Value)
  inc := fun it => some { it with Index := it.Index + 1 }
  deref := fun it => some it.deref

/-! ## generate -/

/-- The struct `generator_return_value<T>`.  `Value` is `none` while it is
uninitialised (the default constructor only sets `IsEmpty`). -/
structure generator_return_value (T : Type) where
  Value : Option T
  IsEmpty : Bool
  deriving DecidableEq, Repr

/-- The function `generate_return(value)`, i.e. the constructor
`generator_return_value(const T& value)`. -/
def generate_return {T : Type} (value : T) : generator_return_value T :=
  ⟨some value, false⟩

/-- The function `generate_finish()`, i.e. the default constructor
`generator_return_value()`. -/
def generate_finish {T : Type} : generator_return_value T :=
  ⟨none, true⟩

/-- The cursor `generate_range::iterator`; `Iteration` is a `size_t`.  `Calls`
is a history variable that is not in the source: the arguments of all calls of
the generator made through this cursor, oldest first. -/
structure generate_range.iterator (T : Type) where
  Iteration : Nat
  LastResult : generator_return_value T
  Calls : List Nat

/-- Constructor `generate_range::iterator::iterator(parent, isEnd)`. -/
def generate_range.iterator.mk_ {T : Type} (generator : Nat → generator_return_value T)
    (isEnd : Bool) : generate_range.iterator T :=
  if isEnd then ⟨0, generate_finish, []⟩ else ⟨0, generator 0, [0]⟩

/-- The class `generate_range` built by `generate(generator)`: cursors are
compared by `LastResult`, that is by `IsEmpty` alone; `operator++` increments
`Iteration` and calls the generator; `operator*` converts `LastResult` to `T`. -/
def generate {T : Type} (generator : Nat → generator_return_value T) :
    Range Unit (generate_range.iterator T) T where
  begin := fun r => some (generate_range.iterator.mk_ generator false, r)
  end_ := fun r => some (generate_range.iterator.mk_ generator true, r)
  eq := fun a b => a.LastResult.IsEmpty == b.LastResult.IsEmpty
  ne := fun a b => a.LastResult.IsEmpty != b.LastResult.IsEmpty
  inc := fun it =>
    some ⟨(it.Iteration + 1) % SIZE_MOD, generator ((it.Iteration + 1) % SIZE_MOD),
      it.Calls ++ [(it.Iteration + 1) % SIZE_MOD]⟩
  deref := fun it =>
    match it.LastResult.Value with
    | none => none
    | some v => some (v, it)

/-! ## order_by and then_by -/

/-- Requirement of `std::sort` on its comparator: a strict weak ordering. -/
def StrictWeakOrdering {α : Type} (comp : α → α → Bool) : Prop :=
  (∀ a, comp a a = false) ∧
  (∀ a b c, comp a b = true → comp b c = true → comp a c = true) ∧
  (∀ a b c, comp a b = false → comp b a = false → comp b c = false → comp c b = false →
    comp a c = false ∧ comp c a = false)

/-- Contract of `std::sort` (C++ standard library, not part of `linq.h`; it is a
parameter of the embedding): for a strict weak ordering the result is a
permutation of the input in which no element compares less than an earlier
one.  Nothing is promised about the order of equivalent elements. -/
def StdSort (sort : (α : Type) → (α → α → Bool) → List α → List α) : Prop :=
  ∀ (α : Type) (comp : α → α → Bool) (l : List α), StrictWeakOrdering comp →
    (sort α comp l).Perm l ∧ (sort α comp l).Pairwise (fun a b => comp b a = false)

/-- The cursor `order_by_range::iterator`: `Pos` is the offset of the
`const_iterator` into the vector `SortedValues` it points into. -/
structure order_by_range.iterator (α : Type) where
  SortedValues : List α
  Pos : Nat

/-- The method `order_by_range::compare_keys`. -/
def order_by_range.compare_keys {α κ : Type} [LT κ] [DecidableRel (fun (a b : κ) => a < b)]
    (KeySelector : α → κ) (SortDirection : sort_direction) (a b : α) : Bool :=
  if SortDirection = sort_direction.ascending then
    decide (KeySelector a < KeySelector b)
  else
    decide (KeySelector b < KeySelector a)

/-- The class `order_by_range`: `begin()` clears `SortedValues`, copies every
element of `Prev` into it (`for (const auto& val : Prev) push_back(val)`, the
same loop as in `to_vector`), sorts it with `std::sort` and `compare_keys`, and
returns `iterator(SortedValues.begin())`; `end()` is `iterator(SortedValues.end())`. -/
def order_by_range {ρ σ α κ : Type} [LT κ] [DecidableRel (fun (a b : κ) => a < b)]
    (sort : (α : Type) → (α → α → Bool) → List α → List α) (fuel : Nat)
    (Prev : Range ρ σ α) (KeySelector : α → κ) (SortDirection : sort_direction) :
    Range (ρ × List α) (order_by_range.iterator α) α where
  begin := fun r =>
    match Prev.begin r.1 with
    | none => none
    | some (b, r1) =>
      match Prev.end_ r1 with
      | none => none
      | some (e, r2) =>
        match to_vector.loop Prev e fuel b [] with
        | none => none
        | some (vals, _) =>
          some (⟨sort α (order_by_range.compare_keys KeySelector SortDirection) vals, 0⟩,
            (r2, sort α (order_by_range.compare_keys KeySelector SortDirection) vals))
  end_ := fun r => some (⟨r.2, r.2.length⟩, r)
  eq := fun a b => decide (a.Pos = b.Pos)
  ne := fun a b => decide (a.Pos ≠ b.Pos)
  inc := fun it =>
    if it.Pos < it.SortedValues.length then some ⟨it.SortedValues, it.Pos + 1⟩ else none
  deref := fun it =>
    match it.SortedValues.get? it.Pos with
    | none => none
    | some v => some (v, it)

/-- The cursor `then_by_range::iterator`. -/
structure then_by_range.iterator (α : Type) where
  SortedValues : List α
  Pos : Nat

/-- The method `then_by_range::compare_keys`; `prev_compare_keys` is
`Prev.compare_keys` of the sorting range it is appended to. -/
def then_by_range.compare_keys {α κ : Type} [LT κ] [DecidableRel (fun (a b : κ) => a < b)]
    (prev_compare_keys : α → α → Bool) (KeySelector : α → κ) (SortDirection : sort_direction)
    (a b : α) : Bool :=
  if prev_compare_keys a b then true
  else if prev_compare_keys b a then false
  else if SortDirection = sort_direction.ascending then
    decide (KeySelector a < KeySelector b)
  else
    decide (KeySelector b < KeySelector a)

/-- The class `then_by_range`: as `order_by_range`, with its own `compare_keys`. -/
def then_by_range {ρ σ α κ : Type} [LT κ] [DecidableRel (fun (a b : κ) => a < b)]
    (sort : (α : Type) → (α → α → Bool) → List α → List α) (fuel : Nat)
    (Prev : Range ρ σ α) (prev_compare_keys : α → α → Bool) (KeySelector : α → κ)
    (SortDirection : sort_direction) :
    Range (ρ × List α) (then_by_range.iterator α) α where
  begin := fun r =>
    match Prev.begin r.1 with
    | none => none
    | some (b, r1) =>
      match Prev.end_ r1 with
      | none => none
      | some (e, r2) =>
        match to_vector.loop Prev e fuel b [] with
        | none => none
        | some (vals, _) =>
          some (⟨sort α (then_by_range.compare_keys prev_compare_keys KeySelector
              SortDirection) vals, 0⟩,
            (r2, sort α (then_by_range.compare_keys prev_compare_keys KeySelector
              SortDirection) vals))
  end_ := fun r => some (⟨r.2, r.2.length⟩, r)
  eq := fun a b => decide (a.Pos = b.Pos)
  ne := fun a b => decide (a.Pos ≠ b.Pos)
  inc := fun it =>
    if it.Pos < it.SortedValues.length then some ⟨it.SortedValues, it.Pos + 1⟩ else none
  deref := fun it =>
    match it.SortedValues.get? it.Pos with
    | none => none
    | some v => some (v, it)

/-- An implementation of `std::sort` by insertion, used to instantiate the
parameter `sort` in concrete evaluations. -/
def insertion_sort (α : Type) (comp : α → α → Bool) (l : List α) : List α :=
  l.insertionSort (fun a b => comp b a = false)

/-! ## join -/

/-- The cursor `join_range::iterator` (`Parent` is only used to reach the key
selectors, the transform and `OtherRange`, which are passed to the operations
instead). -/
structure join_range.iterator (σA σB : Type) where
  Begin : σA
  End : σA
  Pos : σA
  OtherBegin : σB
  OtherEnd : σB
  OtherPos : σB

/-- The inner loop `while (OtherPos != OtherEnd)` of `FindNext`: on
`keyA == keySelectorB(*OtherPos)` it sets `shouldContinue = false` and breaks,
otherwise it does `++OtherPos`.  Returns `!shouldContinue` and `OtherPos`. -/
def join_range.iterator.FindNext.inner {ρB σB β κ : Type} [DecidableEq κ]
    (Other : Range ρB σB β) (keySelectorB : β → κ) (keyA : κ) (OtherEnd : σB) :
    Nat → σB → Option (Bool × σB)
  | 0, _ => none
  | fuel + 1, OtherPos =>
    if Other.ne OtherPos OtherEnd then
      match Other.deref OtherPos with
      | none => none
      | some (vb, OtherPos1) =>
        if keyA = keySelectorB vb then some (true, OtherPos1)
        else
          match Other.inc OtherPos1 with
          | none => none
          | some OtherPos2 =>
            join_range.iterator.FindNext.inner Other keySelectorB keyA OtherEnd fuel OtherPos2
    else some (false, OtherPos)

/-- The outer loop `while (Pos != End) { ... }` of `FindNext`: scan the inner
sequence from `OtherPos`; put `OtherPos` back to `OtherBegin` if it reached
`OtherEnd`; stop on a match, otherwise `++Pos`. -/
def join_range.iterator.FindNext.outer {ρA ρB σA σB α β κ : Type} [DecidableEq κ]
    (innerFuel : Nat) (Prev : Range ρA σA α) (Other : Range ρB σB β)
    (keySelectorA : α → κ) (keySelectorB : β → κ) :
    Nat → join_range.iterator σA σB → Option (join_range.iterator σA σB)
  | 0, _ => none
  | fuel + 1, it =>
    if Prev.ne it.Pos it.End then
      match Prev.deref it.Pos with
      | none => none
      | some (va, Pos1) =>
        match join_range.iterator.FindNext.inner Other keySelectorB (keySelectorA va)
            it.OtherEnd innerFuel it.OtherPos with
        | none => none
        | some (found, OtherPos1) =>
          if found then
            some { it with
              Pos := Pos1
              OtherPos := if Other.eq OtherPos1 it.OtherEnd then it.OtherBegin else OtherPos1 }
          else
            match Prev.inc Pos1 with
            | none => none
            | some Pos2 =>
              join_range.iterator.FindNext.outer innerFuel Prev Other keySelectorA keySelectorB
                fuel { it with
                  Pos := Pos2
                  OtherPos :=
                    if Other.eq OtherPos1 it.OtherEnd then it.OtherBegin else OtherPos1 }
    else some it

/-- The method `join_range::iterator::FindNext(preIncrementOther)`. -/
def join_range.iterator.FindNext {ρA ρB σA σB α β κ : Type} [DecidableEq κ]
    (fuel : Nat) (Prev : Range ρA σA α) (Other : Range ρB σB β)
    (keySelectorA : α → κ) (keySelectorB : β → κ) (preIncrementOther : Bool)
    (it : join_range.iterator σA σB) : Option (join_range.iterator σA σB) :=
  if preIncrementOther then
    match Other.inc it.OtherPos with
    | none => none
    | some OtherPos1 =>
      join_range.iterator.FindNext.outer fuel Prev Other keySelectorA keySelectorB fuel
        { it with OtherPos := OtherPos1 }
  else
    join_range.iterator.FindNext.outer fuel Prev Other keySelectorA keySelectorB fuel it

/-- Constructor `join_range::iterator::iterator(begin, end, parent)`: the members
are built in declaration order (`OtherRange.begin()`, `OtherRange.end()`,
`OtherRange.begin()`), then `FindNext(false)` runs. -/
def join_range.iterator.mk_ {ρA ρB σA σB α β κ : Type} [DecidableEq κ]
    (fuel : Nat) (Prev : Range ρA σA α) (Other : Range ρB σB β)
    (keySelectorA : α → κ) (keySelectorB : β → κ) (b e : σA) (rB : ρB) :
    Option (join_range.iterator σA σB × ρB) :=
  match Other.begin rB with
  | none => none
  | some (ob, rB1) =>
    match Other.end_ rB1 with
    | none => none
    | some (oe, rB2) =>
      match Other.begin rB2 with
      | none => none
      | some (op, rB3) =>
        match join_range.iterator.FindNext fuel Prev Other keySelectorA keySelectorB false
            ⟨b, e, b, ob, oe, op⟩ with
        | none => none
        | some it => some (it, rB3)

/-- The class `join_range`: `begin()` is `iterator(Prev.begin(), Prev.end(), this)`,
`end()` is `iterator(Prev.end(), Prev.end(), this)`, cursors are compared by
`Pos`, `operator++` is `FindNext(true)` and `operator*` is
`transform(*Pos, *OtherPos)`. -/
def join_range {ρA ρB σA σB α β κ γ : Type} [DecidableEq κ]
    (fuel : Nat) (Prev : Range ρA σA α) (Other : Range ρB σB β)
    (keySelectorA : α → κ) (keySelectorB : β → κ) (transform : α → β → γ) :
    Range (ρA × ρB) (join_range.iterator σA σB) γ where
  begin := fun r =>
    match Prev.begin r.1 with
    | none => none
    | some (b, rA1) =>
      match Prev.end_ rA1 with
      | none => none
      | some (e, rA2) =>
        match join_range.iterator.mk_ fuel Prev Other keySelectorA keySelectorB b e r.2 with
        | none => none
        | some (it, rB1) => some (it, (rA2, rB1))
  end_ := fun r =>
    match Prev.end_ r.1 with
    | none => none
    | some (e1, rA1) =>
      match Prev.end_ rA1 with
      | none => none
      | some (e2, rA2) =>
        match join_range.iterator.mk_ fuel Prev Other keySelectorA keySelectorB e1 e2 r.2 with
        | none => none
        | some (it, rB1) => some (it, (rA2, rB1))
  eq := fun a b => Prev.eq a.Pos b.Pos
  ne := fun a b => Prev.ne a.Pos b.Pos
  inc := join_range.iterator.FindNext fuel Prev Other keySelectorA keySelectorB true
  deref := fun it =>
    match Prev.deref it.Pos with
    | none => none
    | some (va, Pos1) =>
      match Other.deref it.OtherPos with
      | none => none
      | some (vb, OtherPos1) => some (transform va vb, { it with Pos := Pos1, OtherPos := OtherPos1 })

/-- The nested-loop inner join in the words of the claim: for each `a` of the
outer list in order and, within it, each `b` of the inner list in order with
`kA a = kB b`, the value `f a b`. -/
def nested_loop_join {α β κ γ : Type} [DecidableEq κ] (kA : α → κ) (kB : β → κ)
    (f : α → β → γ) (A : List α) (B : List β) : List γ :=
  A.flatMap fun a => (B.filter fun b => decide (kA a = kB b)).map (f a)

/-- What a `join` cursor still yields when the outer cursor has `la` left and
the inner cursor has `lb` left of the whole inner list `lB`: the remaining
matches of the current outer element, then the full join of the later ones. -/
def join_rest {α β κ γ : Type} [DecidableEq κ] (kA : α → κ) (kB : β → κ)
    (f : α → β → γ) (lB : List β) : List α → List β → List γ
  | [], _ => []
  | a :: la, lb =>
    (lb.filter fun b => decide (kA a = kB b)).map (f a) ++ nested_loop_join kA kB f la lB

/-- The standard equi-join in the words of the claim: all key-matching pairs
of the outer and the inner list in outer-major order, combined by `f`. -/
def equi_join {α β κ γ : Type} [DecidableEq κ] (kA : α → κ) (kB : β → κ)
    (f : α → β → γ) (A : List α) (B : List β) : List γ :=
  ((A.product B).filter fun p => decide (kA p.1 = kB p.2)).map fun p => f p.1 p.2

/-! ## select -/

/-- The cursor `select_range::iterator` (`Parent` is only used to reach the
transform, which is passed to the operations instead). -/
structure select_range.iterator (σ : Type) where
  Begin : σ
  End : σ

/-- The class `select_range`: `begin()` is `iterator(this, Prev.begin(), Prev.end())`,
`end()` is `iterator(this, Prev.end(), Prev.end())`, `operator++` is `++Begin` and
`operator*` is `transform(*Begin)`. -/
def select_range {ρ σ α β : Type} (Prev : Range ρ σ α) (transform : α → β) :
    Range ρ (select_range.iterator σ) β where
  begin := fun r =>
    match Prev.begin r with
    | none => none
    | some (b, r1) =>
      match Prev.end_ r1 with
      | none => none
      | some (e, r2) => some (⟨b, e⟩, r2)
  end_ := fun r =>
    match Prev.end_ r with
    | none => none
    | some (e1, r1) =>
      match Prev.end_ r1 with
      | none => none
      | some (e2, r2) => some (⟨e1, e2⟩, r2)
  eq := fun a b => Prev.eq a.Begin b.Begin
  ne := fun a b => Prev.ne a.Begin b.Begin
  inc := fun it =>
    match Prev.inc it.Begin with
    | none => none
    | some b1 => some ⟨b1, it.End⟩
  deref := fun it =>
    match Prev.deref it.Begin with
    | none => none
    | some (v, b1) => some (transform v, ⟨b1, it.End⟩)

/-! ## take_while -/

/-- The cursor `take_while_range::iterator`. -/
structure take_while_range.iterator (σ : Type) where
  Begin : σ
  End : σ

/-- The statement `if (Begin != End && !pred(*Begin)) Begin = End;` shared by
the constructor and by `operator++` of `take_while_range::iterator`. -/
def take_while_range.iterator.check {ρ σ α : Type} (Prev : Range ρ σ α) (pred : α → Bool)
    (Begin End : σ) : Option (take_while_range.iterator σ) :=
  if Prev.ne Begin End then
    match Prev.deref Begin with
    | none => none
    | some (v, Begin1) => if !pred v then some ⟨End, End⟩ else some ⟨Begin1, End⟩
  else some ⟨Begin, End⟩

/-- The class `take_while_range`: `begin()` is `iterator(this, Prev.begin(), Prev.end())`,
`end()` is `iterator(this, Prev.end(), Prev.end())`; `operator++` is `++Begin`
followed by the check of the constructor. -/
def take_while_range {ρ σ α : Type} (Prev : Range ρ σ α) (pred : α → Bool) :
    Range ρ (take_while_range.iterator σ) α where
  begin := fun r =>
    match Prev.begin r with
    | none => none
    | some (b, r1) =>
      match Prev.end_ r1 with
      | none => none
      | some (e, r2) => (take_while_range.iterator.check Prev pred b e).map fun it => (it, r2)
  end_ := fun r =>
    match Prev.end_ r with
    | none => none
    | some (e1, r1) =>
      match Prev.end_ r1 with
      | none => none
      | some (e2, r2) => (take_while_range.iterator.check Prev pred e1 e2).map fun it => (it, r2)
  eq := fun a b => Prev.eq a.Begin b.Begin
  ne := fun a b => Prev.ne a.Begin b.Begin
  inc := fun it =>
    match Prev.inc it.Begin with
    | none => none
    | some b1 => take_while_range.iterator.check Prev pred b1 it.End
  deref := fun it =>
    match Prev.deref it.Begin with
    | none => none
    | some (v, b1) => some (v, ⟨b1, it.End⟩)

/-! ## skip -/

/-- The cursor `skip_range::iterator`. -/
structure skip_range.iterator (σ : Type) where
  Begin : σ

/-- The loop `while (Begin != end && count > 0) { ++Begin; --count; }` of the
constructor `skip_range::iterator::iterator(begin, end, count)`. -/
def skip_range.iterator.mk_ {ρ σ α : Type} (Prev : Range ρ σ α) (end_ : σ) :
    Nat → σ → Nat → Option (skip_range.iterator σ)
  | 0, _, _ => none
  | fuel + 1, Begin, count =>
    if Prev.ne Begin end_ && decide (count > 0) then
      match Prev.inc Begin with
      | none => none
      | some Begin1 =>
        skip_range.iterator.mk_ Prev end_ fuel Begin1 ((count + SIZE_MOD - 1) % SIZE_MOD)
    else some ⟨Begin⟩

/-- The class `skip_range`: `begin()` is `iterator(Prev.begin(), Prev.end(), Count)`,
`end()` is `iterator(Prev.end(), Prev.end(), 0)`. -/
def skip_range {ρ σ α : Type} (fuel : Nat) (Prev : Range ρ σ α) (Count : Nat) :
    Range ρ (skip_range.iterator σ) α where
  begin := fun r =>
    match Prev.begin r with
    | none => none
    | some (b, r1) =>
      match Prev.end_ r1 with
      | none => none
      | some (e, r2) => (skip_range.iterator.mk_ Prev e fuel b Count).map fun it => (it, r2)
  end_ := fun r =>
    match Prev.end_ r with
    | none => none
    | some (e1, r1) =>
      match Prev.end_ r1 with
      | none => none
      | some (e2, r2) => (skip_range.iterator.mk_ Prev e2 fuel e1 0).map fun it => (it, r2)
  eq := fun a b => Prev.eq a.Begin b.Begin
  ne := fun a b => Prev.ne a.Begin b.Begin
  inc := fun it =>
    match Prev.inc it.Begin with
    | none => none
    | some b1 => some ⟨b1⟩
  deref := fun it =>
    match Prev.deref it.Begin with
    | none => none
    | some (v, b1) => some (v, ⟨b1⟩)

/-! ## skip_while -/

/-- The cursor `skip_while_range::iterator`. -/
structure skip_while_range.iterator (σ : Type) where
  Begin : σ

/-- The loop `while (Begin != end && predicate(*Begin)) ++Begin;` of the
constructor `skip_while_range::iterator::iterator(begin, end, predicate)`. -/
def skip_while_range.iterator.mk_ {ρ σ α : Type} (Prev : Range ρ σ α) (predicate : α → Bool)
    (end_ : σ) : Nat → σ → Option (skip_while_range.iterator σ)
  | 0, _ => none
  | fuel + 1, Begin =>
    if Prev.ne Begin end_ then
      match Prev.deref Begin with
      | none => none
      | some (v, Begin1) =>
        if predicate v then
          match Prev.inc Begin1 with
          | none => none
          | some Begin2 => skip_while_range.iterator.mk_ Prev predicate end_ fuel Begin2
        else some ⟨Begin1⟩
    else some ⟨Begin⟩

/-- The class `skip_while_range`: `begin()` is `iterator(Prev.begin(), Prev.end(), *Predicate)`,
`end()` is `iterator(Prev.end(), Prev.end(), *Predicate)`. -/
def skip_while_range {ρ σ α : Type} (fuel : Nat) (Prev : Range ρ σ α) (predicate : α → Bool) :
    Range ρ (skip_while_range.iterator σ) α where
  begin := fun r =>
    match Prev.begin r with
    | none => none
    | some (b, r1) =>
      match Prev.end_ r1 with
      | none => none
      | some (e, r2) =>
        (skip_while_range.iterator.mk_ Prev predicate e fuel b).map fun it => (it, r2)
  end_ := fun r =>
    match Prev.end_ r with
    | none => none
    | some (e1, r1) =>
      match Prev.end_ r1 with
      | none => none
      | some (e2, r2) =>
        (skip_while_range.iterator.mk_ Prev predicate e2 fuel e1).map fun it => (it, r2)
  eq := fun a b => Prev.eq a.Begin b.Begin
  ne := fun a b => Prev.ne a.Begin b.Begin
  inc := fun it =>
    match Prev.inc it.Begin with
    | none => none
    | some b1 => some ⟨b1⟩
  deref := fun it =>
    match Prev.deref it.Begin with
    | none => none
    | some (v, b1) => some (v, ⟨b1⟩)

/-! ## append -/

/-- The cursor `append_range::iterator`. -/
structure append_range.iterator (σA σB : Type) where
  MyBegin : σA
  MyEnd : σA
  OtherBegin : σB
  OtherEnd : σB

/-- The class `append_range`: `begin()` is
`iterator(Prev.begin(), Prev.end(), OtherRange.begin(), OtherRange.end())`, `end()` is
`iterator(Prev.end(), Prev.end(), OtherRange.end(), OtherRange.end())`; cursors are
compared by `OtherBegin` alone; `operator++` advances `MyBegin` while
`MyBegin != MyEnd` and `OtherBegin` afterwards; `operator*` is
`(MyBegin != MyEnd) ? *MyBegin : *OtherBegin`. -/
def append_range {ρA ρB σA σB α : Type} (Prev : Range ρA σA α) (OtherRange : Range ρB σB α) :
    Range (ρA × ρB) (append_range.iterator σA σB) α where
  begin := fun r =>
    match Prev.begin r.1 with
    | none => none
    | some (b, rA1) =>
      match Prev.end_ rA1 with
      | none => none
      | some (e, rA2) =>
        match OtherRange.begin r.2 with
        | none => none
        | some (ob, rB1) =>
          match OtherRange.end_ rB1 with
          | none => none
          | some (oe, rB2) => some (⟨b, e, ob, oe⟩, (rA2, rB2))
  end_ := fun r =>
    match Prev.end_ r.1 with
    | none => none
    | some (e1, rA1) =>
      match Prev.end_ rA1 with
      | none => none
      | some (e2, rA2) =>
        match OtherRange.end_ r.2 with
        | none => none
        | some (oe1, rB1) =>
          match OtherRange.end_ rB1 with
          | none => none
          | some (oe2, rB2) => some (⟨e1, e2, oe1, oe2⟩, (rA2, rB2))
  eq := fun a b => OtherRange.eq a.OtherBegin b.OtherBegin
  ne := fun a b => OtherRange.ne a.OtherBegin b.OtherBegin
  inc := fun it =>
    if Prev.ne it.MyBegin it.MyEnd then
      match Prev.inc it.MyBegin with
      | none => none
      | some b1 => some { it with MyBegin := b1 }
    else
      match OtherRange.inc it.OtherBegin with
      | none => none
      | some ob1 => some { it with OtherBegin := ob1 }
  deref := fun it =>
    if Prev.ne it.MyBegin it.MyEnd then
      match Prev.deref it.MyBegin with
      | none => none
      | some (v, b1) => some (v, { it with MyBegin := b1 })
    else
      match OtherRange.deref it.OtherBegin with
      | none => none
      | some (v, ob1) => some (v, { it with OtherBegin := ob1 })

/-! ## repeat -/

/-- The cursor `repeat_range::iterator`: `PrevRange` is the mutable part of the
sequence `PrevRangePtr` points to, `Count` is a `size_t`. -/
structure repeat_range.iterator (ρ σ : Type) where
  PrevRange : ρ
  Pos : σ
  End : σ
  Count : Nat

/-- The class `repeat_range`: `begin()` is `iterator(&Prev, Prev.begin(), Prev.end(), Count)`,
`end()` is `iterator(&Prev, Prev.end(), Prev.end(), 0)`; `operator++` is
`++Pos; if (Pos == End && Count > 0) { Pos = PrevRangePtr->begin(); --Count; }`. -/
def repeat_range {ρ σ α : Type} (Prev : Range ρ σ α) (Count : Nat) :
    Range ρ (repeat_range.iterator ρ σ) α where
  begin := fun r =>
    match Prev.begin r with
    | none => none
    | some (b, r1) =>
      match Prev.end_ r1 with
      | none => none
      | some (e, r2) => some (⟨r2, b, e, Count⟩, r2)
  end_ := fun r =>
    match Prev.end_ r with
    | none => none
    | some (e1, r1) =>
      match Prev.end_ r1 with
      | none => none
      | some (e2, r2) => some (⟨r2, e1, e2, 0⟩, r2)
  eq := fun a b => Prev.eq a.Pos b.Pos
  ne := fun a b => Prev.ne a.Pos b.Pos
  inc := fun it =>
    match Prev.inc it.Pos with
    | none => none
    | some p1 =>
      if Prev.eq p1 it.End && decide (it.Count > 0) then
        match Prev.begin it.PrevRange with
        | none => none
        | some (b, r1) => some ⟨r1, b, it.End, (it.Count + SIZE_MOD - 1) % SIZE_MOD⟩
      else some { it with Pos := p1 }
  deref := fun it =>
    match Prev.deref it.Pos with
    | none => none
    | some (v, p1) => some (v, { it with Pos := p1 })

/-! ## select_many -/

/-- The cursor `select_many_range::iterator`.  `RetRange` is the sequence value
returned by the transform (its cursor protocol and its mutable part),
`RetBegin` and `RetEnd` are cursors of it; the three are `none` while they are
uninitialised (the constructor leaves them so when `Pos == End`). -/
structure select_many_range.iterator (σ ρ2 σ2 β : Type) where
  Pos : σ
  End : σ
  RetRange : Option (Range ρ2 σ2 β × ρ2)
  RetBegin : Option σ2
  RetEnd : Option σ2

/-- The comparison `RetBegin == RetEnd` (undefined while uninitialised). -/
def select_many_range.iterator.ret_eq {σ ρ2 σ2 β : Type}
    (it : select_many_range.iterator σ ρ2 σ2 β) : Option Bool :=
  match it.RetRange, it.RetBegin, it.RetEnd with
  | some (R2, _), some rb, some re => some (R2.eq rb re)
  | _, _, _ => none

/-- The statements `RetRange = transform(*Pos); RetBegin = RetRange.begin();
RetEnd = RetRange.end();`. -/
def select_many_range.iterator.load {ρ σ α ρ2 σ2 β : Type} (Prev : Range ρ σ α)
    (transform : α → Range ρ2 σ2 β × ρ2) (Pos End : σ) :
    Option (select_many_range.iterator σ ρ2 σ2 β) :=
  match Prev.deref Pos with
  | none => none
  | some (v, Pos1) =>
    match (transform v).1.begin (transform v).2 with
    | none => none
    | some (rb, r3) =>
      match (transform v).1.end_ r3 with
      | none => none
      | some (re, r4) => some ⟨Pos1, End, some ((transform v).1, r4), some rb, some re⟩

/-- The `do ... while (RetBegin == RetEnd)` loop of the constructor: `++Pos`
unless it is the first round, `break` when `Pos == End`, otherwise load the
sequence returned for `*Pos`. -/
def select_many_range.iterator.mk_.loop {ρ σ α ρ2 σ2 β : Type} (Prev : Range ρ σ α)
    (transform : α → Range ρ2 σ2 β × ρ2) :
    Nat → Bool → select_many_range.iterator σ ρ2 σ2 β →
      Option (select_many_range.iterator σ ρ2 σ2 β)
  | 0, _, _ => none
  | fuel + 1, first, it =>
    match (if first then some it.Pos else Prev.inc it.Pos) with
    | none => none
    | some Pos1 =>
      if Prev.eq Pos1 it.End then some { it with Pos := Pos1 }
      else
        match select_many_range.iterator.load Prev transform Pos1 it.End with
        | none => none
        | some it1 =>
          match it1.ret_eq with
          | none => none
          | some true => select_many_range.iterator.mk_.loop Prev transform fuel false it1
          | some false => some it1

/-- Constructor `select_many_range::iterator::iterator(parent, pos, end)`. -/
def select_many_range.iterator.mk_ {ρ σ α ρ2 σ2 β : Type} (fuel : Nat) (Prev : Range ρ σ α)
    (transform : α → Range ρ2 σ2 β × ρ2) (pos end_ : σ) :
    Option (select_many_range.iterator σ ρ2 σ2 β) :=
  if Prev.ne pos end_ then
    select_many_range.iterator.mk_.loop Prev transform fuel true ⟨pos, end_, none, none, none⟩
  else some ⟨pos, end_, none, none, none⟩

/-- The operator `select_many_range::iterator::operator++`:
`if (RetBegin != RetEnd) ++RetBegin;` then, `if (RetBegin == RetEnd)`, `++Pos` and,
if `Pos != End`, load the sequence returned for `*Pos` (without looking whether
it is empty). -/
def select_many_range.iterator.inc {ρ σ α ρ2 σ2 β : Type} (Prev : Range ρ σ α)
    (transform : α → Range ρ2 σ2 β × ρ2) (it : select_many_range.iterator σ ρ2 σ2 β) :
    Option (select_many_range.iterator σ ρ2 σ2 β) :=
  match it.RetRange, it.RetBegin, it.RetEnd with
  | some (R2, r2), some rb, some re =>
    match (if R2.ne rb re then R2.inc rb else some rb) with
    | none => none
    | some rb1 =>
      if R2.eq rb1 re then
        match Prev.inc it.Pos with
        | none => none
        | some Pos1 =>
          if Prev.ne Pos1 it.End then select_many_range.iterator.load Prev transform Pos1 it.End
          else some ⟨Pos1, it.End, some (R2, r2), some rb1, some re⟩
      else some { it with RetBegin := some rb1 }
  | _, _, _ => none

/-- The class `select_many_range`: `begin()` is `iterator(this, Prev.begin(), Prev.end())`,
`end()` is `iterator(this, Prev.end(), Prev.end())`, cursors are compared by `Pos`
and `operator*` is `*RetBegin`. -/
def select_many_range {ρ σ α ρ2 σ2 β : Type} (fuel : Nat) (Prev : Range ρ σ α)
    (transform : α → Range ρ2 σ2 β × ρ2) :
    Range ρ (select_many_range.iterator σ ρ2 σ2 β) β where
  begin := fun r =>
    match Prev.begin r with
    | none => none
    | some (b, r1) =>
      match Prev.end_ r1 with
      | none => none
      | some (e, r2) =>
        (select_many_range.iterator.mk_ fuel Prev transform b e).map fun it => (it, r2)
  end_ := fun r =>
    match Prev.end_ r with
    | none => none
    | some (e1, r1) =>
      match Prev.end_ r1 with
      | none => none
      | some (e2, r2) =>
        (select_many_range.iterator.mk_ fuel Prev transform e1 e2).map fun it => (it, r2)
  eq := fun a b => Prev.eq a.Pos b.Pos
  ne := fun a b => Prev.ne a.Pos b.Pos
  inc := select_many_range.iterator.inc Prev transform
  deref := fun it =>
    match it.RetRange, it.RetBegin with
    | some (R2, _), some rb =>
      match R2.deref rb with
      | none => none
      | some (v, rb1) => some (v, { it with RetBegin := some rb1 })
    | _, _ => none

/-! ## Terminal operations of base_range -/

/-- The loop `for (const auto& p : range) body` of the terminal operations:
`body` maps the local variables and the element read to the new local
variables and tells whether it executed `return`. -/
def range_for.loop {ρ σ α β : Type} (R : Range ρ σ α) (e : σ) (body : β → α → β × Bool) :
    Nat → σ → β → Option β
  | 0, _, _ => none
  | fuel + 1, it, s =>
    if R.ne it e then
      match R.deref it with
      | none => none
      | some (p, it1) =>
        match body s p with
        | (s1, true) => some s1
        | (s1, false) =>
          match R.inc it1 with
          | none => none
          | some it2 => range_for.loop R e body fuel it2 s1
    else some s

/-- A terminal operation made of local variables `init` and one range-for loop
over the sequence: `begin()` is evaluated first, then `end()`. -/
def range_for {ρ σ α β : Type} (fuel : Nat) (R : Range ρ σ α) (r : ρ) (init : β)
    (body : β → α → β × Bool) : Option β :=
  match R.begin r with
  | none => none
  | some (b, r1) =>
    match R.end_ r1 with
    | none => none
    | some (e, _) => range_for.loop R e body fuel b init

/-- The method `base_range::sum`; the locals are `(first, sum)`. -/
def base_range.sum {ρ σ T : Type} [Zero T] [Add T] (fuel : Nat) (R : Range ρ σ T) (r : ρ) :
    Option T :=
  (range_for fuel R r ((true, 0) : Bool × T) fun s p =>
    if s.1 then ((false, p), false) else ((false, s.2 + p), false)).map Prod.snd

/-- The method `base_range::min`; the locals are `(first, min)`. -/
def base_range.min {ρ σ T : Type} [Zero T] [LT T] [DecidableRel (fun (a b : T) => a < b)]
    (fuel : Nat) (R : Range ρ σ T) (r : ρ) : Option T :=
  (range_for fuel R r ((true, 0) : Bool × T) fun s p =>
    if s.1 then ((false, p), false)
    else if p < s.2 then ((false, p), false) else (s, false)).map Prod.snd

/-- The method `base_range::max`; the locals are `(first, max)`. -/
def base_range.max {ρ σ T : Type} [Zero T] [LT T] [DecidableRel (fun (a b : T) => a < b)]
    (fuel : Nat) (R : Range ρ σ T) (r : ρ) : Option T :=
  (range_for fuel R r ((true, 0) : Bool × T) fun s p =>
    if s.1 then ((false, p), false)
    else if s.2 < p then ((false, p), false) else (s, false)).map Prod.snd

/-- The method `base_range::aggregate(func)`; the locals are `(first, sum)`. -/
def base_range.aggregate {ρ σ T : Type} [Zero T] (fuel : Nat) (R : Range ρ σ T) (r : ρ)
    (func : T → T → T) : Option T :=
  (range_for fuel R r ((true, 0) : Bool × T) fun s p =>
    if s.1 then ((false, p), false) else ((false, func s.2 p), false)).map Prod.snd

/-- The method `base_range::first(defaultValue)`: returns from inside the loop. -/
def base_range.first {ρ σ α : Type} (fuel : Nat) (R : Range ρ σ α) (r : ρ) (defaultValue : α) :
    Option α :=
  range_for fuel R r defaultValue fun _ p => (p, true)

/-- The method `base_range::first(predicate, defaultValue)`. -/
def base_range.first_if {ρ σ α : Type} (fuel : Nat) (R : Range ρ σ α) (r : ρ)
    (predicate : α → Bool) (defaultValue : α) : Option α :=
  range_for fuel R r defaultValue fun s p => if predicate p then (p, true) else (s, false)

/-- The method `base_range::last(defaultValue)`; the local is `ret`. -/
def base_range.last {ρ σ α : Type} (fuel : Nat) (R : Range ρ σ α) (r : ρ) (defaultValue : α) :
    Option α :=
  range_for fuel R r defaultValue fun _ p => (p, false)

/-- The method `base_range::last(predicate, defaultValue)`. -/
def base_range.last_if {ρ σ α : Type} (fuel : Nat) (R : Range ρ σ α) (r : ρ)
    (predicate : α → Bool) (defaultValue : α) : Option α :=
  range_for fuel R r defaultValue fun s p => if predicate p then (p, false) else (s, false)

/-- The method `base_range::any(predicate)`. -/
def base_range.any {ρ σ α : Type} (fuel : Nat) (R : Range ρ σ α) (r : ρ)
    (predicate : α → Bool) : Option Bool :=
  range_for fuel R r false fun s p => if predicate p then (true, true) else (s, false)

/-- The method `base_range::all(predicate)`. -/
def base_range.all {ρ σ α : Type} (fuel : Nat) (R : Range ρ σ α) (r : ρ)
    (predicate : α → Bool) : Option Bool :=
  range_for fuel R r true fun s p => if !predicate p then (false, true) else (s, false)

/-- The method `base_range::count()`; the local `ret` is a `size_t`. -/
def base_range.count {ρ σ α : Type} (fuel : Nat) (R : Range ρ σ α) (r : ρ) : Option Nat :=
  range_for fuel R r 0 fun ret _ => ((ret + 1) % SIZE_MOD, false)

/-- The method `base_range::count(predicate)`. -/
def base_range.count_if {ρ σ α : Type} (fuel : Nat) (R : Range ρ σ α) (r : ρ)
    (predicate : α → Bool) : Option Nat :=
  range_for fuel R r 0 fun ret p =>
    if predicate p then ((ret + 1) % SIZE_MOD, false) else (ret, false)

/-- The method `base_range::element_at(index, defaultValue)`; the locals are
`(i, result)` with `i` a `size_t`. -/
def base_range.element_at {ρ σ α : Type} (fuel : Nat) (R : Range ρ σ α) (r : ρ) (index : Nat)
    (defaultValue : α) : Option α :=
  (range_for fuel R r ((0, defaultValue) : Nat × α) fun s p =>
    if s.1 ≥ index then ((s.1, p), true) else (((s.1 + 1) % SIZE_MOD, s.2), false)).map Prod.snd

/-- Arithmetic of `double` as far as `avg_calculator` uses it, kept abstract:
`of_int` is `static_cast<double>`, `div` divides by a `size_t` count and `zero`
is the literal `0.0`. -/
structure double_arith (D : Type) where
  of_int : Int → D
  div : D → Nat → D
  zero : D

/-- The method `avg_calculator<TRange, int>::calc`:
`count = op.count(); return (count > 0) ? (static_cast<double>(op.sum()) / count) : 0.0;`. -/
def avg_calculator_int.calc {ρ σ D : Type} (dbl : double_arith D) (fuel : Nat)
    (op : Range ρ σ Int) (r : ρ) : Option D :=
  match base_range.count fuel op r with
  | none => none
  | some count =>
    if count > 0 then
      match base_range.sum fuel op r with
      | none => none
      | some sum => some (dbl.div (dbl.of_int sum) count)
    else some dbl.zero

/-- The method `base_range::average` for the element type `int`. -/
def base_range.average {ρ σ D : Type} (dbl : double_arith D) (fuel : Nat)
    (R : Range ρ σ Int) (r : ρ) : Option D :=
  avg_calculator_int.calc dbl fuel R r

/-- What a range-for loop with the given body computes from the local variables
`s` over the elements `l`. -/
def fold_break {α β : Type} (body : β → α → β × Bool) : β → List α → β
  | s, [] => s
  | s, a :: l =>
    match body s a with
    | (s1, true) => s1
    | (s1, false) => fold_break body s1 l

/-! ## The promotion rules of avg_calculator -/

/-- The built-in arithmetic types of C++ (the possible element types `TInput`
that `std::is_integral` or `std::is_floating_point` accepts). -/
inductive builtin_type where
  | bool_
  | char_
  | signed_char
  | unsigned_char
  | wchar_t
  | char16_t
  | char32_t
  | short_
  | int_
  | long_
  | long_long
  | unsigned_short
  | unsigned_int
  | unsigned_long
  | unsigned_long_long
  | float_
  | double_
  | long_double
  deriving DecidableEq, Repr

/-- The trait `std::is_floating_point` on the built-in arithmetic types. -/
def builtin_type.is_floating_point : builtin_type → Bool
  | .float_ => true
  | .double_ => true
  | .long_double => true
  | _ => false

/-- The trait `std::is_integral` on the built-in arithmetic types. -/
def builtin_type.is_integral (t : builtin_type) : Bool :=
  !t.is_floating_point

/-- The member type `avg_calculator<TRange, TInput>::output_t`: `double` in the
specialisations for `short`, `int`, `long`, `long long`, their unsigned forms
and `double`, `float` in the one for `float`, and `TInput` in the primary
template, which every other type uses. -/
def avg_calculator.output_t : builtin_type → builtin_type
  | .short_ => .double_
  | .int_ => .double_
  | .long_ => .double_
  | .long_long => .double_
  | .unsigned_short => .double_
  | .unsigned_int => .double_
  | .unsigned_long => .double_
  | .unsigned_long_long => .double_
  | .float_ => .float_
  | .double_ => .double_
  | t => t

/-- Whether `avg_calculator<TRange, TInput>::calc` divides
`static_cast<double>(op.sum())` by the count (the eight integer specialisations)
rather than `op.sum()` itself (primary template, `float`, `double`). -/
def avg_calculator.casts_sum_to_double : builtin_type → Bool
  | .short_ => true
  | .int_ => true
  | .long_ => true
  | .long_long => true
  | .unsigned_short => true
  | .unsigned_int => true
  | .unsigned_long => true
  | .unsigned_long_long => true
  | _ => false

/-- Whether the division in `calc` is a floating-point division: the dividend
is either cast to `double` or of a floating element type; otherwise
`op.sum() / count` divides two integers. -/
def avg_calculator.real_division (t : builtin_type) : Bool :=
  avg_calculator.casts_sum_to_double t || t.is_floating_point

/-! ## The element type unsigned int -/

/-- The number of values of `unsigned int` (32 bits). -/
def UINT_MOD : Nat := 4294967296

/-- The type `unsigned int`: a value is a natural number below `UINT_MOD`, and
every operation wraps modulo `UINT_MOD`. -/
structure unsigned_int where
  val : Nat
  deriving DecidableEq, Repr

/-- The value `unsigned()`, which is `T()` for `T = unsigned int`. -/
instance unsigned_int.instZero : Zero unsigned_int := ⟨⟨0⟩⟩

/-- Addition of `unsigned int`, modulo `UINT_MOD`. -/
instance unsigned_int.instAdd : Add unsigned_int :=
  ⟨fun a b => ⟨(a.val + b.val) % UINT_MOD⟩⟩

/-- Multiplication of `unsigned int`, modulo `UINT_MOD`. -/
instance unsigned_int.instMul : Mul unsigned_int :=
  ⟨fun a b => ⟨(a.val * b.val) % UINT_MOD⟩⟩

/-- Unary minus of `unsigned int`: `UINT_MOD - a` modulo `UINT_MOD`. -/
instance unsigned_int.instNeg : Neg unsigned_int :=
  ⟨fun a => ⟨(UINT_MOD - a.val % UINT_MOD) % UINT_MOD⟩⟩

/-- Conversion of an `int` operand to `unsigned int` (the usual arithmetic
conversion applied to `Index` in `Step * Index`): reduction modulo `UINT_MOD`. -/
instance unsigned_int.instIntCast : IntCast unsigned_int :=
  ⟨fun i => ⟨(i % (UINT_MOD : Int)).toNat⟩⟩

/-- Comparison `<` of `unsigned int`. -/
instance unsigned_int.instLT : LT unsigned_int := ⟨fun a b => a.val < b.val⟩

/-- Comparison `<` of `unsigned int` is decided by comparing the values. -/
instance unsigned_int.instDecidableLT :
    DecidableRel (fun (a b : unsigned_int) => a < b) :=
  fun a b => inferInstanceAs (Decidable (a.val < b.val))

/-! ## Chains of sorting ranges -/

/-- One sorting range of a chain `order_by(k1, d1).then_by(k2, d2)...`: its key
type with the order `<` of the keys, its key selector and its direction. -/
structure sort_stage (α : Type) where
  κ : Type
  ord : LinearOrder κ
  KeySelector : α → κ
  SortDirection : sort_direction

attribute [instance] sort_stage.ord

/-- The method `compare_keys` of the last range of the chain
`order_by(s).then_by(t1)...then_by(tn)`: the `order_by_range` uses its own
`compare_keys`, and every `then_by_range` calls `Prev.compare_keys` of the range
it was appended to. -/
def chain_compare_keys {α : Type} (s : sort_stage α) (ts : List (sort_stage α)) :
    α → α → Bool :=
  ts.foldl
    (fun (pc : α → α → Bool) (t : sort_stage α) =>
      then_by_range.compare_keys pc t.KeySelector t.SortDirection)
    (order_by_range.compare_keys s.KeySelector s.SortDirection)

/-- Whether `a` and `b` have equal keys at every stage of the list. -/
def keys_equal {α : Type} : List (sort_stage α) → α → α → Bool
  | [], _, _ => true
  | t :: ts, a, b =>
    decide (t.KeySelector a = t.KeySelector b) && keys_equal ts a b

/-- The lexicographic strict order over the keys of the stages, first stage
most significant: `a` is before `b` when at the first stage where their keys
differ the key of `a` comes first in the direction of that stage. -/
def lexicographic_lt {α : Type} : List (sort_stage α) → α → α → Bool
  | [], _, _ => false
  | t :: ts, a, b =>
    order_by_range.compare_keys t.KeySelector t.SortDirection a b ||
      (decide (t.KeySelector a = t.KeySelector b) && lexicographic_lt ts a b)

/-! ## std::sort of libstdc++ -/

/-- The comparison `__comp(__a, __b)` of the sort routines of libstdc++ on two
positions of the vector `v` (`_Iter_comp_iter`): `comp(*__a, *__b)`.  Positions
are offsets from `v.begin()`; a position outside the vector cannot be read. -/
def std.iter_comp {α : Type} (comp : α → α → Bool) (v : List α) (a b : Nat) : Option Bool :=
  match v.get? a, v.get? b with
  | some x, some y => some (comp x y)
  | _, _ => none

/-- The function `std::iter_swap(__a, __b)` on two positions of `v`. -/
def std.iter_swap {α : Type} (v : List α) (a b : Nat) : Option (List α) :=
  match v.get? a, v.get? b with
  | some x, some y => some ((v.set a y).set b x)
  | _, _ => none

/-- The function `std::__move_median_to_first(__result, __a, __b, __c, __comp)`
(`bits/stl_algo.h`): swaps the median of `*__a`, `*__b`, `*__c` to `*__result`. -/
def std.__move_median_to_first {α : Type} (comp : α → α → Bool) (v : List α)
    (result a b c : Nat) : Option (List α) :=
  match std.iter_comp comp v a b, std.iter_comp comp v b c, std.iter_comp comp v a c with
  | some ab, some bc, some ac =>
    if ab then
      if bc then std.iter_swap v result b
      else if ac then std.iter_swap v result c
      else std.iter_swap v result a
    else if ac then std.iter_swap v result a
    else if bc then std.iter_swap v result c
    else std.iter_swap v result b
  | _, _, _ => none

/-- The loop `while (__comp(__first, __pivot)) ++__first;` of
`std::__unguarded_partition`. -/
def std.__unguarded_partition.up {α : Type} (comp : α → α → Bool) (v : List α) (pivot : Nat) :
    Nat → Nat → Option Nat
  | 0, _ => none
  | fuel + 1, first =>
    match std.iter_comp comp v first pivot with
    | none => none
    | some true => std.__unguarded_partition.up comp v pivot fuel (first + 1)
    | some false => some first

/-- The loop `while (__comp(__pivot, __last)) --__last;` of
`std::__unguarded_partition`. -/
def std.__unguarded_partition.down {α : Type} (comp : α → α → Bool) (v : List α)
    (pivot : Nat) : Nat → Nat → Option Nat
  | 0, _ => none
  | fuel + 1, last =>
    match std.iter_comp comp v pivot last with
    | none => none
    | some true =>
      if last = 0 then none
      else std.__unguarded_partition.down comp v pivot fuel (last - 1)
    | some false => some last

/-- The function `std::__unguarded_partition(__first, __last, __pivot, __comp)`:
`while (true) { up; --__last; down; if (!(__first < __last)) return __first;
iter_swap(__first, __last); ++__first; }`.  Returns the vector and the position
returned. -/
def std.__unguarded_partition {α : Type} (comp : α → α → Bool) (pivot : Nat) :
    Nat → List α → Nat → Nat → Option (List α × Nat)
  | 0, _, _, _ => none
  | fuel + 1, v, first, last =>
    match std.__unguarded_partition.up comp v pivot (v.length + 1) first with
    | none => none
    | some first1 =>
      if last = 0 then none
      else
        match std.__unguarded_partition.down comp v pivot (v.length + 1) (last - 1) with
        | none => none
        | some last1 =>
          if !decide (first1 < last1) then some (v, first1)
          else
            match std.iter_swap v first1 last1 with
            | none => none
            | some v1 => std.__unguarded_partition comp pivot fuel v1 (first1 + 1) last1

/-- The function `std::__unguarded_partition_pivot(__first, __last, __comp)`:
`__mid = __first + (__last - __first) / 2`, then
`__move_median_to_first(__first, __first + 1, __mid, __last - 1)` and
`__unguarded_partition(__first + 1, __last, __first)`. -/
def std.__unguarded_partition_pivot {α : Type} (comp : α → α → Bool) (v : List α)
    (first last : Nat) : Option (List α × Nat) :=
  match std.__move_median_to_first comp v first (first + 1) (first + (last - first) / 2)
      (last - 1) with
  | none => none
  | some v1 => std.__unguarded_partition comp first (v1.length + 1) v1 (first + 1) last

/-- The loop of `std::__unguarded_linear_insert`:
`while (__comp(__val, __next)) { *__last = *__next; __last = __next; --__next; }
*__last = __val;` with `__next = __last - 1` (`_Val_comp_iter`: `comp(__val, *__next)`). -/
def std.__unguarded_linear_insert.loop {α : Type} (comp : α → α → Bool) (val : α) :
    Nat → List α → Nat → Option (List α)
  | 0, _, _ => none
  | fuel + 1, v, last =>
    if last = 0 then none
    else
      match v.get? (last - 1) with
      | none => none
      | some x =>
        if comp val x then
          std.__unguarded_linear_insert.loop comp val fuel (v.set last x) (last - 1)
        else some (v.set last val)

/-- The function `std::__unguarded_linear_insert(__last, __comp)`. -/
def std.__unguarded_linear_insert {α : Type} (comp : α → α → Bool) (v : List α) (last : Nat) :
    Option (List α) :=
  match v.get? last with
  | none => none
  | some val => std.__unguarded_linear_insert.loop comp val (v.length + 1) v last

/-- The loop `for (__i = __first + 1; __i != __last; ++__i)` of
`std::__insertion_sort`: when `__comp(__i, __first)` the element `*__i` is moved
to `*__first` after `move_backward(__first, __i, __i + 1)`, otherwise
`__unguarded_linear_insert(__i)` runs. -/
def std.__insertion_sort.loop {α : Type} (comp : α → α → Bool) (first last : Nat) :
    Nat → List α → Nat → Option (List α)
  | 0, _, _ => none
  | fuel + 1, v, i =>
    if i ≠ last then
      match std.iter_comp comp v i first with
      | none => none
      | some true =>
        match v.get? i with
        | none => none
        | some val =>
          std.__insertion_sort.loop comp first last fuel
            (v.take first ++ val :: ((v.drop first).take (i - first) ++ v.drop (i + 1)))
            (i + 1)
      | some false =>
        match std.__unguarded_linear_insert comp v i with
        | none => none
        | some v1 => std.__insertion_sort.loop comp first last fuel v1 (i + 1)
    else some v

/-- The function `std::__insertion_sort(__first, __last, __comp)`. -/
def std.__insertion_sort {α : Type} (comp : α → α → Bool) (v : List α) (first last : Nat) :
    Option (List α) :=
  if first = last then some v
  else std.__insertion_sort.loop comp first last (v.length + 1) v (first + 1)

/-- The function `std::__unguarded_insertion_sort(__first, __last, __comp)`:
`for (__i = __first; __i != __last; ++__i) __unguarded_linear_insert(__i);`. -/
def std.__unguarded_insertion_sort {α : Type} (comp : α → α → Bool) (last : Nat) :
    Nat → List α → Nat → Option (List α)
  | 0, _, _ => none
  | fuel + 1, v, i =>
    if i ≠ last then
      match std.__unguarded_linear_insert comp v i with
      | none => none
      | some v1 => std.__unguarded_insertion_sort comp last fuel v1 (i + 1)
    else some v

/-- The constant `_S_threshold`. -/
def std._S_threshold : Nat := 16

/-- The function `std::__final_insertion_sort(__first, __last, __comp)`. -/
def std.__final_insertion_sort {α : Type} (comp : α → α → Bool) (v : List α)
    (first last : Nat) : Option (List α) :=
  if last - first > std._S_threshold then
    match std.__insertion_sort comp v first (first + std._S_threshold) with
    | none => none
    | some v1 =>
      std.__unguarded_insertion_sort comp last (v1.length + 1) v1 (first + std._S_threshold)
  else std.__insertion_sort comp v first last

/-- The function `std::__introsort_loop(__first, __last, __depth_limit, __comp)`:
`while (__last - __first > _S_threshold) { if (__depth_limit == 0) { __partial_sort;
return; } --__depth_limit; __cut = __unguarded_partition_pivot(__first, __last);
__introsort_loop(__cut, __last, __depth_limit); __last = __cut; }`.  The heap sort
`std::__partial_sort` of an exhausted depth limit is not embedded: such a run
has no result here. -/
def std.__introsort_loop {α : Type} (comp : α → α → Bool) :
    Nat → List α → Nat → Nat → Option (List α)
  | 0, v, first, last => if last - first > std._S_threshold then none else some v
  | depth_limit + 1, v, first, last =>
    if last - first > std._S_threshold then
      match std.__unguarded_partition_pivot comp v first last with
      | none => none
      | some (v1, cut) =>
        match std.__introsort_loop comp depth_limit v1 cut last with
        | none => none
        | some v2 => std.__introsort_loop comp depth_limit v2 first cut
    else some v

/-- The function `std::__lg(__n)`, the position of the highest set bit of
`__n > 0`: the largest `k` with `2 ^ k <= __n`. -/
def std.__lg.loop : Nat → Nat → Nat
  | 0, _ => 0
  | fuel + 1, n => if n ≥ 2 then std.__lg.loop fuel (n / 2) + 1 else 0

/-- The function `std::__lg(__n)`. -/
def std.__lg (n : Nat) : Nat := std.__lg.loop n n

/-- The function `std::__sort(__first, __last, __comp)`:
`if (__first != __last) { __introsort_loop(__first, __last, __lg(__last - __first) * 2);
__final_insertion_sort(__first, __last); }`. -/
def std.__sort {α : Type} (comp : α → α → Bool) (v : List α) (first last : Nat) :
    Option (List α) :=
  if first ≠ last then
    match std.__introsort_loop comp (std.__lg (last - first) * 2) v first last with
    | none => none
    | some v1 => std.__final_insertion_sort comp v1 first last
  else some v

/-- The call `std::sort(v.begin(), v.end(), comp)` of libstdc++ (GCC 12,
`bits/stl_algo.h`), as a function from the vector before the call to the vector
after it.  Where the embedding has no result (a comparator that lets a loop
leave the vector, or an exhausted depth limit) the vector is returned as it
is. -/
def std.sort (α : Type) (comp : α → α → Bool) (v : List α) : List α :=
  (std.__sort comp v 0 v.length).getD v

/-! ## Well-behaved traversals -/

/-- Cursor `it` of `R` is `l.length` advances away from the end cursor `e` and
reads the elements of `l` on the way: before the end it differs from `e`,
reading leaves it unchanged, and advancing succeeds. -/
inductive Yields {ρ σ α : Type} (R : Range ρ σ α) (e : σ) : σ → List α → Prop
  | nil (it : σ) : R.ne it e = false → R.eq it e = true → Yields R e it []
  | cons (it it1 : σ) (a : α) (l : List α) :
      R.ne it e = true → R.eq it e = false →
      R.deref it = some (a, it) → R.inc it = some it1 →
      Yields R e it1 l → Yields R e it (a :: l)

/-- Sequence value `(R, r)` denotes the list `l`: `begin()` brings the caches
to a state `r1` in which `begin()` and `end()` can be repeated with the same
outcome, the end cursor equals itself, and a traversal from `begin()` to
`end()` reads exactly `l`. -/
def Models {ρ σ α : Type} (R : Range ρ σ α) (r : ρ) (l : List α) : Prop :=
  ∃ b e r1, R.begin r = some (b, r1) ∧ R.begin r1 = some (b, r1) ∧
    R.end_ r1 = some (e, r1) ∧ R.ne e e = false ∧ Yields R e b l

/-! ## Theorems -/

theorem to_vector_loop_of_yields {ρ σ α : Type} (R : Range ρ σ α) (e : σ) :
    ∀ (fuel : Nat) (it : σ) (l vec : List α), Yields R e it l → l.length < fuel →
      ∃ it1, to_vector.loop R e fuel it vec = some (vec ++ l, it1) := by
  intro fuel it l vec h
  induction h generalizing fuel vec with
  | nil it hne _ =>
    intro hf
    cases fuel with
    | zero => simp at hf
    | succ n => exact ⟨it, by simp [to_vector.loop, hne]⟩
  | cons it it1 a l hne _ hd hi _ ih =>
    intro hf
    cases fuel with
    | zero => simp at hf
    | succ n =>
      obtain ⟨it2, h2⟩ := ih n (vec ++ [a]) (by simpa using hf)
      exact ⟨it2, by simp [to_vector.loop, hne, hd, hi, h2]⟩

theorem to_vector_of_models {ρ σ α : Type} (R : Range ρ σ α) (r : ρ) (l : List α) (fuel : Nat)
    (h : Models R r l) (hf : l.length < fuel) : to_vector fuel R r = some l := by
  obtain ⟨b, e, r1, hb, _, he, _, hy⟩ := h
  obtain ⟨it1, h1⟩ := to_vector_loop_of_yields R e fuel b l [] hy hf
  simp [to_vector, to_vector.run, hb, he, h1]

theorem from_container_range_yields {α : Type} (c : List α) :
    ∀ (suf pre : List α), c = pre ++ suf →
      Yields (from_container_range c) ⟨c.length⟩ ⟨pre.length⟩ suf := by
  intro suf
  induction suf with
  | nil =>
    intro pre h
    subst h
    exact Yields.nil _ (by simp [from_container_range]) (by simp [from_container_range])
  | cons a suf ih =>
    intro pre h
    have h1 : c = (pre ++ [a]) ++ suf := by simp [h]
    have h2 := ih (pre ++ [a]) h1
    simp only [List.length_append, List.length_singleton] at h2
    have hlen : pre.length < c.length := by simp [h]
    have hget : c.get? pre.length = some a := by
      rw [h, List.get?_eq_getElem?, List.getElem?_append_right (le_refl _)]
      simp
    refine Yields.cons _ ⟨pre.length + 1⟩ a suf ?_ ?_ ?_ ?_ h2
    · simp [from_container_range]; omega
    · simp [from_container_range]; omega
    · simp only [from_container_range, hget]
    · simp [from_container_range, hlen]

theorem from_container_range_models {α : Type} (c : List α) :
    Models (from_container_range c) () c := by
  refine ⟨⟨0⟩, ⟨c.length⟩, (), rfl, rfl, rfl, by simp [from_container_range], ?_⟩
  exact from_container_range_yields c c [] (by simp)

theorem where_range_seek_yields {ρ σ α : Type} (Prev : Range ρ σ α) (pred : α → Bool) (e : σ)
    (F : Nat) :
    ∀ (b : σ) (l : List α), Yields Prev e b l → l.length < F →
      ∀ fuel, l.length < fuel →
        ∃ b1, where_range.iterator.seek Prev pred e fuel b = some b1 ∧
          Yields (where_range F Prev pred) ⟨e, e⟩ ⟨b1, e⟩ (l.filter pred) := by
  intro b l h
  induction h with
  | nil it hne heq =>
    intro _ fuel hf
    cases fuel with
    | zero => simp at hf
    | succ n =>
      refine ⟨it, by simp [where_range.iterator.seek, hne], ?_⟩
      exact Yields.nil _ (by simpa [where_range] using hne) (by simpa [where_range] using heq)
  | cons it it1 a l hne heq hd hi _ ih =>
    intro hF fuel hf
    have hF1 : l.length < F := by simp at hF; omega
    cases fuel with
    | zero => simp at hf
    | succ n =>
      by_cases hp : pred a = true
      · refine ⟨it, by simp [where_range.iterator.seek, hne, hd, hp], ?_⟩
        obtain ⟨b1, hb1, hy1⟩ := ih hF1 F hF1
        simp only [List.filter_cons, hp, if_true]
        refine Yields.cons _ ⟨b1, e⟩ a _ ?_ ?_ ?_ ?_ hy1
        · simpa [where_range] using hne
        · simpa [where_range] using heq
        · simp [where_range, hd]
        · simp [where_range, where_range.iterator.inc, hi, hb1]
      · have hp1 : pred a = false := by simpa using hp
        obtain ⟨b1, hb1, hy1⟩ := ih hF1 n (by simp at hf; omega)
        refine ⟨b1, by simp [where_range.iterator.seek, hne, hd, hp1, hi, hb1], ?_⟩
        simpa [List.filter_cons, hp1] using hy1

theorem where_range_models {ρ σ α : Type} (Prev : Range ρ σ α) (pred : α → Bool) (r : ρ)
    (l : List α) (F : Nat) (h : Models Prev r l) (hF : l.length < F) :
    Models (where_range F Prev pred) r (l.filter pred) := by
  obtain ⟨b, e, r1, hb, hb1, he, hee, hy⟩ := h
  obtain ⟨b1, hs, hy1⟩ := where_range_seek_yields Prev pred e F b l hy hF F hF
  have hse : where_range.iterator.seek Prev pred e F e = some e := by
    cases F with
    | zero => simp at hF
    | succ n => simp [where_range.iterator.seek, hee]
  refine ⟨⟨b1, e⟩, ⟨e, e⟩, r1, ?_, ?_, ?_, ?_, hy1⟩
  · simp [where_range, hb, he, where_range.iterator.mk_, hs]
  · simp [where_range, hb1, he, where_range.iterator.mk_, hs]
  · simp [where_range, he, where_range.iterator.mk_, hse]
  · simpa [where_range] using hee

/-- C3: for every container `c` and predicate `P`, `from(&c).where(P).to_vector()`
returns (given fuel beyond the container's length) exactly the elements of `c`
that satisfy `P`, in their original order: the list filter of `c` by `P`. -/
theorem where_to_vector_eq_filter {α : Type} (c : List α) (P : α → Bool) (fuel F : Nat)
    (hfuel : c.length < fuel) (hF : c.length < F) :
    to_vector fuel (where_range F (from_ c) P) () = some (c.filter P) := by
  apply to_vector_of_models
  · exact where_range_models _ P () c F (from_container_range_models c) hF
  · exact lt_of_le_of_lt (List.length_filter_le _ _) hfuel

theorem where_to_vector_eq_filter_witness :
    to_vector 6 (where_range 6 (from_ [1, 2, 3, 4, 5]) (fun n => n % 2 == 1)) () = some [1, 3, 5] :=
  where_to_vector_eq_filter [1, 2, 3, 4, 5] (fun n => n % 2 == 1) 6 6 (by decide) (by decide)

theorem take_range_yields {ρ σ α : Type} (Prev : Range ρ σ α) (N : Nat) (e : σ) :
    ∀ (b : σ) (l : List α), Yields Prev e b l → ∀ n, n < SIZE_MOD →
      Yields (take_range Prev N) ⟨e, 0⟩ ⟨b, n⟩ (l.take n) := by
  intro b l h
  induction h with
  | nil it hne heq =>
    intro n _
    rw [List.take_nil]
    exact Yields.nil _ (by simp [take_range, hne]) (by simp [take_range, heq])
  | cons it it1 a l hne heq hd hi _ ih =>
    intro n hn
    cases n with
    | zero =>
      rw [List.take_zero]
      exact Yields.nil _ (by simp [take_range]) (by simp [take_range])
    | succ m =>
      rw [List.take_succ_cons]
      have hm : (m + 1 + SIZE_MOD - 1) % SIZE_MOD = m := by
        have : m + 1 + SIZE_MOD - 1 = m + SIZE_MOD := by omega
        rw [this, Nat.add_mod_right, Nat.mod_eq_of_lt (by omega)]
      refine Yields.cons _ ⟨it1, m⟩ a _ ?_ ?_ ?_ ?_ (ih m (by omega))
      · simp [take_range, hne]
      · simp [take_range, heq]
      · simp [take_range, hd]
      · simp only [take_range, hi, hm]

theorem take_range_models {ρ σ α : Type} (Prev : Range ρ σ α) (r : ρ) (l : List α) (n : Nat)
    (h : Models Prev r l) (hn : n < SIZE_MOD) : Models (take_range Prev n) r (l.take n) := by
  obtain ⟨b, e, r1, hb, hb1, he, _, hy⟩ := h
  refine ⟨⟨b, n⟩, ⟨e, 0⟩, r1, ?_, ?_, ?_, ?_, take_range_yields Prev n e b l hy n hn⟩
  · simp [take_range, hb]
  · simp [take_range, hb1]
  · simp [take_range, he]
  · simp [take_range]

/-- C10: for every container `c` and count `n` (a `size_t`),
`from(&c).take(n).to_vector()` is the first `min(n, |c|)` elements of `c` in
order: it returns `c.take n`, whose length is `min n |c|`; so `take(0)` yields
nothing and a count of at least `|c|` yields all of `c`. -/
theorem take_to_vector_eq_take {α : Type} (c : List α) (n fuel : Nat)
    (hn : n < SIZE_MOD) (hfuel : c.length < fuel) :
    to_vector fuel (take_range (from_ c) n) () = some (c.take n) ∧
      (c.take n).length = min n c.length ∧
      (n = 0 → c.take n = []) ∧ (c.length ≤ n → c.take n = c) := by
  refine ⟨?_, List.length_take _ _, ?_, List.take_of_length_le⟩
  · apply to_vector_of_models
    · exact take_range_models _ () c n (from_container_range_models c) hn
    · exact lt_of_le_of_lt (by simp) hfuel
  · intro h0
    simp [h0]

theorem take_to_vector_eq_take_witness :
    to_vector 6 (take_range (from_ [10, 20, 30, 40, 50]) 3) () = some [10, 20, 30] ∧
      to_vector 6 (take_range (from_ [10, 20]) 3) () = some [10, 20] ∧
      to_vector 6 (take_range (from_ [10, 20]) 0) () = some ([] : List Nat) :=
  ⟨(take_to_vector_eq_take [10, 20, 30, 40, 50] 3 6 (by decide) (by decide)).1,
   (take_to_vector_eq_take [10, 20] 3 6 (by decide) (by decide)).1,
   (take_to_vector_eq_take [10, 20] 0 6 (by decide) (by decide)).1⟩

theorem distinct_range_scan {ρ σ α : Type} [DecidableEq α] (Prev : Range ρ σ α) (x : α) :
    ∀ (enc : List σ) (seen : List α),
      List.Forall₂ (fun o v => Prev.deref o = some (v, o)) enc seen →
      distinct_range.iterator.ContainsObject.scan Prev x enc = some (decide (x ∈ seen), enc) := by
  intro enc seen h
  induction h with
  | nil => simp [distinct_range.iterator.ContainsObject.scan]
  | @cons o v os vs hd _ ih =>
    by_cases hv : v = x
    · simp [distinct_range.iterator.ContainsObject.scan, hd, hv]
    · have hx : ¬ x = v := fun h => hv h.symm
      simp [distinct_range.iterator.ContainsObject.scan, hd, hv, ih, hx]

theorem distinct_range_advance {ρ σ α : Type} [DecidableEq α] (Prev : Range ρ σ α) (e : σ)
    (enc : List σ) (seen : List α)
    (henc : List.Forall₂ (fun o v => Prev.deref o = some (v, o)) enc seen) :
    ∀ (b1 : σ) (l : List α), Yields Prev e b1 l → ∀ (b : σ) (fuel : Nat),
      Prev.inc b = some b1 → l.length < fuel →
      ∃ b2 l2, distinct_range.iterator.advance Prev e fuel b enc = some (b2, enc) ∧
        Yields Prev e b2 l2 ∧ firstOccurrences seen l = firstOccurrences seen l2 ∧
        l2.length ≤ l.length ∧ (∀ x l3, l2 = x :: l3 → x ∉ seen) := by
  intro b1 l h
  induction h with
  | nil it hne heq =>
    intro b fuel hi hf
    cases fuel with
    | zero => simp at hf
    | succ n =>
      refine ⟨it, [], by simp [distinct_range.iterator.advance, hi, hne],
        Yields.nil it hne heq, rfl, le_refl _, by simp⟩
  | cons it it1 a l hne heq hd hi1 hy ih =>
    intro b fuel hi hf
    cases fuel with
    | zero => simp at hf
    | succ n =>
      have hscan := distinct_range_scan Prev a enc seen henc
      by_cases ha : a ∈ seen
      · obtain ⟨b2, l2, h1, h2, h3, h4, h5⟩ := ih it n hi1 (by simp at hf; omega)
        refine ⟨b2, l2, ?_, h2, ?_, ?_, h5⟩
        · simp [distinct_range.iterator.advance, hi, hne,
            distinct_range.iterator.ContainsObject, hd, hscan, ha, h1]
        · simp [firstOccurrences, ha, h3]
        · simp; omega
      · refine ⟨it, a :: l, ?_, Yields.cons it it1 a l hne heq hd hi1 hy, rfl, le_refl _, ?_⟩
        · simp [distinct_range.iterator.advance, hi, hne,
            distinct_range.iterator.ContainsObject, hd, hscan, ha]
        · intro x l3 hx
          simp only [List.cons.injEq] at hx
          rw [← hx.1]
          exact ha

theorem distinct_range_yields {ρ σ α : Type} [DecidableEq α] (Prev : Range ρ σ α) (e : σ)
    (F : Nat) (encE : List σ) :
    ∀ (n : Nat) (l : List α), l.length ≤ n → l.length < F →
      ∀ (b : σ) (a : α) (enc : List σ) (seen : List α), Yields Prev e b (a :: l) →
        List.Forall₂ (fun o v => Prev.deref o = some (v, o)) enc seen →
        Yields (distinct_range F Prev) ⟨e, e, encE⟩ ⟨b, e, enc⟩ (a :: firstOccurrences seen l) := by
  intro n
  induction n with
  | zero =>
    intro l hl hF b a enc seen hy henc
    have hl0 : l = [] := List.length_eq_zero.mp (Nat.le_zero.mp hl)
    subst hl0
    cases hy with
    | cons _ it1 _ _ hne heq hd hi hy1 =>
      obtain ⟨b2, l2, h1, h2, _, h4, _⟩ :=
        distinct_range_advance Prev e enc seen henc it1 [] hy1 b F hi hF
      have hl2 : l2 = [] := List.length_eq_zero.mp (Nat.le_zero.mp h4)
      subst hl2
      cases h2 with
      | nil _ hne2 heq2 =>
        refine Yields.cons _ ⟨b2, e, enc⟩ a _ ?_ ?_ ?_ ?_ (Yields.nil _ ?_ ?_)
        · simpa [distinct_range] using hne
        · simpa [distinct_range] using heq
        · simp [distinct_range, hd]
        · simp [distinct_range, distinct_range.iterator.inc, h1, hne2]
        · simpa [distinct_range] using hne2
        · simpa [distinct_range] using heq2
  | succ n ih =>
    intro l hl hF b a enc seen hy henc
    cases hy with
    | cons _ it1 _ _ hne heq hd hi hy1 =>
      obtain ⟨b2, l2, h1, h2, h3, h4, h5⟩ :=
        distinct_range_advance Prev e enc seen henc it1 l hy1 b F hi hF
      rw [h3]
      cases l2 with
      | nil =>
        cases h2 with
        | nil _ hne2 heq2 =>
          refine Yields.cons _ ⟨b2, e, enc⟩ a _ ?_ ?_ ?_ ?_ (Yields.nil _ ?_ ?_)
          · simpa [distinct_range] using hne
          · simpa [distinct_range] using heq
          · simp [distinct_range, hd]
          · simp [distinct_range, distinct_range.iterator.inc, h1, hne2]
          · simpa [distinct_range] using hne2
          · simpa [distinct_range] using heq2
      | cons x l3 =>
        have hx : x ∉ seen := h5 x l3 rfl
        have hlen : l3.length ≤ n := by simp at h4; omega
        have hlenF : l3.length < F := by simp at h4; omega
        have hne2 : Prev.ne b2 e = true := by
          cases h2 with
          | cons _ _ _ _ hne2 _ _ _ _ => exact hne2
        have hd2 : Prev.deref b2 = some (x, b2) := by
          cases h2 with
          | cons _ _ _ _ _ _ hd2 _ _ => exact hd2
        have henc2 : List.Forall₂ (fun o v => Prev.deref o = some (v, o))
            (enc ++ [b2]) (seen ++ [x]) :=
          List.rel_append henc (List.Forall₂.cons hd2 List.Forall₂.nil)
        have hrec := ih l3 hlen hlenF b2 x (enc ++ [b2]) (seen ++ [x]) h2 henc2
        simp only [firstOccurrences, hx, if_false]
        refine Yields.cons _ ⟨b2, e, enc ++ [b2]⟩ a _ ?_ ?_ ?_ ?_ hrec
        · simpa [distinct_range] using hne
        · simpa [distinct_range] using heq
        · simp [distinct_range, hd]
        · simp [distinct_range, distinct_range.iterator.inc, h1, hne2]

theorem distinct_range_models {ρ σ α : Type} [DecidableEq α] (Prev : Range ρ σ α) (r : ρ)
    (enc0 : List σ) (l : List α) (F : Nat) (h : Models Prev r l) (hF : l.length < F) :
    Models (distinct_range F Prev) (r, enc0) (firstOccurrences [] l) := by
  obtain ⟨b, e, r1, hb, hb1, he, hee, hy⟩ := h
  cases l with
  | nil =>
    cases hy with
    | nil _ hne heq =>
      refine ⟨⟨b, e, enc0⟩, ⟨e, e, enc0⟩, (r1, enc0), ?_, ?_, ?_, ?_, Yields.nil _ ?_ ?_⟩
      · simp [distinct_range, hb, he, distinct_range.iterator.mk_, hne]
      · simp [distinct_range, hb1, he, distinct_range.iterator.mk_, hne]
      · simp [distinct_range, he, distinct_range.iterator.mk_, hee]
      · simpa [distinct_range] using hee
      · simpa [distinct_range] using hne
      · simpa [distinct_range] using heq
  | cons a l =>
    have hne : Prev.ne b e = true := by
      cases hy with
      | cons _ _ _ _ hne _ _ _ _ => exact hne
    have hd : Prev.deref b = some (a, b) := by
      cases hy with
      | cons _ _ _ _ _ _ hd _ _ => exact hd
    have hF1 : l.length < F := by simp at hF; omega
    have hrec := distinct_range_yields Prev e F [b] l.length l (le_refl _) hF1 b a [b] [a] hy
      (List.Forall₂.cons hd List.Forall₂.nil)
    refine ⟨⟨b, e, [b]⟩, ⟨e, e, [b]⟩, (r1, [b]), ?_, ?_, ?_, ?_, ?_⟩
    · simp [distinct_range, hb, he, distinct_range.iterator.mk_, hne]
    · simp [distinct_range, hb1, he, distinct_range.iterator.mk_, hne]
    · simp [distinct_range, he, distinct_range.iterator.mk_, hee]
    · simpa [distinct_range] using hee
    · simpa [firstOccurrences] using hrec

theorem firstOccurrences_mem {α : Type} [DecidableEq α] (x : α) :
    ∀ (l seen : List α), x ∈ firstOccurrences seen l ↔ x ∈ l ∧ x ∉ seen := by
  intro l
  induction l with
  | nil => intro seen; simp [firstOccurrences]
  | cons a l ih =>
    intro seen
    by_cases ha : a ∈ seen
    · simp only [firstOccurrences, ha, if_true, ih, List.mem_cons]
      constructor
      · rintro ⟨h1, h2⟩
        exact ⟨Or.inr h1, h2⟩
      · rintro ⟨h1 | h1, h2⟩
        · exact absurd (h1 ▸ ha) h2
        · exact ⟨h1, h2⟩
    · simp only [firstOccurrences, ha, if_false, List.mem_cons, ih, List.mem_append,
        List.mem_singleton]
      by_cases hxa : x = a
      · subst hxa
        simp [ha]
      · simp [hxa]

theorem firstOccurrences_nodup {α : Type} [DecidableEq α] :
    ∀ (l seen : List α), (firstOccurrences seen l).Nodup := by
  intro l
  induction l with
  | nil => intro seen; simp [firstOccurrences]
  | cons a l ih =>
    intro seen
    by_cases ha : a ∈ seen
    · simpa [firstOccurrences, ha] using ih seen
    · simp only [firstOccurrences, ha, if_false, List.nodup_cons]
      refine ⟨?_, ih _⟩
      rw [firstOccurrences_mem]
      simp

theorem firstOccurrences_length_le {α : Type} [DecidableEq α] :
    ∀ (l seen : List α), (firstOccurrences seen l).length ≤ l.length := by
  intro l
  induction l with
  | nil => intro seen; simp [firstOccurrences]
  | cons a l ih =>
    intro seen
    by_cases ha : a ∈ seen
    · have := ih seen
      simp only [firstOccurrences, ha, if_true, List.length_cons]
      omega
    · have := ih (seen ++ [a])
      simp only [firstOccurrences, ha, if_false, List.length_cons]
      omega

theorem firstOccurrences_order {α : Type} [DecidableEq α] (c : List α) :
    ∀ (l pre seen : List α), c = pre ++ l → (∀ x, x ∈ seen ↔ x ∈ pre) →
      (firstOccurrences seen l).Pairwise (fun x y => c.indexOf x < c.indexOf y) := by
  intro l
  induction l with
  | nil => intro pre seen _ _; simp [firstOccurrences]
  | cons a l ih =>
    intro pre seen hc hs
    have hc1 : c = (pre ++ [a]) ++ l := by simp [hc]
    by_cases ha : a ∈ seen
    · simp only [firstOccurrences, ha, if_true]
      refine ih (pre ++ [a]) seen hc1 ?_
      intro x
      simp only [List.mem_append, List.mem_singleton, hs]
      constructor
      · exact Or.inl
      · rintro (h | h)
        · exact h
        · exact (hs a).mp (h ▸ ha) |> fun h1 => h ▸ h1
    · simp only [firstOccurrences, ha, if_false, List.pairwise_cons]
      refine ⟨?_, ih (pre ++ [a]) (seen ++ [a]) hc1 ?_⟩
      · intro y hy
        rw [firstOccurrences_mem] at hy
        obtain ⟨_, hy2⟩ := hy
        simp only [List.mem_append, List.mem_singleton, not_or] at hy2
        have hap : a ∉ pre := fun h => ha ((hs a).mpr h)
        have hyp : y ∉ pre := fun h => hy2.1 ((hs y).mpr h)
        rw [hc, List.indexOf_append_of_not_mem hap, List.indexOf_append_of_not_mem hyp,
          List.indexOf_cons_self, List.indexOf_cons_ne _ (fun h => hy2.2 h.symm)]
        omega
      · intro x
        simp only [List.mem_append, List.mem_singleton, hs]

/-- C4: for every container `c`, `from(&c).distinct().to_vector()` returns a
list without two equal elements that contains exactly the values occurring in
`c`, listed in the order of their first occurrence in `c` (whatever the
`EncounteredObjects` member held before). -/
theorem distinct_to_vector_first_occurrences {α : Type} [DecidableEq α] (c : List α)
    (enc0 : List from_container_range.iterator) (fuel F : Nat)
    (hfuel : c.length < fuel) (hF : c.length < F) :
    ∃ out, to_vector fuel (distinct_range F (from_ c)) ((), enc0) = some out ∧
      out.Nodup ∧ (∀ x, x ∈ out ↔ x ∈ c) ∧
      out.Pairwise (fun x y => c.indexOf x < c.indexOf y) := by
  refine ⟨firstOccurrences [] c, ?_, firstOccurrences_nodup c [], ?_, ?_⟩
  · apply to_vector_of_models
    · exact distinct_range_models _ () enc0 c F (from_container_range_models c) hF
    · exact lt_of_le_of_lt (firstOccurrences_length_le c []) hfuel
  · intro x
    simp [firstOccurrences_mem]
  · exact firstOccurrences_order c c [] [] (by simp) (by simp)

theorem distinct_to_vector_first_occurrences_witness :
    (∃ out, to_vector 6 (distinct_range 6 (from_ [1, 2, 2, 3, 1])) ((), []) = some out ∧
      out.Nodup ∧ (∀ x, x ∈ out ↔ x ∈ [1, 2, 2, 3, 1]) ∧
      out.Pairwise (fun x y => [1, 2, 2, 3, 1].indexOf x < [1, 2, 2, 3, 1].indexOf y)) ∧
    to_vector 6 (distinct_range 6 (from_ [1, 2, 2, 3, 1])) ((), []) = some [1, 2, 3] :=
  ⟨distinct_to_vector_first_occurrences [1, 2, 2, 3, 1] [] 6 6 (by decide) (by decide),
   by decide⟩

theorem list_set_getElem_self {σ : Type} :
    ∀ (l : List σ) (k : Nat) (h : k < l.length), l.set k l[k] = l := by
  intro l
  induction l with
  | nil => intro k h; simp at h
  | cons a l ih =>
    intro k h
    cases k with
    | zero => rfl
    | succ k => simp [List.set, ih]

theorem reverse_range_begin_loop {ρ σ α : Type} (Prev : Range ρ σ α) (e : σ) :
    ∀ (b : σ) (l : List α), Yields Prev e b l → ∀ (fuel : Nat) (buf : List σ), l.length < fuel →
      ∃ its, reverse_range.begin.loop Prev e fuel b buf = some (buf ++ its) ∧
        List.Forall₂ (fun o v => Prev.deref o = some (v, o)) its l := by
  intro b l h
  induction h with
  | nil it hne _ =>
    intro fuel buf hf
    cases fuel with
    | zero => simp at hf
    | succ n => exact ⟨[], by simp [reverse_range.begin.loop, hne], List.Forall₂.nil⟩
  | cons it it1 a l hne _ hd hi _ ih =>
    intro fuel buf hf
    cases fuel with
    | zero => simp at hf
    | succ n =>
      obtain ⟨its, h1, h2⟩ := ih n (buf ++ [it]) (by simp at hf; omega)
      exact ⟨it :: its, by simp [reverse_range.begin.loop, hne, hi, h1], List.Forall₂.cons hd h2⟩

theorem reverse_range_yields {ρ σ α : Type} (Prev : Range ρ σ α) (F : Nat) (its : List σ)
    (l : List α) (hits : List.Forall₂ (fun o v => Prev.deref o = some (v, o)) its l)
    (hl : l.length < SIZE_MOD) :
    ∀ k, k ≤ l.length →
      Yields (reverse_range F Prev) ⟨none, SIZE_MOD - 1⟩
        ⟨some its, (k + SIZE_MOD - 1) % SIZE_MOD⟩ (l.take k).reverse := by
  intro k
  induction k with
  | zero =>
    intro _
    have h0 : (0 + SIZE_MOD - 1) % SIZE_MOD = SIZE_MOD - 1 := by
      simp [SIZE_MOD]
    rw [h0]
    exact Yields.nil _ (by simp [reverse_range]) (by simp [reverse_range])
  | succ k ih =>
    intro hk
    have hk1 : (k + 1 + SIZE_MOD - 1) % SIZE_MOD = k := by
      have : k + 1 + SIZE_MOD - 1 = k + SIZE_MOD := by omega
      rw [this, Nat.add_mod_right, Nat.mod_eq_of_lt (by omega)]
    have hlen : its.length = l.length := hits.length_eq
    have hki : k < its.length := by omega
    have hkl : k < l.length := by omega
    have hd : Prev.deref (its.get ⟨k, hki⟩) = some (l.get ⟨k, hkl⟩, its.get ⟨k, hki⟩) :=
      List.Forall₂.get hits hki hkl
    have htake : (l.take (k + 1)).reverse = l.get ⟨k, hkl⟩ :: (l.take k).reverse := by
      rw [List.take_succ, List.reverse_append]
      simp [List.getElem?_eq_getElem hkl]
    rw [hk1, htake]
    refine Yields.cons _ ⟨some its, (k + SIZE_MOD - 1) % SIZE_MOD⟩ _ _ ?_ ?_ ?_ ?_ (ih (by omega))
    · simp [reverse_range, SIZE_MOD] at hl ⊢; omega
    · simp [reverse_range, SIZE_MOD] at hl ⊢; omega
    · have hg : its.get? k = some (its.get ⟨k, hki⟩) := List.get?_eq_get hki
      simp only [reverse_range, hg, hd]
      simp [list_set_getElem_self]
    · simp [reverse_range]

theorem reverse_range_models {ρ σ α : Type} (Prev : Range ρ σ α) (r : ρ) (cache : List σ)
    (l : List α) (F : Nat) (h : Models Prev r l) (hF : l.length < F)
    (hl : l.length < SIZE_MOD) :
    Models (reverse_range F Prev) (r, cache) l.reverse := by
  obtain ⟨b, e, r1, hb, hb1, he, _, hy⟩ := h
  obtain ⟨its, hloop, hits⟩ := reverse_range_begin_loop Prev e b l hy F [] hF
  have hlen : its.length = l.length := hits.length_eq
  have hy1 := reverse_range_yields Prev F its l hits hl l.length (le_refl _)
  rw [List.take_length] at hy1
  refine ⟨⟨some its, (its.length + SIZE_MOD - 1) % SIZE_MOD⟩, ⟨none, SIZE_MOD - 1⟩, (r1, its),
    ?_, ?_, rfl, ?_, ?_⟩
  · have hloop1 : reverse_range.begin.loop Prev e F b [] = some its := by simpa using hloop
    simp [reverse_range, hb, he, hloop1]
  · have hloop1 : reverse_range.begin.loop Prev e F b [] = some its := by simpa using hloop
    simp [reverse_range, hb1, he, hloop1]
  · simp [reverse_range]
  · rw [hlen]
    exact hy1

/-- C5: for every container `c` (with fewer than `SIZE_MOD` elements, the empty
one included), `from(&c).reverse().to_vector()` is `c` in reverse order and
`from(&c).reverse().reverse().to_vector()` equals `c`. -/
theorem reverse_reverse_to_vector {α : Type} (c : List α)
    (cache1 : List from_container_range.iterator)
    (cache2 : List (reverse_range.iterator from_container_range.iterator)) (fuel F1 F2 : Nat)
    (hfuel : c.length < fuel) (hF1 : c.length < F1) (hF2 : c.length < F2)
    (hc : c.length < SIZE_MOD) :
    to_vector fuel (reverse_range F1 (from_ c)) ((), cache1) = some c.reverse ∧
      to_vector fuel (reverse_range F2 (reverse_range F1 (from_ c))) (((), cache1), cache2)
        = some c := by
  have h1 := reverse_range_models _ () cache1 c F1 (from_container_range_models c) hF1 hc
  have h2 := reverse_range_models _ ((), cache1) cache2 c.reverse F2 h1 (by simpa using hF2)
    (by simpa using hc)
  rw [List.reverse_reverse] at h2
  exact ⟨to_vector_of_models _ _ _ fuel h1 (by simpa using hfuel),
    to_vector_of_models _ _ _ fuel h2 hfuel⟩

theorem reverse_reverse_to_vector_witness :
    (to_vector 4 (reverse_range 4 (from_ [1, 2, 3])) ((), []) = some [3, 2, 1] ∧
      to_vector 4 (reverse_range 4 (reverse_range 4 (from_ [1, 2, 3]))) (((), []), [])
        = some [1, 2, 3]) ∧
    (to_vector 1 (reverse_range 1 (from_ ([] : List Nat))) ((), []) = some [] ∧
      to_vector 1 (reverse_range 1 (reverse_range 1 (from_ ([] : List Nat)))) (((), []), [])
        = some []) :=
  ⟨reverse_reverse_to_vector [1, 2, 3] [] [] 4 4 4 (by decide) (by decide) (by decide)
      (by decide),
   reverse_reverse_to_vector [] [] [] 1 1 1 (by decide) (by decide) (by decide) (by decide)⟩

theorem ceil_div_lt_iff (a s j : Nat) (hs : 0 < s) : j < (a + s - 1) / s ↔ j * s < a := by
  rw [Nat.lt_iff_add_one_le, Nat.le_div_iff_mul_le hs, Nat.add_mul]
  omega

theorem from_to_loop (R : Range Unit (from_to_range.iterator Int) Int)
    (hne : R.ne = fun a b => decide (a.Value ≠ b.Value))
    (hinc : R.inc = fun it => some { it with Index := it.Index + 1 })
    (hderef : R.deref = fun it => some it.deref)
    (start end_ S : Int) (e : from_to_range.iterator Int) (he : e.Value = end_) (k : Nat)
    (h1 : ∀ j : Nat, j < k → ∀ v, from_to_range.iterator.deref ⟨j, start, v, end_, S⟩
        = (S * j + start, ⟨j, start, S * j + start, end_, S⟩) ∧ S * j + start ≠ end_)
    (h2 : ∀ v, from_to_range.iterator.deref ⟨k, start, v, end_, S⟩
        = (end_, ⟨k, start, end_, end_, S⟩)) :
    ∀ (n j : Nat), j + n = k → ∀ (v : Int) (vec : List Int) (fuel : Nat), v ≠ end_ →
      n + 1 < fuel →
      to_vector.loop R e fuel ⟨j, start, v, end_, S⟩ vec
        = some (vec ++ (List.range' j n).map (fun i => S * (i : Int) + start) ++ [end_],
            ⟨(k : Int) + 1, start, end_, end_, S⟩) := by
  intro n
  induction n with
  | zero =>
    intro j hj v vec fuel hv hf
    have hjk : j = k := by omega
    subst hjk
    obtain ⟨f, rfl⟩ : ∃ f, fuel = f + 2 := ⟨fuel - 2, by omega⟩
    simp [to_vector.loop, hne, hinc, hderef, hv, he, h2 v]
  | succ n ih =>
    intro j hj v vec fuel hv hf
    obtain ⟨f, rfl⟩ : ∃ f, fuel = f + 1 := ⟨fuel - 1, by omega⟩
    obtain ⟨hd, hnz⟩ := h1 j (by omega) v
    have hrec := ih (j + 1) (by omega) (S * j + start) (vec ++ [S * j + start]) f hnz (by omega)
    rw [to_vector.loop]
    simp only [hne, hinc, hderef, he, hd]
    simp only [ne_eq, hv, not_false_eq_true, decide_True, if_true]
    have hcast : ((j : Int) + 1) = ((j + 1 : Nat) : Int) := by push_cast; rfl
    rw [hcast, hrec]
    simp [List.range'_succ]

theorem from_to_deref_inside (start end_ S j v : Int)
    (h : (¬ S < 0 ∧ ¬ S * j + start > end_) ∨ (S < 0 ∧ ¬ S * j + start < end_)) :
    from_to_range.iterator.deref ⟨j, start, v, end_, S⟩
      = (S * j + start, ⟨j, start, S * j + start, end_, S⟩) := by
  rcases h with ⟨h1, h2⟩ | ⟨h1, h2⟩
  · simp [from_to_range.iterator.deref, h1, h2]
  · simp [from_to_range.iterator.deref, h1, h2]

theorem from_to_deref_clamped (start end_ S j v : Int)
    (h : (¬ S < 0 ∧ ¬ S * j + start < end_) ∨ (S < 0 ∧ ¬ S * j + start > end_)) :
    from_to_range.iterator.deref ⟨j, start, v, end_, S⟩
      = (end_, ⟨j, start, end_, end_, S⟩) := by
  rcases h with ⟨h1, h2⟩ | ⟨h1, h2⟩
  · by_cases hgt : S * j + start > end_
    · simp [from_to_range.iterator.deref, h1, hgt]
    · have heq : S * j + start = end_ := by omega
      simp [from_to_range.iterator.deref, h1, heq]
  · by_cases hlt : S * j + start < end_
    · simp [from_to_range.iterator.deref, h1, hlt]
    · have heq : S * j + start = end_ := by omega
      simp [from_to_range.iterator.deref, h1, heq]

/-- The vector of a numeric progression over unbounded integers with
`start != end_` and `step != 0`: the values `start + i * d * |step|` for `i` below
`ceil(|end_ - start| / |step|)`, followed by `end_`. -/
theorem from_to_to_vector_eq (start end_ step : Int) (fuel : Nat) (hse : start ≠ end_)
    (hstep : step ≠ 0)
    (hfuel : ((end_ - start).natAbs + step.natAbs - 1) / step.natAbs + 1 < fuel) :
    to_vector fuel (from_to start end_ step) () =
        some ((List.range (((end_ - start).natAbs + step.natAbs - 1) / step.natAbs)).map
            (fun i => start + (i : Int) * (if start < end_ then 1 else -1) * (step.natAbs : Int))
          ++ [end_]) := by
  have hs : 0 < step.natAbs := Int.natAbs_pos.mpr hstep
  have hceil := fun j => ceil_div_lt_iff (end_ - start).natAbs step.natAbs j hs
  generalize hk : ((end_ - start).natAbs + step.natAbs - 1) / step.natAbs = k at hfuel hceil ⊢
  have hsabs : ((if step < 0 then -step else step) : Int) = (step.natAbs : Int) := by
    split
    · omega
    · omega
  rcases lt_or_gt_of_ne hse with hlt | hgt
  · -- upward
    have hS : from_to_range.Step start end_ step = (step.natAbs : Int) := by
      have : ¬ start > end_ := by omega
      simp only [from_to_range.Step, this, if_false, hsabs]
    have ha : ((end_ - start).natAbs : Int) = end_ - start := by omega
    have key : ∀ j : Nat, j < k ↔ (step.natAbs : Int) * j + start < end_ := by
      intro j
      rw [hceil j]
      have : (((j * step.natAbs : Nat)) : Int) = (step.natAbs : Int) * j := by
        push_cast; ring
      constructor
      · intro h
        have h3 : ((j * step.natAbs : Nat) : Int) < ((end_ - start).natAbs : Int) := by
          exact_mod_cast h
        rw [this, ha] at h3
        omega
      · intro h
        have h3 : ((j * step.natAbs : Nat) : Int) < ((end_ - start).natAbs : Int) := by
          rw [this, ha]
          omega
        exact_mod_cast h3
    have hloop := from_to_loop (from_to start end_ step) rfl rfl rfl start end_ (step.natAbs : Int)
      (from_to_range.iterator.mk_ end_ 0 0) rfl k
      (by
        intro j hj v
        have hj1 := (key j).mp hj
        have hpos : ¬ ((step.natAbs : Int) < 0) := by omega
        have hgt : ¬ ((step.natAbs : Int) * j + start > end_) := by omega
        exact ⟨from_to_deref_inside start end_ _ j v (Or.inl ⟨hpos, hgt⟩), by omega⟩)
      (by
        intro v
        have hk1 : ¬ ((step.natAbs : Int) * k + start < end_) := fun h =>
          absurd ((key k).mpr h) (lt_irrefl k)
        have hpos : ¬ ((step.natAbs : Int) < 0) := by omega
        exact from_to_deref_clamped start end_ _ k v (Or.inl ⟨hpos, hk1⟩))
      k 0 (by omega) start [] fuel hse (by omega)
    simp only [to_vector, to_vector.run, from_to, hS, from_to_range.iterator.mk_] at hloop ⊢
    simp only [Nat.cast_zero] at hloop
    rw [hloop]
    simp only [Option.map_some', List.nil_append, hlt, if_true, mul_one, List.range_eq_range']
    congr 2
    apply List.map_congr_left
    intro i _
    ring
  · -- downward
    have hS : from_to_range.Step start end_ step = -(step.natAbs : Int) := by
      have : start > end_ := hgt
      simp only [from_to_range.Step, this, if_true, hsabs]
    have ha : ((end_ - start).natAbs : Int) = start - end_ := by omega
    have key : ∀ j : Nat, j < k ↔ -(step.natAbs : Int) * j + start > end_ := by
      intro j
      rw [hceil j]
      have : (((j * step.natAbs : Nat)) : Int) = (step.natAbs : Int) * j := by
        push_cast; ring
      have hneg : -(step.natAbs : Int) * j = -((step.natAbs : Int) * j) := by ring
      constructor
      · intro h
        have h3 : ((j * step.natAbs : Nat) : Int) < ((end_ - start).natAbs : Int) := by
          exact_mod_cast h
        rw [this, ha] at h3
        rw [hneg]
        omega
      · intro h
        have h3 : ((j * step.natAbs : Nat) : Int) < ((end_ - start).natAbs : Int) := by
          rw [this, ha]
          rw [hneg] at h
          omega
        exact_mod_cast h3
    have hloop := from_to_loop (from_to start end_ step) rfl rfl rfl start end_
      (-(step.natAbs : Int)) (from_to_range.iterator.mk_ end_ 0 0) rfl k
      (by
        intro j hj v
        have hj1 := (key j).mp hj
        have hneg : (-(step.natAbs : Int) < 0) := by omega
        have hlt : ¬ (-(step.natAbs : Int) * j + start < end_) := by omega
        exact ⟨from_to_deref_inside start end_ _ j v (Or.inr ⟨hneg, hlt⟩), by omega⟩)
      (by
        intro v
        have hk1 : ¬ (-(step.natAbs : Int) * k + start > end_) := fun h =>
          absurd ((key k).mpr h) (lt_irrefl k)
        have hneg : (-(step.natAbs : Int) < 0) := by omega
        exact from_to_deref_clamped start end_ _ k v (Or.inr ⟨hneg, hk1⟩))
      k 0 (by omega) start [] fuel hse (by omega)
    simp only [to_vector, to_vector.run, from_to, hS, from_to_range.iterator.mk_] at hloop ⊢
    simp only [Nat.cast_zero] at hloop
    rw [hloop]
    have hnlt : ¬ start < end_ := by omega
    simp only [Option.map_some', List.nil_append, hnlt, if_false, List.range_eq_range']
    congr 2
    apply List.map_congr_left
    intro i _
    ring

/-- C8: for integers `start != end_` and `step != 0` (unbounded integers, so no
overflow), `from_to(start, end_, step).to_vector()` is
`[start + i * d * |step| | 0 <= i < k]` followed by `end_`, where `d` is `+1` when
`start < end_` and `-1` otherwise, and `k = ceil(|end_ - start| / |step|)`, that is
the number of `j` with `j * |step| < |end_ - start|`. -/
theorem from_to_to_vector (start end_ step : Int) (fuel : Nat) (hse : start ≠ end_)
    (hstep : step ≠ 0)
    (hfuel : ((end_ - start).natAbs + step.natAbs - 1) / step.natAbs + 1 < fuel) :
    to_vector fuel (from_to start end_ step) () =
        some ((List.range (((end_ - start).natAbs + step.natAbs - 1) / step.natAbs)).map
            (fun i => start + (i : Int) * (if start < end_ then 1 else -1) * (step.natAbs : Int))
          ++ [end_]) ∧
      ∀ j : Nat, j < ((end_ - start).natAbs + step.natAbs - 1) / step.natAbs ↔
        j * step.natAbs < (end_ - start).natAbs := by
  have hs : 0 < step.natAbs := Int.natAbs_pos.mpr hstep
  exact ⟨from_to_to_vector_eq start end_ step fuel hse hstep hfuel,
    fun j => ceil_div_lt_iff (end_ - start).natAbs step.natAbs j hs⟩

theorem from_to_to_vector_witness :
    to_vector 7 (from_to (0 : Int) 10 2) () = some [0, 2, 4, 6, 8, 10] ∧
      to_vector 7 (from_to (10 : Int) 0 2) () = some [10, 8, 6, 4, 2, 0] ∧
      to_vector 7 (from_to (0 : Int) 5 2) () = some [0, 2, 4, 5] :=
  ⟨(from_to_to_vector 0 10 2 7 (by decide) (by decide) (by decide)).1,
   (from_to_to_vector 10 0 2 7 (by decide) (by decide) (by decide)).1,
   (from_to_to_vector 0 5 2 7 (by decide) (by decide) (by decide)).1⟩

theorem generate_ne {T : Type} (g : Nat → generator_return_value T)
    (a b : generate_range.iterator T) :
    (generate g).ne a b = (a.LastResult.IsEmpty != b.LastResult.IsEmpty) := rfl

theorem generate_inc {T : Type} (g : Nat → generator_return_value T)
    (it : generate_range.iterator T) :
    (generate g).inc it = some ⟨(it.Iteration + 1) % SIZE_MOD,
      g ((it.Iteration + 1) % SIZE_MOD), it.Calls ++ [(it.Iteration + 1) % SIZE_MOD]⟩ := rfl

theorem generate_deref {T : Type} (g : Nat → generator_return_value T)
    (it : generate_range.iterator T) (v : T) (h : it.LastResult.Value = some v) :
    (generate g).deref it = some (v, it) := by
  simp [generate, h]

theorem generate_loop {T : Type} (g : Nat → generator_return_value T) (vals : Nat → T)
    (e : generate_range.iterator T) (he : e.LastResult.IsEmpty = true)
    (k : Nat) (hk : k < SIZE_MOD) (hfin : (g k).IsEmpty = true)
    (hval : ∀ i, i < k → g i = generate_return (vals i)) :
    ∀ (n j : Nat), j + n = k → ∀ (vec : List T) (fuel : Nat), n < fuel →
      to_vector.loop (generate g) e fuel ⟨j, g j, List.range (j + 1)⟩ vec
        = some (vec ++ (List.range' j n).map vals, ⟨k, g k, List.range (k + 1)⟩) := by
  intro n
  induction n with
  | zero =>
    intro j hj vec fuel hf
    have hjk : j = k := by omega
    subst hjk
    obtain ⟨f, rfl⟩ : ∃ f, fuel = f + 1 := ⟨fuel - 1, by omega⟩
    simp [to_vector.loop, generate_ne, he, hfin]
  | succ n ih =>
    intro j hj vec fuel hf
    obtain ⟨f, rfl⟩ : ∃ f, fuel = f + 1 := ⟨fuel - 1, by omega⟩
    have hgj := hval j (by omega)
    have hmod : (j + 1) % SIZE_MOD = j + 1 := Nat.mod_eq_of_lt (by omega)
    have hrec := ih (j + 1) (by omega) (vec ++ [vals j]) f (by omega)
    have hrange : List.range (j + 1) ++ [j + 1] = List.range (j + 1 + 1) :=
      (List.range_succ (j + 1)).symm
    have hne : (generate g).ne ⟨j, g j, List.range (j + 1)⟩ e = true := by
      simp [generate_ne, he, hgj, generate_return]
    have hd : (generate g).deref ⟨j, g j, List.range (j + 1)⟩
        = some (vals j, ⟨j, g j, List.range (j + 1)⟩) :=
      generate_deref g _ (vals j) (by simp [hgj, generate_return])
    rw [to_vector.loop]
    simp only [hne, if_true, hd, generate_inc, hmod, hrange, hrec]
    simp [List.range'_succ]

/-- C9: if `k` (a `size_t`) is the least index at which the generator `g`
returns "finished" and `g` returns `generate_return(vals i)` at every `i < k`,
then the traversal of `generate(g)` ends with the vector
`[vals 0, ..., vals (k-1)]` of exactly `k` elements, the generator has been
called exactly with the arguments `0, 1, ..., k` (never with an index greater
than `k`), and the result is the same for every generator that agrees with
`g` up to index `k`. -/
theorem generate_to_vector {T : Type} (g : Nat → generator_return_value T) (vals : Nat → T)
    (k fuel : Nat) (hk : k < SIZE_MOD) (hfin : (g k).IsEmpty = true)
    (hval : ∀ i, i < k → g i = generate_return (vals i)) (hfuel : k < fuel) :
    (∃ it, to_vector.run fuel (generate g) () = some ((List.range k).map vals, it) ∧
        it.Calls = List.range (k + 1)) ∧
      to_vector fuel (generate g) () = some ((List.range k).map vals) ∧
      ((List.range k).map vals).length = k ∧
      ∀ g2 : Nat → generator_return_value T, (∀ i, i ≤ k → g2 i = g i) →
        to_vector fuel (generate g2) () = to_vector fuel (generate g) () := by
  have main : ∀ g1 : Nat → generator_return_value T, (∀ i, i ≤ k → g1 i = g i) →
      to_vector.run fuel (generate g1) ()
        = some ((List.range k).map vals, ⟨k, g1 k, List.range (k + 1)⟩) := by
    intro g1 h1
    have hfin1 : (g1 k).IsEmpty = true := by rw [h1 k (le_refl _)]; exact hfin
    have hval1 : ∀ i, i < k → g1 i = generate_return (vals i) := by
      intro i hi
      rw [h1 i (by omega)]
      exact hval i hi
    have hloop := generate_loop g1 vals (generate_range.iterator.mk_ g1 true) rfl k hk hfin1 hval1
      k 0 (by omega) [] fuel hfuel
    have hb : (generate g1).begin () = some (⟨0, g1 0, List.range (0 + 1)⟩, ()) := rfl
    have he : (generate g1).end_ () = some (generate_range.iterator.mk_ g1 true, ()) := rfl
    have hr : List.map vals (List.range' 0 k) = List.map vals (List.range k) := by
      rw [List.range_eq_range']
    simp only [to_vector.run, hb, he, hloop, List.nil_append, hr]
  have hg := main g (fun _ _ => rfl)
  refine ⟨⟨_, hg, rfl⟩, by simp [to_vector, hg], by simp, ?_⟩
  intro g2 h2
  simp [to_vector, hg, main g2 h2]

theorem generate_to_vector_witness :
    to_vector 6 (generate fun i => if i = 5 then generate_finish
        else if i < 5 then generate_return (10 * i) else generate_return 7) ()
      = some [0, 10, 20, 30, 40] :=
  (generate_to_vector
    (fun i => if i = 5 then generate_finish
      else if i < 5 then generate_return (10 * i) else generate_return 7)
    (fun i => 10 * i) 5 6 (by decide) (by decide)
    (by intro i hi; interval_cases i <;> rfl) (by decide)).2.1

theorem order_by_range_yields {ρ σ α κ : Type} [LT κ] [DecidableRel (fun (a b : κ) => a < b)]
    (sort : (α : Type) → (α → α → Bool) → List α → List α) (F : Nat) (Prev : Range ρ σ α)
    (k : α → κ) (d : sort_direction) (buf : List α) :
    ∀ (suf pre : List α), buf = pre ++ suf →
      Yields (order_by_range sort F Prev k d) ⟨buf, buf.length⟩ ⟨buf, pre.length⟩ suf := by
  intro suf
  induction suf with
  | nil =>
    intro pre h
    subst h
    exact Yields.nil _ (by simp [order_by_range]) (by simp [order_by_range])
  | cons a suf ih =>
    intro pre h
    have h1 : buf = (pre ++ [a]) ++ suf := by simp [h]
    have h2 := ih (pre ++ [a]) h1
    simp only [List.length_append, List.length_singleton] at h2
    have hlen : pre.length < buf.length := by simp [h]
    have hget : buf.get? pre.length = some a := by
      rw [h, List.get?_eq_getElem?, List.getElem?_append_right (le_refl _)]
      simp
    refine Yields.cons _ ⟨buf, pre.length + 1⟩ a suf ?_ ?_ ?_ ?_ h2
    · simp [order_by_range]; omega
    · simp [order_by_range]; omega
    · simp only [order_by_range, hget]
    · simp [order_by_range, hlen]

theorem order_by_range_models {ρ σ α κ : Type} [LT κ] [DecidableRel (fun (a b : κ) => a < b)]
    (sort : (α : Type) → (α → α → Bool) → List α → List α) (F : Nat) (Prev : Range ρ σ α)
    (k : α → κ) (d : sort_direction) (r : ρ) (cache : List α) (l : List α)
    (h : Models Prev r l) (hF : l.length < F) :
    Models (order_by_range sort F Prev k d) (r, cache)
      (sort α (order_by_range.compare_keys k d) l) := by
  obtain ⟨b, e, r1, hb, hb1, he, _, hy⟩ := h
  obtain ⟨it1, hloop⟩ := to_vector_loop_of_yields Prev e F b l [] hy hF
  simp only [List.nil_append] at hloop
  refine ⟨⟨sort α (order_by_range.compare_keys k d) l, 0⟩,
    ⟨sort α (order_by_range.compare_keys k d) l,
      (sort α (order_by_range.compare_keys k d) l).length⟩,
    (r1, sort α (order_by_range.compare_keys k d) l), ?_, ?_, ?_, ?_, ?_⟩
  · simp [order_by_range, hb, he, hloop]
  · simp [order_by_range, hb1, he, hloop]
  · simp [order_by_range]
  · simp [order_by_range]
  · exact order_by_range_yields sort F Prev k d _ _ [] (by simp)

theorem then_by_range_yields {ρ σ α κ : Type} [LT κ] [DecidableRel (fun (a b : κ) => a < b)]
    (sort : (α : Type) → (α → α → Bool) → List α → List α) (F : Nat) (Prev : Range ρ σ α)
    (pc : α → α → Bool) (k : α → κ) (d : sort_direction) (buf : List α) :
    ∀ (suf pre : List α), buf = pre ++ suf →
      Yields (then_by_range sort F Prev pc k d) ⟨buf, buf.length⟩ ⟨buf, pre.length⟩ suf := by
  intro suf
  induction suf with
  | nil =>
    intro pre h
    subst h
    exact Yields.nil _ (by simp [then_by_range]) (by simp [then_by_range])
  | cons a suf ih =>
    intro pre h
    have h1 : buf = (pre ++ [a]) ++ suf := by simp [h]
    have h2 := ih (pre ++ [a]) h1
    simp only [List.length_append, List.length_singleton] at h2
    have hlen : pre.length < buf.length := by simp [h]
    have hget : buf.get? pre.length = some a := by
      rw [h, List.get?_eq_getElem?, List.getElem?_append_right (le_refl _)]
      simp
    refine Yields.cons _ ⟨buf, pre.length + 1⟩ a suf ?_ ?_ ?_ ?_ h2
    · simp [then_by_range]; omega
    · simp [then_by_range]; omega
    · simp only [then_by_range, hget]
    · simp [then_by_range, hlen]

theorem then_by_range_models {ρ σ α κ : Type} [LT κ] [DecidableRel (fun (a b : κ) => a < b)]
    (sort : (α : Type) → (α → α → Bool) → List α → List α) (F : Nat) (Prev : Range ρ σ α)
    (pc : α → α → Bool) (k : α → κ) (d : sort_direction) (r : ρ) (cache : List α) (l : List α)
    (h : Models Prev r l) (hF : l.length < F) :
    Models (then_by_range sort F Prev pc k d) (r, cache)
      (sort α (then_by_range.compare_keys pc k d) l) := by
  obtain ⟨b, e, r1, hb, hb1, he, _, hy⟩ := h
  obtain ⟨it1, hloop⟩ := to_vector_loop_of_yields Prev e F b l [] hy hF
  simp only [List.nil_append] at hloop
  refine ⟨⟨sort α (then_by_range.compare_keys pc k d) l, 0⟩,
    ⟨sort α (then_by_range.compare_keys pc k d) l,
      (sort α (then_by_range.compare_keys pc k d) l).length⟩,
    (r1, sort α (then_by_range.compare_keys pc k d) l), ?_, ?_, ?_, ?_, ?_⟩
  · simp [then_by_range, hb, he, hloop]
  · simp [then_by_range, hb1, he, hloop]
  · simp [then_by_range]
  · simp [then_by_range]
  · exact then_by_range_yields sort F Prev pc k d _ _ [] (by simp)

theorem order_by_compare_keys_strict_weak {α κ : Type} [LinearOrder κ] (k : α → κ)
    (d : sort_direction) : StrictWeakOrdering (order_by_range.compare_keys k d) := by
  cases d with
  | ascending =>
    refine ⟨?_, ?_, ?_⟩
    · intro a
      simp [order_by_range.compare_keys]
    · intro a b c
      simp only [order_by_range.compare_keys, if_true, decide_eq_true_eq]
      exact lt_trans
    · intro a b c
      simp only [order_by_range.compare_keys, if_true, decide_eq_false_iff_not, not_lt]
      intro h1 h2 h3 h4
      exact ⟨le_trans h3 h1, le_trans h2 h4⟩
  | descending =>
    refine ⟨?_, ?_, ?_⟩
    · intro a
      simp [order_by_range.compare_keys]
    · intro a b c
      simp only [order_by_range.compare_keys, if_false, decide_eq_true_eq,
        show ¬ (sort_direction.descending = sort_direction.ascending) by decide]
      exact fun h1 h2 => lt_trans h2 h1
    · intro a b c
      simp only [order_by_range.compare_keys, if_false, decide_eq_false_iff_not, not_lt,
        show ¬ (sort_direction.descending = sort_direction.ascending) by decide]
      intro h1 h2 h3 h4
      exact ⟨le_trans h1 h3, le_trans h4 h2⟩

theorem insertion_sort_std_sort : StdSort insertion_sort := by
  intro α comp l hswo
  obtain ⟨hirr, htrans, hinc⟩ := hswo
  haveI : IsTotal α (fun a b => comp b a = false) := ⟨by
    intro a b
    by_contra hcon
    simp only [not_or, Bool.not_eq_false] at hcon
    have := htrans a b a hcon.2 hcon.1
    rw [hirr a] at this
    exact Bool.false_ne_true this⟩
  haveI : IsTrans α (fun a b => comp b a = false) := ⟨by
    intro a b c hba hcb
    by_contra hcon
    have hca : comp c a = true := by simpa using hcon
    cases hab : comp a b with
    | true =>
      have := htrans c a b hca hab
      rw [hcb] at this
      exact Bool.false_ne_true this
    | false =>
      cases hbc : comp b c with
      | true =>
        have := htrans b c a hbc hca
        rw [hba] at this
        exact Bool.false_ne_true this
      | false =>
        have := (hinc a b c hab hba hbc hcb).2
        rw [hca] at this
        exact Bool.false_ne_true this.symm⟩
  exact ⟨List.perm_insertionSort _ l, List.sorted_insertionSort _ l⟩

/-- C6: for every container `c`, key selector `k` into a linearly ordered key
type and direction `d`, and every `std::sort` meeting its contract,
`from(&c).order_by(k, d).to_vector()` is a permutation of `c`; for ascending no
element's key is less than the key of an element before it, for descending no
element's key is less than the key of an element after it. -/
theorem order_by_to_vector_sorted {α κ : Type} [LinearOrder κ]
    (sort : (α : Type) → (α → α → Bool) → List α → List α) (hsort : StdSort sort)
    (c : List α) (k : α → κ) (d : sort_direction) (cache : List α) (fuel F : Nat)
    (hfuel : c.length < fuel) (hF : c.length < F) :
    ∃ out, to_vector fuel (order_by_range sort F (from_ c) k d) ((), cache) = some out ∧
      out.Perm c ∧
      (d = sort_direction.ascending → out.Pairwise (fun a b => ¬ k b < k a)) ∧
      (d = sort_direction.descending → out.Pairwise (fun a b => ¬ k a < k b)) := by
  obtain ⟨hperm, hsorted⟩ := hsort α (order_by_range.compare_keys k d) c
    (order_by_compare_keys_strict_weak k d)
  refine ⟨sort α (order_by_range.compare_keys k d) c, ?_, hperm, ?_, ?_⟩
  · apply to_vector_of_models
    · exact order_by_range_models sort F _ k d () cache c (from_container_range_models c) hF
    · rw [hperm.length_eq]
      exact hfuel
  · intro hd
    subst hd
    refine hsorted.imp ?_
    intro a b h
    simpa [order_by_range.compare_keys] using h
  · intro hd
    subst hd
    refine hsorted.imp ?_
    intro a b h
    simpa [order_by_range.compare_keys] using h

theorem order_by_to_vector_sorted_witness :
    ∃ out, to_vector 5 (order_by_range insertion_sort 5 (from_ [3, 1, 2, 1])
        (fun n : Nat => n) sort_direction.descending) ((), []) = some out ∧
      out.Perm [3, 1, 2, 1] ∧
      (sort_direction.descending = sort_direction.ascending →
        out.Pairwise (fun a b => ¬ b < a)) ∧
      (sort_direction.descending = sort_direction.descending →
        out.Pairwise (fun a b => ¬ a < b)) :=
  order_by_to_vector_sorted insertion_sort insertion_sort_std_sort [3, 1, 2, 1]
    (fun n : Nat => n) sort_direction.descending [] 5 5 (by decide) (by decide)

theorem strict_weak_lt_of_lt_of_equiv {α : Type} (comp : α → α → Bool)
    (h : StrictWeakOrdering comp) (a b c : α) (hab : comp a b = true)
    (hbc : comp b c = false) (hcb : comp c b = false) : comp a c = true := by
  obtain ⟨hirr, htrans, hinc⟩ := h
  cases hac : comp a c with
  | true => rfl
  | false =>
    cases hca : comp c a with
    | true =>
      have := htrans c a b hca hab
      rw [hcb] at this
      exact absurd this Bool.false_ne_true
    | false =>
      have := (hinc a c b hac hca hcb hbc).1
      rw [hab] at this
      exact absurd this.symm Bool.false_ne_true

theorem strict_weak_lt_of_equiv_of_lt {α : Type} (comp : α → α → Bool)
    (h : StrictWeakOrdering comp) (a b c : α) (hab : comp a b = false)
    (hba : comp b a = false) (hbc : comp b c = true) : comp a c = true := by
  obtain ⟨hirr, htrans, hinc⟩ := h
  cases hac : comp a c with
  | true => rfl
  | false =>
    cases hca : comp c a with
    | true =>
      have := htrans b c a hbc hca
      rw [hba] at this
      exact absurd this Bool.false_ne_true
    | false =>
      have := (hinc b a c hba hab hac hca).1
      rw [hbc] at this
      exact absurd this.symm Bool.false_ne_true

theorem then_by_compare_keys_iff {α κ : Type} [LinearOrder κ] (pc : α → α → Bool) (k : α → κ)
    (d : sort_direction) (a b : α) :
    then_by_range.compare_keys pc k d a b = true ↔
      pc a b = true ∨ (pc a b = false ∧ pc b a = false ∧
        order_by_range.compare_keys k d a b = true) := by
  unfold then_by_range.compare_keys order_by_range.compare_keys
  cases hab : pc a b <;> cases hba : pc b a <;> simp

theorem then_by_compare_keys_strict_weak {α κ : Type} [LinearOrder κ] (pc : α → α → Bool)
    (hpc : StrictWeakOrdering pc) (k : α → κ) (d : sort_direction) :
    StrictWeakOrdering (then_by_range.compare_keys pc k d) := by
  have hown := order_by_compare_keys_strict_weak k d
  obtain ⟨oirr, otrans, oinc⟩ := hown
  have hpc1 := hpc
  obtain ⟨pirr, ptrans, pinc⟩ := hpc1
  have hfalse : ∀ a b, then_by_range.compare_keys pc k d a b = false →
      pc a b = false ∧ (pc b a = false → order_by_range.compare_keys k d a b = false) := by
    intro a b h
    have h1 : ¬ (then_by_range.compare_keys pc k d a b = true) := by simp [h]
    rw [then_by_compare_keys_iff] at h1
    simp only [not_or, not_and, Bool.not_eq_true] at h1
    exact ⟨h1.1, fun hba => h1.2 h1.1 hba⟩
  refine ⟨?_, ?_, ?_⟩
  · intro a
    have h1 : ¬ (then_by_range.compare_keys pc k d a a = true) := by
      rw [then_by_compare_keys_iff]
      simp [pirr a, oirr a]
    simpa using h1
  · intro a b c hab hbc
    rw [then_by_compare_keys_iff] at hab hbc ⊢
    rcases hab with hab | ⟨hab1, hab2, hab3⟩
    · rcases hbc with hbc | ⟨hbc1, hbc2, _⟩
      · exact Or.inl (ptrans a b c hab hbc)
      · exact Or.inl (strict_weak_lt_of_lt_of_equiv pc hpc a b c hab hbc1 hbc2)
    · rcases hbc with hbc | ⟨hbc1, hbc2, hbc3⟩
      · exact Or.inl (strict_weak_lt_of_equiv_of_lt pc hpc a b c hab1 hab2 hbc)
      · obtain ⟨h1, h2⟩ := pinc a b c hab1 hab2 hbc1 hbc2
        exact Or.inr ⟨h1, h2, otrans a b c hab3 hbc3⟩
  · intro a b c hab hba hbc hcb
    obtain ⟨hab1, hab2⟩ := hfalse a b hab
    obtain ⟨hba1, hba2⟩ := hfalse b a hba
    obtain ⟨hbc1, hbc2⟩ := hfalse b c hbc
    obtain ⟨hcb1, hcb2⟩ := hfalse c b hcb
    obtain ⟨hac, hca⟩ := pinc a b c hab1 hba1 hbc1 hcb1
    obtain ⟨oac, oca⟩ := oinc a b c (hab2 hba1) (hba2 hab1) (hbc2 hcb1) (hcb2 hbc1)
    constructor
    · have h1 : ¬ (then_by_range.compare_keys pc k d a c = true) := by
        rw [then_by_compare_keys_iff]
        simp [hac, oac]
      simpa using h1
    · have h1 : ¬ (then_by_range.compare_keys pc k d c a = true) := by
        rw [then_by_compare_keys_iff]
        simp [hca, oca]
      simpa using h1

theorem then_by_order_by_models {α κ1 κ2 : Type} [LinearOrder κ1] [LinearOrder κ2]
    (sort : (α : Type) → (α → α → Bool) → List α → List α) (hsort : StdSort sort)
    (c : List α) (k1 : α → κ1) (k2 : α → κ2) (cache1 cache2 : List α) (fuel F1 F2 : Nat)
    (hfuel : c.length < fuel) (hF1 : c.length < F1) (hF2 : c.length < F2) :
    ∃ out, to_vector fuel
        (then_by_range sort F2 (order_by_range sort F1 (from_ c) k1 sort_direction.ascending)
          (order_by_range.compare_keys k1 sort_direction.ascending) k2 sort_direction.ascending)
        (((), cache1), cache2) = some out ∧
      out.Perm c ∧
      out.Pairwise (fun a b => k1 a < k1 b ∨ (k1 a = k1 b ∧ k2 a ≤ k2 b)) := by
  have hswo1 := order_by_compare_keys_strict_weak k1 sort_direction.ascending
  obtain ⟨hperm1, _⟩ := hsort α (order_by_range.compare_keys k1 sort_direction.ascending) c hswo1
  have hswo2 := then_by_compare_keys_strict_weak
    (order_by_range.compare_keys k1 sort_direction.ascending) hswo1 k2 sort_direction.ascending
  obtain ⟨hperm2, hsorted2⟩ := hsort α
    (then_by_range.compare_keys (order_by_range.compare_keys k1 sort_direction.ascending) k2
      sort_direction.ascending)
    (sort α (order_by_range.compare_keys k1 sort_direction.ascending) c) hswo2
  have hm1 := order_by_range_models sort F1 _ k1 sort_direction.ascending () cache1 c
    (from_container_range_models c) hF1
  have hm2 := then_by_range_models sort F2 _
    (order_by_range.compare_keys k1 sort_direction.ascending) k2 sort_direction.ascending
    ((), cache1) cache2 _ hm1 (by rw [hperm1.length_eq]; exact hF2)
  refine ⟨_, to_vector_of_models _ _ _ fuel hm2 ?_, hperm2.trans hperm1, ?_⟩
  · rw [hperm2.length_eq, hperm1.length_eq]
    exact hfuel
  · refine hsorted2.imp ?_
    intro a b h
    have h1 : ¬ (then_by_range.compare_keys
        (order_by_range.compare_keys k1 sort_direction.ascending) k2
        sort_direction.ascending b a = true) := by simp [h]
    rw [then_by_compare_keys_iff] at h1
    simp only [order_by_range.compare_keys, if_true, decide_eq_true_eq, decide_eq_false_iff_not,
      not_or, not_and, not_lt] at h1
    obtain ⟨h2, h3⟩ := h1
    rcases lt_or_eq_of_le h2 with h4 | h4
    · exact Or.inl h4
    · exact Or.inr ⟨h4, h3 (le_of_eq h4) (le_of_eq h4.symm)⟩

/-- C7: for every container `c`, key selectors `k1`, `k2` into linearly ordered
key types and every `std::sort` meeting its contract,
`from(&c).order_by_ascending(k1).then_by_ascending(k2).to_vector()` is a
permutation of `c` sorted lexicographically by `(k1, k2)`: of two elements the
earlier one has the smaller `k1` key, or an equal `k1` key and a `k2` key that
is not greater.  On `[(1,"b"),(1,"a"),(0,"z")]` keyed by (first, second) the
result is `[(0,"z"),(1,"a"),(1,"b")]` for every such `std::sort`. -/
theorem then_by_to_vector_lexicographic {α κ1 κ2 : Type} [LinearOrder κ1] [LinearOrder κ2]
    (sort : (α : Type) → (α → α → Bool) → List α → List α) (hsort : StdSort sort)
    (c : List α) (k1 : α → κ1) (k2 : α → κ2) (cache1 cache2 : List α) (fuel F1 F2 : Nat)
    (hfuel : c.length < fuel) (hF1 : c.length < F1) (hF2 : c.length < F2) :
    (∃ out, to_vector fuel
        (then_by_range sort F2 (order_by_range sort F1 (from_ c) k1 sort_direction.ascending)
          (order_by_range.compare_keys k1 sort_direction.ascending) k2 sort_direction.ascending)
        (((), cache1), cache2) = some out ∧
      out.Perm c ∧
      out.Pairwise (fun a b => k1 a < k1 b ∨ (k1 a = k1 b ∧ k2 a ≤ k2 b))) ∧
    to_vector 4
        (then_by_range sort 4
          (order_by_range sort 4 (from_ [(1, "b"), (1, "a"), (0, "z")])
            (fun p : Nat × String => p.1) sort_direction.ascending)
          (order_by_range.compare_keys (fun p : Nat × String => p.1) sort_direction.ascending)
          (fun p : Nat × String => p.2) sort_direction.ascending)
        (((), []), []) = some [(0, "z"), (1, "a"), (1, "b")] := by
  refine ⟨then_by_order_by_models sort hsort c k1 k2 cache1 cache2 fuel F1 F2 hfuel hF1 hF2, ?_⟩
  obtain ⟨out, hout, hperm, hsorted⟩ := then_by_order_by_models sort hsort
    [(1, "b"), (1, "a"), (0, "z")] (fun p : Nat × String => p.1) (fun p : Nat × String => p.2)
    [] [] 4 4 4 (by decide) (by decide) (by decide)
  haveI : IsAntisymm (Nat × String)
      (fun a b => a.1 < b.1 ∨ (a.1 = b.1 ∧ a.2 ≤ b.2)) := ⟨by
    intro a b hab hba
    rcases hab with h1 | ⟨h1, h2⟩
    · rcases hba with h3 | ⟨h3, _⟩
      · exact absurd h1 (lt_asymm h3)
      · omega
    · rcases hba with h3 | ⟨_, h4⟩
      · omega
      · exact Prod.ext h1 (le_antisymm h2 h4)⟩
  have htarget : List.Pairwise (fun a b : Nat × String => a.1 < b.1 ∨ (a.1 = b.1 ∧ a.2 ≤ b.2))
      [(0, "z"), (1, "a"), (1, "b")] := by
    have hab : ("a" : String) ≤ "b" := by
      rw [String.le_iff_toList_le]
      decide
    refine List.Pairwise.cons ?_ (List.Pairwise.cons ?_ (List.Pairwise.cons ?_ List.Pairwise.nil))
    · intro b hb
      simp only [List.mem_cons, List.mem_singleton, List.not_mem_nil, or_false] at hb
      rcases hb with rfl | rfl <;> exact Or.inl (by decide)
    · intro b hb
      simp only [List.mem_cons, List.mem_singleton, List.not_mem_nil, or_false] at hb
      subst hb
      exact Or.inr ⟨rfl, hab⟩
    · intro b hb
      simp at hb
  have hp : out.Perm [(0, "z"), (1, "a"), (1, "b")] :=
    hperm.trans (List.reverse_perm [(0, "z"), (1, "a"), (1, "b")])
  rw [List.eq_of_perm_of_sorted hp hsorted htarget] at hout
  convert hout

theorem then_by_to_vector_lexicographic_witness :
    (∃ out, to_vector 4
        (then_by_range insertion_sort 4
          (order_by_range insertion_sort 4 (from_ [(1, 2), (1, 1), (0, 9)])
            (fun p : Nat × Nat => p.1) sort_direction.ascending)
          (order_by_range.compare_keys (fun p : Nat × Nat => p.1) sort_direction.ascending)
          (fun p : Nat × Nat => p.2) sort_direction.ascending)
        (((), []), []) = some out ∧
      out.Perm [(1, 2), (1, 1), (0, 9)] ∧
      out.Pairwise (fun a b => a.1 < b.1 ∨ (a.1 = b.1 ∧ a.2 ≤ b.2))) ∧
    to_vector 4
        (then_by_range insertion_sort 4
          (order_by_range insertion_sort 4 (from_ [(1, "b"), (1, "a"), (0, "z")])
            (fun p : Nat × String => p.1) sort_direction.ascending)
          (order_by_range.compare_keys (fun p : Nat × String => p.1) sort_direction.ascending)
          (fun p : Nat × String => p.2) sort_direction.ascending)
        (((), []), []) = some [(0, "z"), (1, "a"), (1, "b")] :=
  then_by_to_vector_lexicographic insertion_sort insertion_sort_std_sort
    [(1, 2), (1, 1), (0, 9)] (fun p : Nat × Nat => p.1) (fun p : Nat × Nat => p.2) [] [] 4 4 4
    (by decide) (by decide) (by decide)

theorem join_rest_full {α β κ γ : Type} [DecidableEq κ] (kA : α → κ) (kB : β → κ)
    (f : α → β → γ) (lB : List β) (la : List α) :
    join_rest kA kB f lB la lB = nested_loop_join kA kB f la lB := by
  cases la with
  | nil => simp [join_rest, nested_loop_join]
  | cons a la => simp [join_rest, nested_loop_join, List.flatMap_cons]

theorem join_range_inner {ρB σB β κ : Type} [DecidableEq κ] (B : Range ρB σB β)
    (kB : β → κ) (keyA : κ) (eB : σB) :
    ∀ (op : σB) (lb : List β), Yields B eB op lb → ∀ fuel, lb.length < fuel →
      (∃ op1, join_range.iterator.FindNext.inner B kB keyA eB fuel op = some (false, op1) ∧
          B.eq op1 eB = true ∧ (lb.filter fun b => decide (keyA = kB b)) = []) ∨
      (∃ op1 b1 lb1,
          join_range.iterator.FindNext.inner B kB keyA eB fuel op = some (true, op1) ∧
          Yields B eB op1 (b1 :: lb1) ∧ keyA = kB b1 ∧
          (lb.filter fun b => decide (keyA = kB b))
            = b1 :: (lb1.filter fun b => decide (keyA = kB b)) ∧
          lb1.length < lb.length) := by
  intro op lb h
  induction h with
  | nil it hne heq =>
    intro fuel hf
    cases fuel with
    | zero => simp at hf
    | succ n =>
      exact Or.inl ⟨it, by simp [join_range.iterator.FindNext.inner, hne], heq, rfl⟩
  | cons it it1 b l hne heq hd hi hy ih =>
    intro fuel hf
    cases fuel with
    | zero => simp at hf
    | succ n =>
      by_cases hk : keyA = kB b
      · refine Or.inr ⟨it, b, l, ?_, Yields.cons it it1 b l hne heq hd hi hy, hk, ?_, ?_⟩
        · simp [join_range.iterator.FindNext.inner, hne, hd, hk]
        · simp [List.filter_cons, hk]
        · simp
      · rcases ih n (by simp at hf; omega) with
          ⟨op1, h1, h2, h3⟩ | ⟨op1, b1, lb1, h1, h2, h3, h4, h5⟩
        · refine Or.inl ⟨op1, ?_, h2, ?_⟩
          · simp [join_range.iterator.FindNext.inner, hne, hd, hk, hi, h1]
          · simp [List.filter_cons, hk, h3]
        · refine Or.inr ⟨op1, b1, lb1, ?_, h2, h3, ?_, ?_⟩
          · simp [join_range.iterator.FindNext.inner, hne, hd, hk, hi, h1]
          · simp [List.filter_cons, hk, h4]
          · simp; omega

theorem join_range_outer {ρA ρB σA σB α β κ γ : Type} [DecidableEq κ]
    (F : Nat) (A : Range ρA σA α) (B : Range ρB σB β) (kA : α → κ) (kB : β → κ)
    (f : α → β → γ) (b0 e : σA) (bB eB : σB) (lB : List β)
    (hB : Yields B eB bB lB) (hlB : lB.length < F) :
    ∀ (pos : σA) (la : List α), Yields A e pos la → la.length < F →
      ∀ (n : Nat) (lb : List β) (op : σB), lb.length ≤ n → Yields B eB op lb → lb.length < F →
        ∀ fuel, la.length < fuel →
          ∃ it1, join_range.iterator.FindNext.outer F A B kA kB fuel ⟨b0, e, pos, bB, eB, op⟩
              = some it1 ∧
            Yields (join_range F A B kA kB f) ⟨e, e, e, bB, eB, bB⟩ it1
              (join_rest kA kB f lB la lb) := by
  intro pos la hyA
  induction hyA with
  | nil it hne heq =>
    intro _ n lb op _ _ _ fuel hf
    cases fuel with
    | zero => simp at hf
    | succ m =>
      refine ⟨⟨b0, e, it, bB, eB, op⟩, by simp [join_range.iterator.FindNext.outer, hne], ?_⟩
      exact Yields.nil _ (by simpa [join_range] using hne) (by simpa [join_range] using heq)
  | cons it it1 a la1 hne heq hd hi hy1 ihA =>
    intro hla n
    have hla1 : la1.length < F := by simp at hla; omega
    induction n using Nat.strong_induction_on with
    | _ n ihn =>
      intro lb op hlen hyB hlbF fuel hf
      cases fuel with
      | zero => simp at hf
      | succ m =>
        rcases join_range_inner B kB (kA a) eB op lb hyB F hlbF with
          ⟨op1, h1, h2, h3⟩ | ⟨op1, b1, lb1, h1, h2, h3, h4, h5⟩
        · obtain ⟨it2, h6, h7⟩ := ihA hla1 lB.length lB bB (le_refl _) hB hlB m
            (by simp at hf; omega)
          refine ⟨it2, ?_, ?_⟩
          · simp [join_range.iterator.FindNext.outer, hne, hd, h1, h2, hi, h6]
          · rw [join_rest_full] at h7
            simpa [join_rest, h3] using h7
        · have hne1 : B.ne op1 eB = true := by
            cases h2 with
            | cons _ _ _ _ hne1 _ _ _ _ => exact hne1
          have heq1 : B.eq op1 eB = false := by
            cases h2 with
            | cons _ _ _ _ _ heq1 _ _ _ => exact heq1
          have hd1 : B.deref op1 = some (b1, op1) := by
            cases h2 with
            | cons _ _ _ _ _ _ hd1 _ _ => exact hd1
          obtain ⟨op2, hi1, hy2⟩ : ∃ op2, B.inc op1 = some op2 ∧ Yields B eB op2 lb1 := by
            cases h2 with
            | cons _ op2 _ _ _ _ _ hi1 hy2 => exact ⟨op2, hi1, hy2⟩
          obtain ⟨it2, h6, h7⟩ := ihn lb1.length (by omega) lb1 op2 (le_refl _) hy2
            (by omega) F hla
          refine ⟨⟨b0, e, it, bB, eB, op1⟩, ?_, ?_⟩
          · simp [join_range.iterator.FindNext.outer, hne, hd, h1, heq1]
          · simp only [join_rest, h4, List.map_cons, List.cons_append]
            refine Yields.cons _ it2 (f a b1) _ ?_ ?_ ?_ ?_ h7
            · simpa [join_range] using hne
            · simpa [join_range] using heq
            · simp [join_range, hd, hd1]
            · simp [join_range, join_range.iterator.FindNext, hi1, h6]

theorem join_range_models {ρA ρB σA σB α β κ γ : Type} [DecidableEq κ]
    (F : Nat) (A : Range ρA σA α) (B : Range ρB σB β) (kA : α → κ) (kB : β → κ)
    (f : α → β → γ) (rA : ρA) (rB : ρB) (lA : List α) (lB : List β)
    (hA : Models A rA lA) (hB : Models B rB lB) (hlA : lA.length < F) (hlB : lB.length < F) :
    Models (join_range F A B kA kB f) (rA, rB) (nested_loop_join kA kB f lA lB) := by
  obtain ⟨b, e, rA1, hb, hb1, he, hee, hyA⟩ := hA
  obtain ⟨bB, eB, rB1, hbB, hbB1, heB, _, hyB⟩ := hB
  obtain ⟨it1, hout, hy⟩ := join_range_outer F A B kA kB f b e bB eB lB hyB hlB b lA hyA hlA
    lB.length lB bB (le_refl _) hyB hlB F hlA
  rw [join_rest_full] at hy
  have hend : join_range.iterator.FindNext.outer F A B kA kB F ⟨e, e, e, bB, eB, bB⟩
      = some ⟨e, e, e, bB, eB, bB⟩ := by
    cases F with
    | zero => simp at hlA
    | succ n => simp [join_range.iterator.FindNext.outer, hee]
  refine ⟨it1, ⟨e, e, e, bB, eB, bB⟩, (rA1, rB1), ?_, ?_, ?_, ?_, hy⟩
  · simp [join_range, hb, he, join_range.iterator.mk_, hbB, heB, hbB1,
      join_range.iterator.FindNext, hout]
  · simp [join_range, hb1, he, join_range.iterator.mk_, hbB1, heB,
      join_range.iterator.FindNext, hout]
  · simp [join_range, he, join_range.iterator.mk_, hbB1, heB,
      join_range.iterator.FindNext, hend]
  · simpa [join_range] using hee

/-- For plain containers `join` is the nested-loop inner join: for all containers
`A`, `B`, key selectors `kA`, `kB` and every combiner `f`,
`from(&A).join(from(&B), kA, kB, f).to_vector()` is the list of `f a b` for each
`a` of `A` in order and, within it, each `b` of `B` in order with `kA a = kB b`. -/
theorem join_container_nested_loop {α β κ γ : Type} [DecidableEq κ] (A : List α)
    (B : List β) (kA : α → κ) (kB : β → κ) (f : α → β → γ) (fuel F : Nat)
    (hFA : A.length < F) (hFB : B.length < F)
    (hfuel : (nested_loop_join kA kB f A B).length < fuel) :
    to_vector fuel (join_range F (from_ A) (from_ B) kA kB f) ((), ())
      = some (nested_loop_join kA kB f A B) :=
  to_vector_of_models _ _ _ fuel
    (join_range_models F _ _ kA kB f () () A B (from_container_range_models A)
      (from_container_range_models B) hFA hFB)
    hfuel

/-- C1 fails on the code: with the numeric progression `from_to(0, 4, 2)` as outer
sequence and the container `{0, 2, 4}` as inner sequence (identity keys, pairing
combiner), `join(...).to_vector()` is `[(0, 0), (2, 2)]` for every amount of
fuel that lets the loops finish, while the outer sequence yields `[0, 2, 4]` and
the nested-loop inner join of `[0, 2, 4]` with `[0, 2, 4]` also has the pair
`(4, 4)`.  On the claimed witness, two containers `[1, 1, 2]` and `[1, 2, 2]`,
the result is `[(1, 1), (1, 1), (2, 2), (2, 2)]`. -/
theorem join_from_to_outer_loses_last_pair :
    (∀ n m : Nat,
      to_vector (n + 3) (join_range (m + 4) (from_to (0 : Int) 4 2) (from_ [(0 : Int), 2, 4])
        (fun a => a) (fun b => b) (fun a b => (a, b))) ((), ()) = some [(0, 0), (2, 2)]) ∧
      (∀ n : Nat, to_vector (n + 4) (from_to (0 : Int) 4 2) () = some [0, 2, 4]) ∧
      nested_loop_join (fun a : Int => a) (fun b : Int => b) (fun a b => (a, b))
        [0, 2, 4] [0, 2, 4] = [(0, 0), (2, 2), (4, 4)] ∧
      to_vector 5 (join_range 4 (from_ [1, 1, 2]) (from_ [1, 2, 2]) (fun a : Nat => a)
          (fun b : Nat => b) (fun a b => (a, b))) ((), ())
        = some [(1, 1), (1, 1), (2, 2), (2, 2)] := by
  refine ⟨fun n m => rfl, fun n => rfl, by decide, by decide⟩

theorem nested_loop_join_eq_equi_join {α β κ γ : Type} [DecidableEq κ] (kA : α → κ)
    (kB : β → κ) (f : α → β → γ) (B : List β) :
    ∀ A : List α, nested_loop_join kA kB f A B = equi_join kA kB f A B := by
  intro A
  induction A with
  | nil => simp [nested_loop_join, equi_join]
  | cons a A ih =>
    have ih1 : (A.flatMap fun a => (B.filter fun b => decide (kA a = kB b)).map (f a))
        = ((A.product B).filter fun p => decide (kA p.1 = kB p.2)).map fun p => f p.1 p.2 := ih
    have hp : (a :: A).product B = B.map (Prod.mk a) ++ A.product B := rfl
    simp only [nested_loop_join, equi_join, List.flatMap_cons, hp,
      List.filter_append, List.map_append, ih1, List.filter_map, List.map_map]
    rfl

theorem equi_join_length_le {α β κ γ : Type} [DecidableEq κ] (kA : α → κ) (kB : β → κ)
    (f : α → β → γ) (A : List α) (B : List β) :
    (equi_join kA kB f A B).length ≤ A.length * B.length := by
  unfold equi_join
  rw [List.length_map]
  exact le_trans (List.length_filter_le _ _) (le_of_eq (List.length_product A B))

theorem join_container_eq_equi_join {α β κ γ : Type} [DecidableEq κ] (A : List α)
    (B : List β) (kA : α → κ) (kB : β → κ) (f : α → β → γ) (fuel F : Nat)
    (hFA : A.length < F) (hFB : B.length < F) (hfuel : A.length * B.length < fuel) :
    to_vector fuel (join_range F (from_ A) (from_ B) kA kB f) ((), ())
      = some (equi_join kA kB f A B) := by
  rw [← nested_loop_join_eq_equi_join]
  apply to_vector_of_models
  · exact join_range_models F _ _ kA kB f () () A B (from_container_range_models A)
      (from_container_range_models B) hFA hFB
  · rw [nested_loop_join_eq_equi_join]
    exact lt_of_le_of_lt (equi_join_length_le kA kB f A B) hfuel

theorem from_container_range_eq_self {α : Type} (c : List α)
    (e : from_container_range.iterator) : (from_container_range c).eq e e = true := by
  simp [from_container_range]

theorem select_range_yields {ρ σ α β : Type} (Prev : Range ρ σ α) (f : α → β) (e : σ) :
    ∀ (b : σ) (l : List α), Yields Prev e b l →
      Yields (select_range Prev f) ⟨e, e⟩ ⟨b, e⟩ (l.map f) := by
  intro b l h
  induction h with
  | nil it hne heq =>
    exact Yields.nil _ (by simpa [select_range] using hne) (by simpa [select_range] using heq)
  | cons it it1 a l hne heq hd hi _ ih =>
    refine Yields.cons _ ⟨it1, e⟩ (f a) _ ?_ ?_ ?_ ?_ ih
    · simpa [select_range] using hne
    · simpa [select_range] using heq
    · simp [select_range, hd]
    · simp [select_range, hi]

theorem select_range_models {ρ σ α β : Type} (Prev : Range ρ σ α) (f : α → β) (r : ρ)
    (l : List α) (h : Models Prev r l) : Models (select_range Prev f) r (l.map f) := by
  obtain ⟨b, e, r1, hb, hb1, he, hee, hy⟩ := h
  refine ⟨⟨b, e⟩, ⟨e, e⟩, r1, ?_, ?_, ?_, ?_, select_range_yields Prev f e b l hy⟩
  · simp [select_range, hb, he]
  · simp [select_range, hb1, he]
  · simp [select_range, he]
  · simpa [select_range] using hee

/-- C18: for every container `c` and transform `f`, `from(&c).select(f).to_vector()`
is the element-wise image of `c` under `f`: it has the length of `c`, and its
`i`-th element is `f` applied to the `i`-th element of `c`. -/
theorem select_to_vector_eq_map {α β : Type} (c : List α) (f : α → β) (fuel : Nat)
    (hfuel : c.length < fuel) :
    to_vector fuel (select_range (from_ c) f) () = some (c.map f) ∧
      (c.map f).length = c.length ∧
      ∀ i, (c.map f).get? i = (c.get? i).map f := by
  refine ⟨?_, List.length_map _ _, fun i => by simp⟩
  apply to_vector_of_models
  · exact select_range_models _ f () c (from_container_range_models c)
  · simpa using hfuel

theorem select_to_vector_eq_map_witness :
    to_vector 4 (select_range (from_ [1, 2, 3]) (fun n : Nat => 10 * n)) ()
        = some ([1, 2, 3].map (fun n : Nat => 10 * n)) ∧
      ([1, 2, 3].map (fun n : Nat => 10 * n)).length = [1, 2, 3].length ∧
      ∀ i, ([1, 2, 3].map (fun n : Nat => 10 * n)).get? i
        = ([1, 2, 3].get? i).map (fun n : Nat => 10 * n) :=
  select_to_vector_eq_map [1, 2, 3] (fun n : Nat => 10 * n) 4 (by decide)

theorem take_while_range_yields {ρ σ α : Type} (Prev : Range ρ σ α) (P : α → Bool) (e : σ)
    (hne_e : Prev.ne e e = false) (heq_e : Prev.eq e e = true) :
    ∀ (b : σ) (l : List α), Yields Prev e b l →
      ∃ it0, take_while_range.iterator.check Prev P b e = some it0 ∧
        Yields (take_while_range Prev P) ⟨e, e⟩ it0 (l.takeWhile P) := by
  intro b l h
  induction h with
  | nil it hne heq =>
    refine ⟨⟨it, e⟩, by simp [take_while_range.iterator.check, hne], ?_⟩
    exact Yields.nil _ (by simpa [take_while_range] using hne)
      (by simpa [take_while_range] using heq)
  | cons it it1 a l hne heq hd hi _ ih =>
    by_cases hp : P a = true
    · obtain ⟨it0, h1, h2⟩ := ih
      refine ⟨⟨it, e⟩, by simp [take_while_range.iterator.check, hne, hd, hp], ?_⟩
      rw [List.takeWhile_cons_of_pos hp]
      refine Yields.cons _ it0 a _ ?_ ?_ ?_ ?_ h2
      · simpa [take_while_range] using hne
      · simpa [take_while_range] using heq
      · simp [take_while_range, hd]
      · simp [take_while_range, hi, h1]
    · have hp1 : P a = false := by simpa using hp
      refine ⟨⟨e, e⟩, by simp [take_while_range.iterator.check, hne, hd, hp1], ?_⟩
      rw [List.takeWhile_cons_of_neg hp]
      exact Yields.nil _ (by simpa [take_while_range] using hne_e)
        (by simpa [take_while_range] using heq_e)

theorem take_while_range_models {ρ σ α : Type} (Prev : Range ρ σ α) (P : α → Bool) (r : ρ)
    (l : List α) (h : Models Prev r l) (hrefl : ∀ e, Prev.eq e e = true) :
    Models (take_while_range Prev P) r (l.takeWhile P) := by
  obtain ⟨b, e, r1, hb, hb1, he, hee, hy⟩ := h
  obtain ⟨it0, h1, h2⟩ := take_while_range_yields Prev P e hee (hrefl e) b l hy
  refine ⟨it0, ⟨e, e⟩, r1, ?_, ?_, ?_, ?_, h2⟩
  · simp [take_while_range, hb, he, h1]
  · simp [take_while_range, hb1, he, h1]
  · simp [take_while_range, he, take_while_range.iterator.check, hee]
  · simpa [take_while_range] using hee

/-- C15: for every container `c` and predicate `P`,
`from(&c).take_while(P).to_vector()` is the longest prefix of `c` all of whose
elements satisfy `P` (`c.takeWhile P`), so nothing after the first failing
element is yielded; and when `P` fails on the element under the cursor, the
check run by the constructor and by `operator++` sets the cursor to a position
that equals the end cursor. -/
theorem take_while_to_vector_eq_takeWhile {α : Type} (c : List α) (P : α → Bool) (fuel : Nat)
    (hfuel : c.length < fuel) :
    to_vector fuel (take_while_range (from_ c) P) () = some (c.takeWhile P) ∧
      ∀ (pos : Nat) (x : α), c.get? pos = some x → P x = false →
        take_while_range.iterator.check (from_ c) P ⟨pos⟩ ⟨c.length⟩
            = some ⟨⟨c.length⟩, ⟨c.length⟩⟩ ∧
          (take_while_range (from_ c) P).eq ⟨⟨c.length⟩, ⟨c.length⟩⟩
            ⟨⟨c.length⟩, ⟨c.length⟩⟩ = true := by
  constructor
  · apply to_vector_of_models
    · exact take_while_range_models _ P () c (from_container_range_models c)
        (from_container_range_eq_self c)
    · exact lt_of_le_of_lt (List.takeWhile_sublist P).length_le hfuel
  · intro pos x hx hp
    have hlt : pos < c.length := by
      by_contra hcon
      rw [List.get?_eq_none.mpr (by omega)] at hx
      exact Option.noConfusion hx
    have hne : pos ≠ c.length := by omega
    constructor
    · simp [take_while_range.iterator.check, from_, from_container_range, hne]
      rw [← List.get?_eq_getElem?, hx]
      simp [hp]
    · simp [take_while_range, from_, from_container_range]

theorem take_while_to_vector_eq_takeWhile_witness :
    to_vector 6 (take_while_range (from_ [1, 2, 5, 1, 2]) (fun n : Nat => decide (n < 3))) ()
      = some [1, 2] :=
  (take_while_to_vector_eq_takeWhile [1, 2, 5, 1, 2] (fun n : Nat => decide (n < 3)) 6
    (by decide)).1

theorem skip_range_lift {ρ σ α : Type} (Prev : Range ρ σ α) (F n : Nat) (e : σ) :
    ∀ (b : σ) (l : List α), Yields Prev e b l → Yields (skip_range F Prev n) ⟨e⟩ ⟨b⟩ l := by
  intro b l h
  induction h with
  | nil it hne heq =>
    exact Yields.nil _ (by simpa [skip_range] using hne) (by simpa [skip_range] using heq)
  | cons it it1 a l hne heq hd hi _ ih =>
    refine Yields.cons _ ⟨it1⟩ a _ ?_ ?_ ?_ ?_ ih
    · simpa [skip_range] using hne
    · simpa [skip_range] using heq
    · simp [skip_range, hd]
    · simp [skip_range, hi]

theorem skip_range_mk {ρ σ α : Type} (Prev : Range ρ σ α) (e : σ) :
    ∀ (b : σ) (l : List α), Yields Prev e b l → ∀ (n fuel : Nat), n < SIZE_MOD →
      l.length < fuel →
      ∃ b1, skip_range.iterator.mk_ Prev e fuel b n = some ⟨b1⟩ ∧
        Yields Prev e b1 (l.drop n) := by
  intro b l h
  induction h with
  | nil it hne heq =>
    intro n fuel _ hf
    cases fuel with
    | zero => simp at hf
    | succ m =>
      refine ⟨it, by simp [skip_range.iterator.mk_, hne], ?_⟩
      rw [List.drop_nil]
      exact Yields.nil it hne heq
  | cons it it1 a l hne heq hd hi hy ih =>
    intro n fuel hn hf
    cases fuel with
    | zero => simp at hf
    | succ m =>
      cases n with
      | zero =>
        exact ⟨it, by simp [skip_range.iterator.mk_], Yields.cons it it1 a l hne heq hd hi hy⟩
      | succ k =>
        have hk : (k + 1 + SIZE_MOD - 1) % SIZE_MOD = k := by
          have : k + 1 + SIZE_MOD - 1 = k + SIZE_MOD := by omega
          rw [this, Nat.add_mod_right, Nat.mod_eq_of_lt (by omega)]
        obtain ⟨b1, h1, h2⟩ := ih k m (by omega) (by simp at hf; omega)
        refine ⟨b1, ?_, by simpa using h2⟩
        rw [skip_range.iterator.mk_]
        simp only [hne, Bool.true_and, hi, hk, h1]
        simp

theorem skip_range_models {ρ σ α : Type} (Prev : Range ρ σ α) (r : ρ) (l : List α)
    (n F : Nat) (h : Models Prev r l) (hn : n < SIZE_MOD) (hF : l.length < F) :
    Models (skip_range F Prev n) r (l.drop n) := by
  obtain ⟨b, e, r1, hb, hb1, he, hee, hy⟩ := h
  obtain ⟨b1, h1, h2⟩ := skip_range_mk Prev e b l hy n F hn hF
  have hend : skip_range.iterator.mk_ Prev e F e 0 = some ⟨e⟩ := by
    cases F with
    | zero => simp at hF
    | succ m => simp [skip_range.iterator.mk_]
  refine ⟨⟨b1⟩, ⟨e⟩, r1, ?_, ?_, ?_, ?_, skip_range_lift Prev F n e b1 _ h2⟩
  · simp [skip_range, hb, he, h1]
  · simp [skip_range, hb1, he, h1]
  · simp [skip_range, he, hend]
  · simpa [skip_range] using hee

/-- C16: for every container `c` and count `n` (a `size_t`),
`from(&c).skip(n).to_vector()` is `c` without its first `n` elements
(`c.drop n`), which is empty when `n >= |c|`. -/
theorem skip_to_vector_eq_drop {α : Type} (c : List α) (n fuel F : Nat)
    (hn : n < SIZE_MOD) (hfuel : c.length < fuel) (hF : c.length < F) :
    to_vector fuel (skip_range F (from_ c) n) () = some (c.drop n) ∧
      (c.length ≤ n → c.drop n = []) := by
  refine ⟨?_, List.drop_eq_nil_of_le⟩
  apply to_vector_of_models
  · exact skip_range_models _ () c n F (from_container_range_models c) hn hF
  · exact lt_of_le_of_lt (by simp) hfuel

theorem skip_to_vector_eq_drop_witness :
    (to_vector 6 (skip_range 6 (from_ [10, 20, 30, 40, 50]) 2) () = some [30, 40, 50] ∧
      ([10, 20, 30, 40, 50].length ≤ 2 → [10, 20, 30, 40, 50].drop 2 = [])) ∧
    (to_vector 3 (skip_range 3 (from_ [10, 20]) 7) () = some ([] : List Nat) ∧
      ([10, 20].length ≤ 7 → [10, 20].drop 7 = [])) :=
  ⟨skip_to_vector_eq_drop [10, 20, 30, 40, 50] 2 6 6 (by decide) (by decide) (by decide),
   skip_to_vector_eq_drop [10, 20] 7 3 3 (by decide) (by decide) (by decide)⟩

theorem skip_while_range_lift {ρ σ α : Type} (Prev : Range ρ σ α) (F : Nat) (P : α → Bool)
    (e : σ) :
    ∀ (b : σ) (l : List α), Yields Prev e b l →
      Yields (skip_while_range F Prev P) ⟨e⟩ ⟨b⟩ l := by
  intro b l h
  induction h with
  | nil it hne heq =>
    exact Yields.nil _ (by simpa [skip_while_range] using hne)
      (by simpa [skip_while_range] using heq)
  | cons it it1 a l hne heq hd hi _ ih =>
    refine Yields.cons _ ⟨it1⟩ a _ ?_ ?_ ?_ ?_ ih
    · simpa [skip_while_range] using hne
    · simpa [skip_while_range] using heq
    · simp [skip_while_range, hd]
    · simp [skip_while_range, hi]

theorem skip_while_range_mk {ρ σ α : Type} (Prev : Range ρ σ α) (P : α → Bool) (e : σ) :
    ∀ (b : σ) (l : List α), Yields Prev e b l → ∀ (fuel : Nat), l.length < fuel →
      ∃ b1, skip_while_range.iterator.mk_ Prev P e fuel b = some ⟨b1⟩ ∧
        Yields Prev e b1 (l.dropWhile P) := by
  intro b l h
  induction h with
  | nil it hne heq =>
    intro fuel hf
    cases fuel with
    | zero => simp at hf
    | succ m =>
      refine ⟨it, by simp [skip_while_range.iterator.mk_, hne], ?_⟩
      rw [List.dropWhile_nil]
      exact Yields.nil it hne heq
  | cons it it1 a l hne heq hd hi hy ih =>
    intro fuel hf
    cases fuel with
    | zero => simp at hf
    | succ m =>
      by_cases hp : P a = true
      · obtain ⟨b1, h1, h2⟩ := ih m (by simp at hf; omega)
        refine ⟨b1, by simp [skip_while_range.iterator.mk_, hne, hd, hp, hi, h1], ?_⟩
        rw [List.dropWhile_cons_of_pos hp]
        exact h2
      · have hp1 : P a = false := by simpa using hp
        refine ⟨it, by simp [skip_while_range.iterator.mk_, hne, hd, hp1], ?_⟩
        rw [List.dropWhile_cons_of_neg hp]
        exact Yields.cons it it1 a l hne heq hd hi hy

theorem skip_while_range_models {ρ σ α : Type} (Prev : Range ρ σ α) (P : α → Bool) (r : ρ)
    (l : List α) (F : Nat) (h : Models Prev r l) (hF : l.length < F) :
    Models (skip_while_range F Prev P) r (l.dropWhile P) := by
  obtain ⟨b, e, r1, hb, hb1, he, hee, hy⟩ := h
  obtain ⟨b1, h1, h2⟩ := skip_while_range_mk Prev P e b l hy F hF
  have hend : skip_while_range.iterator.mk_ Prev P e F e = some ⟨e⟩ := by
    cases F with
    | zero => simp at hF
    | succ m => simp [skip_while_range.iterator.mk_, hee]
  refine ⟨⟨b1⟩, ⟨e⟩, r1, ?_, ?_, ?_, ?_, skip_while_range_lift Prev F P e b1 _ h2⟩
  · simp [skip_while_range, hb, he, h1]
  · simp [skip_while_range, hb1, he, h1]
  · simp [skip_while_range, he, hend]
  · simpa [skip_while_range] using hee

/-- C17: for every container `c` and predicate `P`,
`from(&c).skip_while(P).to_vector()` is `c` with its longest all-`P` beginning
removed (`c.dropWhile P`): what is removed satisfies `P` throughout, the first
yielded element (if any) fails `P`, and the removed part followed by the result
is `c`, so every later element is yielded unchanged whether or not it
satisfies `P`. -/
theorem skip_while_to_vector_eq_dropWhile {α : Type} (c : List α) (P : α → Bool)
    (fuel F : Nat) (hfuel : c.length < fuel) (hF : c.length < F) :
    to_vector fuel (skip_while_range F (from_ c) P) () = some (c.dropWhile P) ∧
      c.takeWhile P ++ c.dropWhile P = c ∧
      (∀ x, x ∈ c.takeWhile P → P x = true) ∧
      (∀ x, (c.dropWhile P).head? = some x → P x = false) := by
  refine ⟨?_, List.takeWhile_append_dropWhile P c, fun x hx => List.mem_takeWhile_imp hx, ?_⟩
  · apply to_vector_of_models
    · exact skip_while_range_models _ P () c F (from_container_range_models c) hF
    · exact lt_of_le_of_lt (List.dropWhile_sublist P).length_le hfuel
  · intro x hx
    have h := List.head?_dropWhile_not P c
    rw [hx] at h
    simpa using h

theorem skip_while_to_vector_eq_dropWhile_witness :
    to_vector 6 (skip_while_range 6 (from_ [1, 2, 5, 1, 7]) (fun n : Nat => decide (n < 3))) ()
      = some [5, 1, 7] :=
  (skip_while_to_vector_eq_dropWhile [1, 2, 5, 1, 7] (fun n : Nat => decide (n < 3)) 6 6
    (by decide) (by decide)).1

theorem append_range_yields_other {ρA ρB σA σB α : Type} (A : Range ρA σA α)
    (B : Range ρB σB α) (my myEnd eA : σA) (eB : σB) (hmy : A.ne my myEnd = false) :
    ∀ (ob : σB) (lb : List α), Yields B eB ob lb →
      Yields (append_range A B) ⟨eA, eA, eB, eB⟩ ⟨my, myEnd, ob, eB⟩ lb := by
  intro ob lb h
  induction h with
  | nil it hne heq =>
    exact Yields.nil _ (by simpa [append_range] using hne) (by simpa [append_range] using heq)
  | cons it it1 a l hne heq hd hi _ ih =>
    refine Yields.cons _ ⟨my, myEnd, it1, eB⟩ a _ ?_ ?_ ?_ ?_ ih
    · simpa [append_range] using hne
    · simpa [append_range] using heq
    · simp [append_range, hmy, hd]
    · simp [append_range, hmy, hi]

theorem append_range_yields_my {ρA ρB σA σB α : Type} (A : Range ρA σA α)
    (B : Range ρB σB α) (eA : σA) (ob eB : σB) (b0 : α) (lb : List α)
    (hB : Yields B eB ob (b0 :: lb)) :
    ∀ (my : σA) (la : List α), Yields A eA my la →
      Yields (append_range A B) ⟨eA, eA, eB, eB⟩ ⟨my, eA, ob, eB⟩ (la ++ b0 :: lb) := by
  have hneB : B.ne ob eB = true := by
    cases hB with
    | cons _ _ _ _ h _ _ _ _ => exact h
  have heqB : B.eq ob eB = false := by
    cases hB with
    | cons _ _ _ _ _ h _ _ _ => exact h
  intro my la h
  induction h with
  | nil it hne _ =>
    exact append_range_yields_other A B it eA eA eB hne ob _ hB
  | cons it it1 a l hne _ hd hi _ ih =>
    refine Yields.cons _ ⟨it1, eA, ob, eB⟩ a _ ?_ ?_ ?_ ?_ ih
    · simpa [append_range] using hneB
    · simpa [append_range] using heqB
    · simp [append_range, hne, hd]
    · simp [append_range, hne, hi]

theorem append_range_models {ρA ρB σA σB α : Type} (A : Range ρA σA α) (B : Range ρB σB α)
    (rA : ρA) (rB : ρB) (lA lB : List α) (hA : Models A rA lA) (hB : Models B rB lB) :
    Models (append_range A B) (rA, rB) (if lB.isEmpty then [] else lA ++ lB) := by
  obtain ⟨b, e, rA1, hb, hb1, he, _, hyA⟩ := hA
  obtain ⟨bB, eB, rB1, hbB, hbB1, heB, heeB, hyB⟩ := hB
  refine ⟨⟨b, e, bB, eB⟩, ⟨e, e, eB, eB⟩, (rA1, rB1), ?_, ?_, ?_, ?_, ?_⟩
  · simp [append_range, hb, he, hbB, heB]
  · simp [append_range, hb1, he, hbB1, heB]
  · simp [append_range, he, heB]
  · simpa [append_range] using heeB
  · cases lB with
    | nil =>
      simp only [List.isEmpty_nil, if_true]
      cases hyB with
      | nil _ hne heq =>
        exact Yields.nil _ (by simpa [append_range] using hne)
          (by simpa [append_range] using heq)
    | cons b0 lb =>
      simp only [List.isEmpty_cons, Bool.false_eq_true, if_false]
      exact append_range_yields_my A B e bB eB b0 lb hyB b lA hyA

theorem append_to_vector_of_second_nonempty {α : Type} (A B : List α) (fuel : Nat)
    (hB : B ≠ []) (hf : A.length + B.length < fuel) :
    to_vector fuel (append_range (from_ A) (from_ B)) ((), ()) = some (A ++ B) := by
  have h := append_range_models _ _ () () A B (from_container_range_models A)
    (from_container_range_models B)
  have hB1 : B.isEmpty = false := by
    cases B with
    | nil => exact absurd rfl hB
    | cons _ _ => rfl
  simp only [hB1, Bool.false_eq_true, if_false] at h
  exact to_vector_of_models _ _ _ fuel h (by simpa using hf)

/-- C11 fails on the code when the second sequence is empty: for every container
`A`, `from(&A).append(from(&B)).to_vector()` with an empty `B` is empty, because
`begin()` and `end()` then have the same `OtherBegin`, however many elements `A`
has; for `A = [1]` the result is not `A` followed by `B`. -/
theorem append_empty_second_yields_nothing {α : Type} (A : List α) (fuel : Nat) :
    to_vector (fuel + 1) (append_range (from_ A) (from_ ([] : List α))) ((), ()) = some [] ∧
      to_vector 2 (append_range (from_ [1]) (from_ ([] : List Nat))) ((), ())
        ≠ some ([1] ++ []) := by
  refine ⟨?_, by decide⟩
  have h := append_range_models _ _ () () A [] (from_container_range_models A)
    (from_container_range_models ([] : List α))
  simp only [List.isEmpty_nil, if_true] at h
  exact to_vector_of_models _ _ _ (fuel + 1) h (by simp)

theorem repeat_range_yields {ρ σ α : Type} (Prev : Range ρ σ α) (N : Nat) (r1 : ρ) (b e : σ)
    (l : List α) (hb1 : Prev.begin r1 = some (b, r1)) (hl : l ≠ []) (hy : Yields Prev e b l) :
    ∀ (k : Nat), k < SIZE_MOD → ∀ (pos : σ) (l1 : List α), Yields Prev e pos l1 → l1 ≠ [] →
      Yields (repeat_range Prev N) ⟨r1, e, e, 0⟩ ⟨r1, pos, e, k⟩
        (l1 ++ (List.replicate k l).flatten) := by
  intro k
  induction k with
  | zero =>
    intro _ pos l1 h
    induction h with
    | nil _ _ _ => intro hcon; exact absurd rfl hcon
    | cons it it1 a l2 hne heq hd hi hy2 ih =>
      intro _
      cases l2 with
      | nil =>
        cases hy2 with
        | nil _ hne2 heq2 =>
          refine Yields.cons _ ⟨r1, it1, e, 0⟩ a _ ?_ ?_ ?_ ?_ (Yields.nil _ ?_ ?_)
          · simpa [repeat_range] using hne
          · simpa [repeat_range] using heq
          · simp [repeat_range, hd]
          · simp [repeat_range, hi]
          · simpa [repeat_range] using hne2
          · simpa [repeat_range] using heq2
      | cons x l3 =>
        have heq2 : Prev.eq it1 e = false := by
          cases hy2 with
          | cons _ _ _ _ _ h _ _ _ => exact h
        refine Yields.cons _ ⟨r1, it1, e, 0⟩ a _ ?_ ?_ ?_ ?_ (ih (by simp))
        · simpa [repeat_range] using hne
        · simpa [repeat_range] using heq
        · simp [repeat_range, hd]
        · simp [repeat_range, hi]
  | succ m ihk =>
    intro hk pos l1 h
    have hm : (m + 1 + SIZE_MOD - 1) % SIZE_MOD = m := by
      have : m + 1 + SIZE_MOD - 1 = m + SIZE_MOD := by omega
      rw [this, Nat.add_mod_right, Nat.mod_eq_of_lt (by omega)]
    induction h with
    | nil _ _ _ => intro hcon; exact absurd rfl hcon
    | cons it it1 a l2 hne heq hd hi hy2 ih =>
      intro _
      cases l2 with
      | nil =>
        have heq2 : Prev.eq it1 e = true := by
          cases hy2 with
          | nil _ _ h => exact h
        have hrec := ihk (by omega) b l hy hl
        have hlist : [a] ++ (List.replicate (m + 1) l).flatten
            = a :: (l ++ (List.replicate m l).flatten) := by
          simp [List.replicate_succ]
        rw [hlist]
        refine Yields.cons _ ⟨r1, b, e, m⟩ a _ ?_ ?_ ?_ ?_ hrec
        · simpa [repeat_range] using hne
        · simpa [repeat_range] using heq
        · simp [repeat_range, hd]
        · simp only [repeat_range, hi, heq2, hb1, hm]
          simp
      | cons x l3 =>
        have heq2 : Prev.eq it1 e = false := by
          cases hy2 with
          | cons _ _ _ _ _ h _ _ _ => exact h
        refine Yields.cons _ ⟨r1, it1, e, m + 1⟩ a _ ?_ ?_ ?_ ?_ (ih (by simp))
        · simpa [repeat_range] using hne
        · simpa [repeat_range] using heq
        · simp [repeat_range, hd]
        · simp [repeat_range, hi, heq2]

theorem repeat_range_models {ρ σ α : Type} (Prev : Range ρ σ α) (r : ρ) (l : List α)
    (n : Nat) (h : Models Prev r l) (hn : n < SIZE_MOD) :
    Models (repeat_range Prev n) r (List.replicate (n + 1) l).flatten := by
  obtain ⟨b, e, r1, hb, hb1, he, hee, hy⟩ := h
  refine ⟨⟨r1, b, e, n⟩, ⟨r1, e, e, 0⟩, r1, ?_, ?_, ?_, ?_, ?_⟩
  · simp [repeat_range, hb, he]
  · simp [repeat_range, hb1, he]
  · simp [repeat_range, he]
  · simpa [repeat_range] using hee
  · cases l with
    | nil =>
      rw [List.flatten_replicate_nil]
      cases hy with
      | nil _ hne heq =>
        exact Yields.nil _ (by simpa [repeat_range] using hne)
          (by simpa [repeat_range] using heq)
    | cons a l0 =>
      have h1 := repeat_range_yields Prev n r1 b e (a :: l0) hb1 (by simp) hy n hn b (a :: l0)
        hy (by simp)
      simpa [List.replicate_succ] using h1

/-- C13: for every container `c` and count `n` (a `size_t`),
`from(&c).repeat(n).to_vector()` is `c` concatenated with itself `n + 1` times;
so `repeat(0)` yields `c` once and repeating an empty container yields nothing. -/
theorem repeat_to_vector_eq_replicate {α : Type} (c : List α) (n fuel : Nat)
    (hn : n < SIZE_MOD) (hfuel : (n + 1) * c.length < fuel) :
    to_vector fuel (repeat_range (from_ c) n) () = some (List.replicate (n + 1) c).flatten ∧
      (n = 0 → (List.replicate (n + 1) c).flatten = c) ∧
      (c = [] → (List.replicate (n + 1) c).flatten = []) := by
  refine ⟨?_, ?_, ?_⟩
  · apply to_vector_of_models
    · exact repeat_range_models _ () c n (from_container_range_models c) hn
    · simpa using hfuel
  · intro h0
    simp [h0]
  · intro hc
    simp [hc]

theorem repeat_to_vector_eq_replicate_witness :
    to_vector 7 (repeat_range (from_ [1, 2]) 2) () = some [1, 2, 1, 2, 1, 2] ∧
      to_vector 3 (repeat_range (from_ [1, 2]) 0) () = some [1, 2] ∧
      to_vector 1 (repeat_range (from_ ([] : List Nat)) 5) () = some [] :=
  ⟨(repeat_to_vector_eq_replicate [1, 2] 2 7 (by decide) (by decide)).1,
   (repeat_to_vector_eq_replicate [1, 2] 0 3 (by decide) (by decide)).1,
   (repeat_to_vector_eq_replicate [] 5 1 (by decide) (by decide)).1⟩

theorem range_for_loop_of_yields {ρ σ α β : Type} (R : Range ρ σ α) (e : σ)
    (body : β → α → β × Bool) :
    ∀ (it : σ) (l : List α), Yields R e it l → ∀ (fuel : Nat) (s : β), l.length < fuel →
      range_for.loop R e body fuel it s = some (fold_break body s l) := by
  intro it l h
  induction h with
  | nil it hne _ =>
    intro fuel s hf
    cases fuel with
    | zero => simp at hf
    | succ n => simp [range_for.loop, hne, fold_break]
  | cons it it1 a l hne _ hd hi _ ih =>
    intro fuel s hf
    cases fuel with
    | zero => simp at hf
    | succ n =>
      have hrec := ih n
      rw [range_for.loop, fold_break]
      simp only [hne, if_true, hd]
      rcases hb : body s a with ⟨s1, stop⟩
      cases stop with
      | true => rfl
      | false =>
        simp only [hi]
        exact hrec s1 (by simp at hf; omega)

theorem range_for_of_models {ρ σ α β : Type} (R : Range ρ σ α) (r : ρ) (l : List α)
    (fuel : Nat) (init : β) (body : β → α → β × Bool) (h : Models R r l)
    (hf : l.length < fuel) : range_for fuel R r init body = some (fold_break body init l) := by
  obtain ⟨b, e, r1, hb, _, he, _, hy⟩ := h
  simp only [range_for, hb, he]
  exact range_for_loop_of_yields R e body b l hy fuel init hf

theorem fold_break_sum_body {T : Type} (func : T → T → T) :
    ∀ (l : List T) (acc : T),
      fold_break (fun (s : Bool × T) p =>
        if s.1 then ((false, p), false) else ((false, func s.2 p), false)) (false, acc) l
        = (false, l.foldl func acc) := by
  intro l
  induction l with
  | nil => intro acc; rfl
  | cons a l ih =>
    intro acc
    simp only [fold_break, Bool.false_eq_true, if_false, List.foldl_cons]
    exact ih (func acc a)

theorem base_range_aggregate_of_models {ρ σ T : Type} [Zero T] (R : Range ρ σ T) (r : ρ)
    (l : List T) (fuel : Nat) (func : T → T → T) (h : Models R r l) (hf : l.length < fuel) :
    base_range.aggregate fuel R r func
      = some (match l with
        | [] => 0
        | x :: rest => rest.foldl func x) := by
  rw [base_range.aggregate, range_for_of_models R r l fuel _ _ h hf]
  cases l with
  | nil => rfl
  | cons x rest =>
    simp only [fold_break, if_true, Option.map_some']
    rw [fold_break_sum_body func rest x]

theorem base_range_sum_of_models {ρ σ T : Type} [Zero T] [Add T] (R : Range ρ σ T) (r : ρ)
    (l : List T) (fuel : Nat) (h : Models R r l) (hf : l.length < fuel) :
    base_range.sum fuel R r
      = some (match l with
        | [] => 0
        | x :: rest => rest.foldl (fun acc p => acc + p) x) := by
  rw [base_range.sum, range_for_of_models R r l fuel _ _ h hf]
  cases l with
  | nil => rfl
  | cons x rest =>
    simp only [fold_break, if_true, Option.map_some']
    rw [fold_break_sum_body (fun acc p => acc + p) rest x]

theorem foldl_add_eq_sum (rest : List Int) :
    ∀ x : Int, rest.foldl (fun acc p => acc + p) x = x + rest.sum := by
  induction rest with
  | nil => intro x; simp
  | cons a l ih =>
    intro x
    simp only [List.foldl_cons, List.sum_cons, ih]
    ring

/-- Over unbounded integers, where no addition overflows, `from(&c).sum()` is the
arithmetic sum of all elements of `c`: the first element seeds the accumulator
and every later element is added to it once, in order; `aggregate` with
addition returns the same value. -/
theorem base_range_sum_unbounded (c : List Int) (fuel : Nat) (hfuel : c.length < fuel) :
    base_range.sum fuel (from_ c) () = some c.sum ∧
      (∀ x rest, c = x :: rest →
        base_range.sum fuel (from_ c) () = some (rest.foldl (fun acc p => acc + p) x)) ∧
      base_range.aggregate fuel (from_ c) () (fun a b => a + b) = some c.sum := by
  have hs := base_range_sum_of_models (from_ c) () c fuel (from_container_range_models c) hfuel
  have ha := base_range_aggregate_of_models (from_ c) () c fuel (fun a b => a + b)
    (from_container_range_models c) hfuel
  cases c with
  | nil =>
    refine ⟨by simpa using hs, ?_, by simpa using ha⟩
    intro x rest hc
    exact absurd hc (by simp)
  | cons y l =>
    refine ⟨?_, ?_, ?_⟩
    · rw [hs]
      simp [foldl_add_eq_sum]
    · intro x rest hc
      simp only [List.cons.injEq] at hc
      obtain ⟨rfl, rfl⟩ := hc
      exact hs
    · rw [ha]
      simp [foldl_add_eq_sum]

/-- C19: the sign of the step argument is irrelevant.  For all integers `start`,
`end_`, `step` the constructor turns `step` and `-step` into the same member
`Step`, namely the magnitude of `step` with a minus sign exactly when
`start > end_`; hence `from_to(start, end_, step)` and `from_to(start, end_, -step)`
are the same sequence value and every traversal of them gives the same result. -/
theorem from_to_step_sign_irrelevant (start end_ step : Int) :
    from_to_range.Step start end_ step = from_to_range.Step start end_ (-step) ∧
      from_to_range.Step start end_ step
        = (if start > end_ then -(step.natAbs : Int) else (step.natAbs : Int)) ∧
      from_to start end_ step = from_to start end_ (-step) ∧
      ∀ fuel, to_vector fuel (from_to start end_ step) ()
        = to_vector fuel (from_to start end_ (-step)) () := by
  have h1 : ∀ s : Int, from_to_range.Step start end_ s
      = (if start > end_ then -(s.natAbs : Int) else (s.natAbs : Int)) := by
    intro s
    unfold from_to_range.Step
    by_cases hs : s < 0 <;> by_cases hgt : start > end_ <;> simp only [hs, hgt, if_true, if_false]
      <;> omega
  have h2 : from_to_range.Step start end_ step = from_to_range.Step start end_ (-step) := by
    rw [h1 step, h1 (-step), Int.natAbs_neg]
  have h3 : from_to start end_ step = from_to start end_ (-step) := by
    unfold from_to
    rw [h2]
  exact ⟨h2, h1 step, h3, fun fuel => by rw [h3]⟩

theorem range_for_of_models_nil {ρ σ α β : Type} (R : Range ρ σ α) (r : ρ) (fuel : Nat)
    (init : β) (body : β → α → β × Bool) (h : Models R r []) (hf : 0 < fuel) :
    range_for fuel R r init body = some init :=
  range_for_of_models R r [] fuel init body h (by simpa using hf)

/-- C14: on an empty integer sequence (any sequence obeying the cursor contract
that denotes the empty list, in particular an empty container) `sum()`,
`min()` and `max()` return `0` and `average()` returns the literal `0.0`; and no
terminal operation fails: `aggregate` returns `0`, `first`, `last` and
`element_at` return the caller's default, `any` returns `false`, `all` returns
`true`, `count` returns `0` and `to_vector` returns the empty vector. -/
theorem empty_sequence_terminals {ρ σ D : Type} (R : Range ρ σ Int) (r : ρ)
    (dbl : double_arith D) (fuel : Nat) (func : Int → Int → Int) (pred : Int → Bool)
    (d : Int) (index : Nat) (h : Models R r []) (hf : 0 < fuel) :
    base_range.sum fuel R r = some 0 ∧
      base_range.min fuel R r = some 0 ∧
      base_range.max fuel R r = some 0 ∧
      base_range.average dbl fuel R r = some dbl.zero ∧
      base_range.aggregate fuel R r func = some 0 ∧
      base_range.first fuel R r d = some d ∧
      base_range.first_if fuel R r pred d = some d ∧
      base_range.last fuel R r d = some d ∧
      base_range.last_if fuel R r pred d = some d ∧
      base_range.any fuel R r pred = some false ∧
      base_range.all fuel R r pred = some true ∧
      base_range.count fuel R r = some 0 ∧
      base_range.count_if fuel R r pred = some 0 ∧
      base_range.element_at fuel R r index d = some d ∧
      to_vector fuel R r = some [] := by
  have hsum : base_range.sum fuel R r = some 0 := by
    simp [base_range.sum, range_for_of_models_nil R r fuel _ _ h hf]
  have hcount : base_range.count fuel R r = some 0 := by
    simp [base_range.count, range_for_of_models_nil R r fuel _ _ h hf]
  refine ⟨hsum, ?_, ?_, ?_, ?_, ?_, ?_, ?_, ?_, ?_, ?_, hcount, ?_, ?_, ?_⟩
  · simp [base_range.min, range_for_of_models_nil R r fuel _ _ h hf]
  · simp [base_range.max, range_for_of_models_nil R r fuel _ _ h hf]
  · simp [base_range.average, avg_calculator_int.calc, hcount]
  · simp [base_range.aggregate, range_for_of_models_nil R r fuel _ _ h hf]
  · simp [base_range.first, range_for_of_models_nil R r fuel _ _ h hf]
  · simp [base_range.first_if, range_for_of_models_nil R r fuel _ _ h hf]
  · simp [base_range.last, range_for_of_models_nil R r fuel _ _ h hf]
  · simp [base_range.last_if, range_for_of_models_nil R r fuel _ _ h hf]
  · simp [base_range.any, range_for_of_models_nil R r fuel _ _ h hf]
  · simp [base_range.all, range_for_of_models_nil R r fuel _ _ h hf]
  · simp [base_range.count_if, range_for_of_models_nil R r fuel _ _ h hf]
  · simp [base_range.element_at, range_for_of_models_nil R r fuel _ _ h hf]
  · exact to_vector_of_models R r [] fuel h (by simpa using hf)

theorem empty_sequence_terminals_witness :
    base_range.sum 1 (from_ ([] : List Int)) () = some 0 ∧
      base_range.min 1 (from_ ([] : List Int)) () = some 0 ∧
      base_range.max 1 (from_ ([] : List Int)) () = some 0 ∧
      base_range.average (⟨fun n => (n : Rat), fun x n => x / n, 0⟩ : double_arith Rat) 1
        (from_ ([] : List Int)) () = some 0 :=
  have h := empty_sequence_terminals (from_ ([] : List Int)) ()
    (⟨fun n => (n : Rat), fun x n => x / n, 0⟩ : double_arith Rat) 1 (fun a b => a + b)
    (fun _ => true) 0 0 (from_container_range_models []) (by decide)
  ⟨h.1, h.2.1, h.2.2.1, h.2.2.2.1⟩

/-- C12 fails on the code for an empty inner sequence that is not leading.  With
the outer container `[1, 0]` and a transform returning `from(&[7])` for `1` and
an empty container for `0`, the claim gives `[7]`; the code yields `7`, and the
advance then loads the empty inner sequence without skipping it: the cursor is
not at the end, `RetBegin == RetEnd` holds, and the next read `*RetBegin` is a
read through the end cursor of the empty container, so no traversal returns a
vector.  A leading empty inner sequence (outer `[0, 1]`) is skipped by the
constructor and the result is `[7]`. -/
theorem select_many_reads_ended_inner_cursor :
    (∀ fuel F, to_vector fuel (select_many_range F (from_ [1, 0]) (fun x : Nat => (from_ (if x = 1 then [7] else ([] : List Nat)), ()))) () = none) ∧
      (∃ b e it1,
        (select_many_range 2 (from_ [1, 0]) (fun x : Nat => (from_ (if x = 1 then [7] else ([] : List Nat)), ()))).begin () = some (b, ()) ∧
        (select_many_range 2 (from_ [1, 0]) (fun x : Nat => (from_ (if x = 1 then [7] else ([] : List Nat)), ()))).end_ () = some (e, ()) ∧
        ((select_many_range 2 (from_ [1, 0]) (fun x : Nat => (from_ (if x = 1 then [7] else ([] : List Nat)), ()))).deref b).map Prod.fst = some 7 ∧
        (select_many_range 2 (from_ [1, 0]) (fun x : Nat => (from_ (if x = 1 then [7] else ([] : List Nat)), ()))).inc b = some it1 ∧
        (select_many_range 2 (from_ [1, 0]) (fun x : Nat => (from_ (if x = 1 then [7] else ([] : List Nat)), ()))).ne it1 e = true ∧
        it1.ret_eq = some true ∧
        ((select_many_range 2 (from_ [1, 0]) (fun x : Nat => (from_ (if x = 1 then [7] else ([] : List Nat)), ()))).deref it1).isNone = true) ∧
      to_vector 3 (select_many_range 3 (from_ [0, 1]) (fun x : Nat => (from_ (if x = 1 then [7] else ([] : List Nat)), ()))) () = some [7] := by
  refine ⟨?_, ⟨_, _, _, rfl, rfl, rfl, rfl, rfl, rfl, rfl⟩, by decide⟩
  intro fuel F
  cases F with
  | zero => rfl
  | succ F1 =>
    cases fuel with
    | zero => rfl
    | succ n =>
      cases n with
      | zero => rfl
      | succ m => rfl

theorem fold_break_min_body {T : Type} [LinearOrder T] :
    ∀ (l : List T) (m : T),
      (fold_break (fun (s : Bool × T) p =>
          if s.1 then ((false, p), false)
          else if p < s.2 then ((false, p), false) else (s, false)) (false, m) l).2 ∈ m :: l ∧
      ∀ x, x ∈ m :: l →
        ¬ x < (fold_break (fun (s : Bool × T) p =>
          if s.1 then ((false, p), false)
          else if p < s.2 then ((false, p), false) else (s, false)) (false, m) l).2 := by
  intro l
  induction l with
  | nil =>
    intro m
    simp [fold_break]
  | cons a l ih =>
    intro m
    by_cases h : a < m
    · obtain ⟨h1, h2⟩ := ih a
      simp only [fold_break, Bool.false_eq_true, if_false, h, if_true]
      refine ⟨?_, ?_⟩
      · rcases List.mem_cons.mp h1 with h3 | h3
        · rw [h3]; simp
        · exact List.mem_cons_of_mem _ (List.mem_cons_of_mem _ h3)
      · intro x hx
        rcases List.mem_cons.mp hx with h3 | h3
        · rw [h3]
          exact fun hlt => h2 a (List.mem_cons_self _ _) (lt_trans h hlt)
        · exact h2 x h3
    · obtain ⟨h1, h2⟩ := ih m
      simp only [fold_break, Bool.false_eq_true, if_false, h]
      refine ⟨?_, ?_⟩
      · rcases List.mem_cons.mp h1 with h3 | h3
        · rw [h3]; simp
        · exact List.mem_cons_of_mem _ (List.mem_cons_of_mem _ h3)
      · intro x hx
        rcases List.mem_cons.mp hx with h3 | h3
        · rw [h3]
          exact h2 m (List.mem_cons_self _ _)
        · rcases List.mem_cons.mp h3 with h4 | h4
          · rw [h4]
            exact fun hlt => h2 m (List.mem_cons_self _ _) (lt_of_le_of_lt (not_lt.mp h) hlt)
          · exact h2 x (List.mem_cons_of_mem _ h4)

theorem fold_break_max_body {T : Type} [LinearOrder T] :
    ∀ (l : List T) (m : T),
      (fold_break (fun (s : Bool × T) p =>
          if s.1 then ((false, p), false)
          else if s.2 < p then ((false, p), false) else (s, false)) (false, m) l).2 ∈ m :: l ∧
      ∀ x, x ∈ m :: l →
        ¬ (fold_break (fun (s : Bool × T) p =>
          if s.1 then ((false, p), false)
          else if s.2 < p then ((false, p), false) else (s, false)) (false, m) l).2 < x := by
  intro l
  induction l with
  | nil =>
    intro m
    simp [fold_break]
  | cons a l ih =>
    intro m
    by_cases h : m < a
    · obtain ⟨h1, h2⟩ := ih a
      simp only [fold_break, Bool.false_eq_true, if_false, h, if_true]
      refine ⟨?_, ?_⟩
      · rcases List.mem_cons.mp h1 with h3 | h3
        · rw [h3]; simp
        · exact List.mem_cons_of_mem _ (List.mem_cons_of_mem _ h3)
      · intro x hx
        rcases List.mem_cons.mp hx with h3 | h3
        · rw [h3]
          exact fun hlt => h2 a (List.mem_cons_self _ _) (lt_trans hlt h)
        · exact h2 x h3
    · obtain ⟨h1, h2⟩ := ih m
      simp only [fold_break, Bool.false_eq_true, if_false, h]
      refine ⟨?_, ?_⟩
      · rcases List.mem_cons.mp h1 with h3 | h3
        · rw [h3]; simp
        · exact List.mem_cons_of_mem _ (List.mem_cons_of_mem _ h3)
      · intro x hx
        rcases List.mem_cons.mp hx with h3 | h3
        · rw [h3]
          exact h2 m (List.mem_cons_self _ _)
        · rcases List.mem_cons.mp h3 with h4 | h4
          · rw [h4]
            exact fun hlt => h2 m (List.mem_cons_self _ _) (lt_of_lt_of_le hlt (not_lt.mp h))
          · exact h2 x (List.mem_cons_of_mem _ h4)

/-- C21: for every non-empty container `c` over a linearly ordered element type,
`from(&c).min()` returns an element of `c` such that no element of `c` is less
than it, and `from(&c).max()` returns an element of `c` that is not less than
any element of `c`. -/
theorem min_max_of_nonempty {T : Type} [Zero T] [LinearOrder T] (c : List T) (fuel : Nat)
    (hc : c ≠ []) (hfuel : c.length < fuel) :
    (∃ m, base_range.min fuel (from_ c) () = some m ∧ m ∈ c ∧ ∀ x, x ∈ c → ¬ x < m) ∧
      (∃ M, base_range.max fuel (from_ c) () = some M ∧ M ∈ c ∧ ∀ x, x ∈ c → ¬ M < x) := by
  cases c with
  | nil => exact absurd rfl hc
  | cons y l =>
    constructor
    · obtain ⟨h1, h2⟩ := fold_break_min_body l y
      refine ⟨_, ?_, h1, h2⟩
      rw [base_range.min, range_for_of_models (from_ (y :: l)) () (y :: l) fuel _ _
        (from_container_range_models (y :: l)) hfuel]
      simp only [fold_break, if_true, Option.map_some']
    · obtain ⟨h1, h2⟩ := fold_break_max_body l y
      refine ⟨_, ?_, h1, h2⟩
      rw [base_range.max, range_for_of_models (from_ (y :: l)) () (y :: l) fuel _ _
        (from_container_range_models (y :: l)) hfuel]
      simp only [fold_break, if_true, Option.map_some']

theorem min_max_of_nonempty_witness :
    (∃ m, base_range.min 5 (from_ [3, -1, 4, 1]) () = some m ∧ m ∈ [3, -1, 4, 1] ∧
        ∀ x, x ∈ [3, -1, 4, 1] → ¬ x < m) ∧
      (∃ M, base_range.max 5 (from_ [3, -1, 4, 1]) () = some M ∧ M ∈ [3, -1, 4, 1] ∧
        ∀ x, x ∈ [3, -1, 4, 1] → ¬ M < x) :=
  min_max_of_nonempty ([3, -1, 4, 1] : List Int) 5 (by decide) (by decide)

/-- C22: for every container `c` and accumulator function `f`,
`from(&c).aggregate(f)` is the left fold of `f` over the elements after the
first, seeded with the first element (so `f` is only applied to running values
and elements of `c`); for a one-element container it is that element and for
an empty one it is the element type's zero value. -/
theorem aggregate_eq_foldl {T : Type} [Zero T] (c : List T) (f : T → T → T) (fuel : Nat)
    (hfuel : c.length < fuel) :
    (∀ x rest, c = x :: rest →
        base_range.aggregate fuel (from_ c) () f = some (rest.foldl f x)) ∧
      (∀ x, c = [x] → base_range.aggregate fuel (from_ c) () f = some x) ∧
      (c = [] → base_range.aggregate fuel (from_ c) () f = some 0) := by
  have ha := base_range_aggregate_of_models (from_ c) () c fuel f
    (from_container_range_models c) hfuel
  refine ⟨?_, ?_, ?_⟩
  · intro x rest hc
    subst hc
    exact ha
  · intro x hc
    subst hc
    exact ha
  · intro hc
    subst hc
    exact ha

theorem aggregate_eq_foldl_witness :
    (∀ x rest, [2, 3, 4] = x :: rest →
        base_range.aggregate 4 (from_ [2, 3, 4]) () (fun a b : Nat => 10 * a + b)
          = some (rest.foldl (fun a b : Nat => 10 * a + b) x)) ∧
      (∀ x, [2, 3, 4] = [x] →
        base_range.aggregate 4 (from_ [2, 3, 4]) () (fun a b : Nat => 10 * a + b) = some x) ∧
      ([2, 3, 4] = [] →
        base_range.aggregate 4 (from_ [2, 3, 4]) () (fun a b : Nat => 10 * a + b) = some 0) :=
  aggregate_eq_foldl [2, 3, 4] (fun a b : Nat => 10 * a + b) 4 (by decide)

theorem fold_break_first_if {α : Type} (P : α → Bool) (d : α) :
    ∀ (pre : List α),
      ((∀ y, y ∈ pre → P y = false) →
        fold_break (fun s p => if P p then (p, true) else (s, false)) d pre = d) ∧
      (∀ x post, (∀ y, y ∈ pre → P y = false) → P x = true →
        fold_break (fun s p => if P p then (p, true) else (s, false)) d (pre ++ x :: post)
          = x) := by
  intro pre
  induction pre with
  | nil =>
    refine ⟨fun _ => rfl, ?_⟩
    intro x post _ hx
    simp [fold_break, hx]
  | cons a pre ih =>
    refine ⟨?_, ?_⟩
    · intro h
      have ha : P a = false := h a (List.mem_cons_self _ _)
      simp only [fold_break, ha, Bool.false_eq_true, if_false]
      exact ih.1 (fun y hy => h y (List.mem_cons_of_mem _ hy))
    · intro x post h hx
      have ha : P a = false := h a (List.mem_cons_self _ _)
      simp only [List.cons_append, fold_break, ha, Bool.false_eq_true, if_false]
      exact ih.2 x post (fun y hy => h y (List.mem_cons_of_mem _ hy)) hx

theorem fold_break_last_if_none {α : Type} (P : α → Bool) :
    ∀ (l : List α) (s : α), (∀ y, y ∈ l → P y = false) →
      fold_break (fun s p => if P p then (p, false) else (s, false)) s l = s := by
  intro l
  induction l with
  | nil => intro s _; rfl
  | cons a l ih =>
    intro s h
    have ha : P a = false := h a (List.mem_cons_self _ _)
    simp only [fold_break, ha, Bool.false_eq_true, if_false]
    exact ih s (fun y hy => h y (List.mem_cons_of_mem _ hy))

theorem fold_break_last_if {α : Type} (P : α → Bool) (x : α) (post : List α)
    (hx : P x = true) (hpost : ∀ y, y ∈ post → P y = false) :
    ∀ (pre : List α) (s : α),
      fold_break (fun s p => if P p then (p, false) else (s, false)) s (pre ++ x :: post)
        = x := by
  intro pre
  induction pre with
  | nil =>
    intro s
    simp only [List.nil_append, fold_break, hx, if_true]
    exact fold_break_last_if_none P post x hpost
  | cons a pre ih =>
    intro s
    by_cases ha : P a = true
    · simp only [List.cons_append, fold_break, ha, if_true]
      exact ih a
    · have ha1 : P a = false := by simpa using ha
      simp only [List.cons_append, fold_break, ha1, Bool.false_eq_true, if_false]
      exact ih s

theorem fold_break_last {α : Type} :
    ∀ (l : List α) (s : α),
      fold_break (fun (_ : α) p => (p, false)) s l = l.getLast?.getD s := by
  intro l
  induction l with
  | nil => intro s; rfl
  | cons a l ih =>
    intro s
    simp only [fold_break]
    rw [ih a, List.getLast?_cons]
    rfl

theorem exists_first_satisfying {α : Type} (P : α → Bool) :
    ∀ (c : List α), (∃ y, y ∈ c ∧ P y = true) →
      ∃ pre x post, c = pre ++ x :: post ∧ (∀ z, z ∈ pre → P z = false) ∧ P x = true := by
  intro c
  induction c with
  | nil => rintro ⟨y, hy, _⟩; simp at hy
  | cons a l ih =>
    rintro ⟨y, hy, hPy⟩
    by_cases ha : P a = true
    · exact ⟨[], a, l, rfl, by simp, ha⟩
    · have ha1 : P a = false := by simpa using ha
      rcases List.mem_cons.mp hy with h1 | h1
      · rw [h1, ha1] at hPy
        exact absurd hPy (by simp)
      · obtain ⟨pre, x, post, h2, h3, h4⟩ := ih ⟨y, h1, hPy⟩
        refine ⟨a :: pre, x, post, by simp [h2], ?_, h4⟩
        intro z hz
        rcases List.mem_cons.mp hz with h5 | h5
        · rw [h5]; exact ha1
        · exact h3 z h5

theorem exists_last_satisfying {α : Type} (P : α → Bool) :
    ∀ (c : List α), (∃ y, y ∈ c ∧ P y = true) →
      ∃ pre x post, c = pre ++ x :: post ∧ P x = true ∧ (∀ z, z ∈ post → P z = false) := by
  intro c
  induction c with
  | nil => rintro ⟨y, hy, _⟩; simp at hy
  | cons a l ih =>
    rintro ⟨y, hy, hPy⟩
    by_cases hl : ∃ z, z ∈ l ∧ P z = true
    · obtain ⟨pre, x, post, h2, h3, h4⟩ := ih hl
      exact ⟨a :: pre, x, post, by simp [h2], h3, h4⟩
    · have hl1 : ∀ z, z ∈ l → P z = false := by
        intro z hz
        by_contra hcon
        exact hl ⟨z, hz, by simpa using hcon⟩
      rcases List.mem_cons.mp hy with h1 | h1
      · exact ⟨[], a, l, rfl, h1 ▸ hPy, hl1⟩
      · rw [hl1 y h1] at hPy
        exact absurd hPy (by simp)

/-- C23: for every container `c`, predicate `P` and default `d`:
`first(P, d)` returns the earliest element of `c` satisfying `P` (the one with
no satisfying element before it) and `last(P, d)` the latest one (no
satisfying element after it); when no element satisfies `P`, in particular for
an empty `c`, both return `d`, and that is the only case in which the default
is what is returned; the predicate-free `first(d)` and `last(d)` return the
first and the last element of `c`, or `d` when `c` is empty. -/
theorem first_last_spec {α : Type} (c : List α) (P : α → Bool) (d : α) (fuel : Nat)
    (hfuel : c.length < fuel) :
    (∀ pre x post, c = pre ++ x :: post → (∀ y, y ∈ pre → P y = false) → P x = true →
        base_range.first_if fuel (from_ c) () P d = some x) ∧
      (∀ pre x post, c = pre ++ x :: post → P x = true → (∀ y, y ∈ post → P y = false) →
        base_range.last_if fuel (from_ c) () P d = some x) ∧
      ((∀ y, y ∈ c → P y = false) →
        base_range.first_if fuel (from_ c) () P d = some d ∧
        base_range.last_if fuel (from_ c) () P d = some d) ∧
      ((∃ y, y ∈ c ∧ P y = true) →
        ∃ x1 x2, x1 ∈ c ∧ P x1 = true ∧ x2 ∈ c ∧ P x2 = true ∧
          base_range.first_if fuel (from_ c) () P d = some x1 ∧
          base_range.last_if fuel (from_ c) () P d = some x2) ∧
      base_range.first fuel (from_ c) () d = some (c.head?.getD d) ∧
      base_range.last fuel (from_ c) () d = some (c.getLast?.getD d) := by
  have hm := from_container_range_models c
  have hfirst : ∀ pre x post, c = pre ++ x :: post → (∀ y, y ∈ pre → P y = false) →
      P x = true → base_range.first_if fuel (from_ c) () P d = some x := by
    intro pre x post hc hpre hx
    rw [base_range.first_if, range_for_of_models (from_ c) () c fuel _ _ hm hfuel, hc]
    exact congrArg some ((fold_break_first_if P d pre).2 x post hpre hx)
  have hlast : ∀ pre x post, c = pre ++ x :: post → P x = true →
      (∀ y, y ∈ post → P y = false) →
      base_range.last_if fuel (from_ c) () P d = some x := by
    intro pre x post hc hx hpost
    rw [base_range.last_if, range_for_of_models (from_ c) () c fuel _ _ hm hfuel, hc]
    exact congrArg some (fold_break_last_if P x post hx hpost pre d)
  refine ⟨hfirst, hlast, ?_, ?_, ?_, ?_⟩
  · intro h
    constructor
    · rw [base_range.first_if, range_for_of_models (from_ c) () c fuel _ _ hm hfuel]
      exact congrArg some ((fold_break_first_if P d c).1 h)
    · rw [base_range.last_if, range_for_of_models (from_ c) () c fuel _ _ hm hfuel]
      exact congrArg some (fold_break_last_if_none P c d h)
  · rintro ⟨y, hy, hPy⟩
    have hex := exists_first_satisfying P c ⟨y, hy, hPy⟩
    have hex2 := exists_last_satisfying P c ⟨y, hy, hPy⟩
    obtain ⟨pre1, x1, post1, hc1, hpre1, hx1⟩ := hex
    obtain ⟨pre2, x2, post2, hc2, hx2, hpost2⟩ := hex2
    refine ⟨x1, x2, ?_, hx1, ?_, hx2, hfirst pre1 x1 post1 hc1 hpre1 hx1,
      hlast pre2 x2 post2 hc2 hx2 hpost2⟩
    · rw [hc1]; simp
    · rw [hc2]; simp
  · rw [base_range.first, range_for_of_models (from_ c) () c fuel _ _ hm hfuel]
    cases c with
    | nil => rfl
    | cons a l => rfl
  · rw [base_range.last, range_for_of_models (from_ c) () c fuel _ _ hm hfuel,
      fold_break_last]

theorem first_last_spec_witness :
    base_range.first_if 6 (from_ [1, 4, 6, 3, 8]) () (fun n : Nat => n % 2 == 0) 0 = some 4 ∧
      base_range.last_if 6 (from_ [1, 4, 6, 3, 8]) () (fun n : Nat => n % 2 == 0) 0 = some 8 :=
  have h := first_last_spec [1, 4, 6, 3, 8] (fun n : Nat => n % 2 == 0) 0 6 (by decide)
  ⟨h.1 [1] 4 [6, 3, 8] rfl (by decide) rfl, h.2.1 [1, 4, 6, 3] 8 [] rfl rfl (by decide)⟩

theorem fold_break_any {α : Type} (P : α → Bool) :
    ∀ (l : List α) (s : Bool),
      fold_break (fun s p => if P p then (true, true) else (s, false)) s l
        = if l.any P then true else s := by
  intro l
  induction l with
  | nil => intro s; rfl
  | cons a l ih =>
    intro s
    by_cases ha : P a = true
    · simp [fold_break, ha]
    · have ha1 : P a = false := by simpa using ha
      simp only [fold_break, ha1, Bool.false_eq_true, if_false, List.any_cons, Bool.false_or]
      exact ih s

theorem fold_break_all {α : Type} (P : α → Bool) :
    ∀ (l : List α) (s : Bool),
      fold_break (fun s p => if !P p then (false, true) else (s, false)) s l
        = if l.all P then s else false := by
  intro l
  induction l with
  | nil => intro s; rfl
  | cons a l ih =>
    intro s
    by_cases ha : P a = true
    · simp only [fold_break, ha, Bool.not_true, Bool.false_eq_true, if_false, List.all_cons,
        Bool.true_and]
      exact ih s
    · have ha1 : P a = false := by simpa using ha
      simp [fold_break, ha1]

theorem base_range_any_of_models {ρ σ α : Type} (R : Range ρ σ α) (r : ρ) (l : List α)
    (fuel : Nat) (P : α → Bool) (h : Models R r l) (hf : l.length < fuel) :
    base_range.any fuel R r P = some (l.any P) := by
  rw [base_range.any, range_for_of_models R r l fuel _ _ h hf, fold_break_any]
  cases l.any P <;> rfl

theorem base_range_all_of_models {ρ σ α : Type} (R : Range ρ σ α) (r : ρ) (l : List α)
    (fuel : Nat) (P : α → Bool) (h : Models R r l) (hf : l.length < fuel) :
    base_range.all fuel R r P = some (l.all P) := by
  rw [base_range.all, range_for_of_models R r l fuel _ _ h hf, fold_break_all]
  cases l.all P <;> rfl

/-- C24: for every container `c` and predicate `P`, `any(P)` is true iff some
element of `c` satisfies `P` and `all(P)` is true iff every element of `c`
satisfies `P`; so on the empty container `any(P)` is false and `all(P)` is
true, and `all(P)` is the negation of `any(not P)`. -/
theorem any_all_spec {α : Type} (c : List α) (P : α → Bool) (fuel : Nat)
    (hfuel : c.length < fuel) :
    ∃ a b, base_range.any fuel (from_ c) () P = some a ∧
      base_range.all fuel (from_ c) () P = some b ∧
      (a = true ↔ ∃ x, x ∈ c ∧ P x = true) ∧
      (b = true ↔ ∀ x, x ∈ c → P x = true) ∧
      (c = [] → a = false ∧ b = true) ∧
      base_range.any fuel (from_ c) () (fun x => !P x) = some (!b) := by
  have hm := from_container_range_models c
  refine ⟨c.any P, c.all P, base_range_any_of_models (from_ c) () c fuel P hm hfuel,
    base_range_all_of_models (from_ c) () c fuel P hm hfuel, List.any_eq_true,
    List.all_eq_true, ?_, ?_⟩
  · intro hc
    subst hc
    exact ⟨rfl, rfl⟩
  · rw [base_range_any_of_models (from_ c) () c fuel _ hm hfuel]
    congr 1
    clear hm hfuel
    induction c with
    | nil => rfl
    | cons x l ih =>
      simp only [List.any_cons, List.all_cons, Bool.not_and]
      rw [ih]

theorem any_all_spec_witness :
    ∃ a b, base_range.any 4 (from_ [1, 4, 6]) () (fun n : Nat => n % 2 == 0) = some a ∧
      base_range.all 4 (from_ [1, 4, 6]) () (fun n : Nat => n % 2 == 0) = some b ∧
      (a = true ↔ ∃ x, x ∈ [1, 4, 6] ∧ (x % 2 == 0) = true) ∧
      (b = true ↔ ∀ x, x ∈ [1, 4, 6] → (x % 2 == 0) = true) ∧
      ([1, 4, 6] = [] → a = false ∧ b = true) ∧
      base_range.any 4 (from_ [1, 4, 6]) () (fun x => !(x % 2 == 0)) = some (!b) :=
  any_all_spec [1, 4, 6] (fun n : Nat => n % 2 == 0) 4 (by decide)

theorem fold_break_count {α : Type} :
    ∀ (l : List α) (n : Nat), n + l.length < SIZE_MOD →
      fold_break (fun (ret : Nat) (_ : α) => ((ret + 1) % SIZE_MOD, false)) n l
        = n + l.length := by
  intro l
  induction l with
  | nil => intro n _; rfl
  | cons a l ih =>
    intro n hn
    simp only [List.length_cons] at hn
    simp only [fold_break]
    rw [Nat.mod_eq_of_lt (by omega), ih (n + 1) (by omega)]
    simp only [List.length_cons]
    omega

theorem fold_break_count_if {α : Type} (P : α → Bool) :
    ∀ (l : List α) (n : Nat), n + l.length < SIZE_MOD →
      fold_break (fun (ret : Nat) (p : α) =>
          if P p then ((ret + 1) % SIZE_MOD, false) else (ret, false)) n l
        = n + l.countP P := by
  intro l
  induction l with
  | nil => intro n _; rfl
  | cons a l ih =>
    intro n hn
    simp only [List.length_cons] at hn
    by_cases ha : P a = true
    · simp only [fold_break, ha, if_true]
      rw [Nat.mod_eq_of_lt (by omega), ih (n + 1) (by omega), List.countP_cons_of_pos _ _ ha]
      omega
    · have ha1 : P a = false := by simpa using ha
      simp only [fold_break, ha1, Bool.false_eq_true, if_false]
      rw [ih n (by omega), List.countP_cons_of_neg _ _ ha]

theorem base_range_count_of_models {ρ σ α : Type} (R : Range ρ σ α) (r : ρ) (l : List α)
    (fuel : Nat) (h : Models R r l) (hf : l.length < fuel) (hl : l.length < SIZE_MOD) :
    base_range.count fuel R r = some l.length := by
  rw [base_range.count, range_for_of_models R r l fuel _ _ h hf,
    fold_break_count l 0 (by omega)]
  simp

/-- C25: for every container `c` (with fewer than `SIZE_MOD` elements) and
predicate `P`, `count()` is the length of `to_vector()`, and `count(P)` is the
number of elements of `c` satisfying `P`, which is also `where(P).count()`. -/
theorem count_spec {α : Type} (c : List α) (P : α → Bool) (fuel F : Nat)
    (hfuel : c.length < fuel) (hF : c.length < F) (hc : c.length < SIZE_MOD) :
    (∃ v, to_vector fuel (from_ c) () = some v ∧
        base_range.count fuel (from_ c) () = some v.length) ∧
      base_range.count_if fuel (from_ c) () P = some (c.countP P) ∧
      base_range.count fuel (where_range F (from_ c) P) () = some (c.countP P) := by
  have hm := from_container_range_models c
  refine ⟨⟨c, to_vector_of_models _ _ _ fuel hm hfuel,
    base_range_count_of_models _ () c fuel hm hfuel hc⟩, ?_, ?_⟩
  · rw [base_range.count_if, range_for_of_models (from_ c) () c fuel _ _ hm hfuel,
      fold_break_count_if P c 0 (by omega)]
    simp
  · have hw := where_range_models (from_ c) P () c F hm hF
    have hlen : (c.filter P).length ≤ c.length := List.length_filter_le _ _
    rw [base_range_count_of_models _ () (c.filter P) fuel hw (by omega) (by omega),
      List.countP_eq_length_filter]

theorem count_spec_witness :
    (∃ v, to_vector 5 (from_ [1, 4, 6, 3]) () = some v ∧
        base_range.count 5 (from_ [1, 4, 6, 3]) () = some v.length) ∧
      base_range.count_if 5 (from_ [1, 4, 6, 3]) () (fun n : Nat => n % 2 == 0)
        = some ([1, 4, 6, 3].countP (fun n : Nat => n % 2 == 0)) ∧
      base_range.count 5 (where_range 5 (from_ [1, 4, 6, 3]) (fun n : Nat => n % 2 == 0)) ()
        = some ([1, 4, 6, 3].countP (fun n : Nat => n % 2 == 0)) :=
  count_spec [1, 4, 6, 3] (fun n : Nat => n % 2 == 0) 5 5 (by decide) (by decide) (by decide)

theorem fold_break_element_at {α : Type} (index : Nat) (hidx : index < SIZE_MOD) :
    ∀ (l : List α) (i : Nat) (d : α), i ≤ index →
      (fold_break (fun (s : Nat × α) p =>
          if s.1 ≥ index then ((s.1, p), true) else (((s.1 + 1) % SIZE_MOD, s.2), false))
        (i, d) l).2 = (l.get? (index - i)).getD d := by
  intro l
  induction l with
  | nil => intro i d _; rfl
  | cons a l ih =>
    intro i d hi
    by_cases h : i ≥ index
    · have hii : index - i = 0 := by omega
      simp [fold_break, h, hii]
    · have h1 : (i + 1) % SIZE_MOD = i + 1 := Nat.mod_eq_of_lt (by omega)
      have h2 : index - i = (index - (i + 1)) + 1 := by omega
      simp only [fold_break, h, if_false, h1]
      rw [ih (i + 1) d (by omega), h2]
      rfl

/-- C26: for every container `c`, index `i` (a `size_t`) and default `d`,
`element_at(i, d)` returns the `i`-th element of `c` (zero-based) when `i < |c|`
and returns `d` when `i >= |c|`. -/
theorem element_at_spec {α : Type} (c : List α) (i : Nat) (d : α) (fuel : Nat)
    (hfuel : c.length < fuel) (hi : i < SIZE_MOD) :
    (∀ h : i < c.length, base_range.element_at fuel (from_ c) () i d = some (c.get ⟨i, h⟩)) ∧
      (c.length ≤ i → base_range.element_at fuel (from_ c) () i d = some d) := by
  have hres : base_range.element_at fuel (from_ c) () i d = some ((c.get? i).getD d) := by
    rw [base_range.element_at, range_for_of_models (from_ c) () c fuel _ _
      (from_container_range_models c) hfuel]
    simp only [Option.map_some']
    rw [fold_break_element_at i hi c 0 d (by omega)]
    simp
  constructor
  · intro h
    rw [hres, List.get?_eq_get h]
    rfl
  · intro h
    rw [hres, List.get?_eq_none.mpr h]
    rfl

theorem element_at_spec_witness :
    (∀ h : 2 < [10, 20, 30].length,
        base_range.element_at 4 (from_ [10, 20, 30]) () 2 0 = some ([10, 20, 30].get ⟨2, h⟩)) ∧
      ([10, 20, 30].length ≤ 2 →
        base_range.element_at 4 (from_ [10, 20, 30]) () 2 0 = some 0) :=
  element_at_spec [10, 20, 30] 2 0 4 (by decide) (by decide)

/-- C27 as stated is refuted: not every built-in integer element type is mapped
to a `double` result computed by real division; `char` is mapped to `char` and
its average is an integer division. -/
theorem avg_calculator_char_not_promoted :
    ¬ ∀ t : builtin_type, t.is_integral = true →
      avg_calculator.output_t t = builtin_type.double_ ∧
        avg_calculator.real_division t = true := by
  intro h
  have h1 := (h builtin_type.char_ rfl).1
  exact absurd h1 (by decide)

/-- C27 amended: the promotion rule table maps `short`, `int`, `long`,
`long long` and their unsigned forms to a `double` result computed by real
division and maps every built-in floating type to itself, with a real
division; every other built-in integer type (`bool`, `char`, `signed char`,
`unsigned char`, `wchar_t`, `char16_t`, `char32_t`) is not in the table, uses
the primary template, and is mapped to itself with an integer division. -/
theorem avg_calculator_promotion_table (t : builtin_type) :
    (t ∈ [builtin_type.short_, builtin_type.int_, builtin_type.long_, builtin_type.long_long,
        builtin_type.unsigned_short, builtin_type.unsigned_int, builtin_type.unsigned_long,
        builtin_type.unsigned_long_long] →
      avg_calculator.output_t t = builtin_type.double_ ∧
        avg_calculator.real_division t = true) ∧
    (t.is_floating_point = true →
      avg_calculator.output_t t = t ∧ avg_calculator.real_division t = true) ∧
    (t ∈ [builtin_type.bool_, builtin_type.char_, builtin_type.signed_char,
        builtin_type.unsigned_char, builtin_type.wchar_t, builtin_type.char16_t,
        builtin_type.char32_t] →
      t.is_integral = true ∧ avg_calculator.output_t t = t ∧
        avg_calculator.real_division t = false) := by
  cases t <;> decide

theorem avg_calculator_promotion_table_witness :
    (builtin_type.int_ ∈ [builtin_type.short_, builtin_type.int_, builtin_type.long_,
        builtin_type.long_long, builtin_type.unsigned_short, builtin_type.unsigned_int,
        builtin_type.unsigned_long, builtin_type.unsigned_long_long] →
      avg_calculator.output_t builtin_type.int_ = builtin_type.double_ ∧
        avg_calculator.real_division builtin_type.int_ = true) ∧
    (builtin_type.int_.is_floating_point = true →
      avg_calculator.output_t builtin_type.int_ = builtin_type.int_ ∧
        avg_calculator.real_division builtin_type.int_ = true) ∧
    (builtin_type.int_ ∈ [builtin_type.bool_, builtin_type.char_, builtin_type.signed_char,
        builtin_type.unsigned_char, builtin_type.wchar_t, builtin_type.char16_t,
        builtin_type.char32_t] →
      builtin_type.int_.is_integral = true ∧
        avg_calculator.output_t builtin_type.int_ = builtin_type.int_ ∧
        avg_calculator.real_division builtin_type.int_ = false) :=
  avg_calculator_promotion_table builtin_type.int_

/-- Over a numeric progression the buffering loop of `reverse_range::begin` never
reads a cursor, so the `Value` it compares stays what it was: from a cursor whose
`Value` differs from the end cursor's the loop does not end, whatever the fuel. -/
theorem reverse_begin_loop_from_to_none (start end_ step : Int)
    (e : from_to_range.iterator Int) :
    ∀ (fuel : Nat) (it : from_to_range.iterator Int) (buf : List (from_to_range.iterator Int)),
      it.Value ≠ e.Value →
      reverse_range.begin.loop (from_to start end_ step) e fuel it buf = none := by
  intro fuel
  induction fuel with
  | zero => intro it buf _; rfl
  | succ f ih =>
    intro it buf h
    have hne : (from_to start end_ step).ne it e = true := by
      simp [from_to, h]
    have hinc : (from_to start end_ step).inc it = some { it with Index := it.Index + 1 } := rfl
    rw [reverse_range.begin.loop, hne, if_pos rfl, hinc]
    exact ih _ _ h

/-- Over a numeric progression the constructor loop of `skip_range::iterator`
never reads a cursor: from a cursor whose `Value` differs from the end cursor's
it advances `Index` by the whole count, however long the progression is. -/
theorem skip_range_mk_from_to (start end_ step : Int) (e : from_to_range.iterator Int) :
    ∀ (n fuel : Nat) (it : from_to_range.iterator Int),
      it.Value ≠ e.Value → n < fuel → n < SIZE_MOD →
      skip_range.iterator.mk_ (from_to start end_ step) e fuel it n
        = some ⟨{ it with Index := it.Index + (n : Int) }⟩ := by
  intro n
  induction n with
  | zero =>
    intro fuel it h hf _
    obtain ⟨f, rfl⟩ : ∃ f, fuel = f + 1 := ⟨fuel - 1, by omega⟩
    simp [skip_range.iterator.mk_]
  | succ n ih =>
    intro fuel it h hf hn
    obtain ⟨f, rfl⟩ : ∃ f, fuel = f + 1 := ⟨fuel - 1, by omega⟩
    have hne : (from_to start end_ step).ne it e = true := by
      simp [from_to, h]
    have hinc : (from_to start end_ step).inc it = some { it with Index := it.Index + 1 } := rfl
    have hcnt : (n + 1 + SIZE_MOD - 1) % SIZE_MOD = n := by
      rw [show n + 1 + SIZE_MOD - 1 = n + SIZE_MOD by omega, Nat.add_mod_right]
      exact Nat.mod_eq_of_lt (by omega)
    rw [skip_range.iterator.mk_, hne, hinc, hcnt]
    simp only [gt_iff_lt, Nat.zero_lt_succ, decide_True, Bool.and_self, if_true]
    rw [ih f { it with Index := it.Index + 1 } h (by omega) (by omega)]
    have hidx : it.Index + 1 + (n : Int) = it.Index + ((n + 1 : Nat) : Int) := by
      push_cast
      ring
    simp only [hidx]

/-- C28 fails on the code: with an always-true predicate,
`from_to(0, 10, 2).where(P).to_vector()` is `[0, 2, 4, 6, 8]`, while
`from_to(0, 10, 2).to_vector()` is `[0, 2, 4, 6, 8, 10]`: the final element is
lost, for every amount of fuel that lets the loops finish. -/
theorem where_from_to_drops_final_element : ∀ n m : Nat,
    to_vector (n + 7) (from_to (0 : Int) 10 2) () = some [0, 2, 4, 6, 8, 10] ∧
    to_vector (n + 7) (where_range (m + 1) (from_to (0 : Int) 10 2) (fun _ => true)) ()
      = some [0, 2, 4, 6, 8] := by
  intro n m
  constructor <;> rfl

/-- C29 fails on the code: for all integers `start`, `end_` and `step`,
`from_to(start, end_, step).reverse().to_vector()` produces a vector only when
`start = end_` (the empty one); when `start ≠ end_` the buffering loop of
`reverse_range::begin` does not complete, whatever the fuel. -/
theorem reverse_from_to_never_completes (start end_ step : Int) (fuel F : Nat)
    (cache : List (from_to_range.iterator Int)) :
    to_vector (fuel + 1) (reverse_range (F + 1) (from_to start end_ step)) ((), cache)
      = if start = end_ then some [] else none := by
  by_cases h : start = end_
  · subst h
    simp [to_vector, to_vector.run, reverse_range, from_to, reverse_range.begin.loop,
      from_to_range.iterator.mk_, to_vector.loop]
  · rw [if_neg h]
    have hl := reverse_begin_loop_from_to_none start end_ step
      (from_to_range.iterator.mk_ end_ 0 0) (F + 1)
      (from_to_range.iterator.mk_ start end_ (from_to_range.Step start end_ step)) []
      (by simpa [from_to_range.iterator.mk_] using h)
    have hb : (reverse_range (F + 1) (from_to start end_ step)).begin ((), cache) = none := by
      have h1 : (from_to start end_ step).begin () = some (from_to_range.iterator.mk_ start end_ (from_to_range.Step start end_ step), ()) := rfl
      have h2 : (from_to start end_ step).end_ () = some (from_to_range.iterator.mk_ end_ 0 0, ()) := rfl
      simp only [reverse_range, h1, h2, hl]
    simp [to_vector, to_vector.run, hb]

/-- C30 fails on the code: `from_to(0, 10, 2).skip(100).to_vector()` is `[10]`,
while `from_to(0, 10, 2).to_vector()` without its first 100 elements is `[]`. -/
theorem skip_from_to_past_end_yields_end : ∀ fuel F : Nat,
    (to_vector (fuel + 7) (from_to (0 : Int) 10 2) ()).map (List.drop 100) = some [] ∧
    to_vector (fuel + 2) (skip_range (F + 101) (from_to (0 : Int) 10 2) 100) () = some [10] := by
  intro fuel F
  constructor
  · rfl
  · have hb : (skip_range (F + 101) (from_to (0 : Int) 10 2) 100).begin ()
        = some (⟨⟨100, 0, 0, 10, 2⟩⟩, ()) := by
      show ((skip_range.iterator.mk_ (from_to (0 : Int) 10 2) (from_to_range.iterator.mk_ 10 0 0)
        (F + 101) (from_to_range.iterator.mk_ 0 10 (from_to_range.Step 0 10 2)) 100).map
          fun it => (it, ())) = _
      rw [skip_range_mk_from_to 0 10 2 _ 100 (F + 101) _ (by decide) (by omega) (by decide)]
      rfl
    have he : (skip_range (F + 101) (from_to (0 : Int) 10 2) 100).end_ ()
        = some (⟨⟨0, 10, 10, 0, 0⟩⟩, ()) := rfl
    simp only [to_vector, to_vector.run, hb, he]
    rfl

/-- C40: `take` and `skip` partition a sequence: for every container `c` and
count `n` (a `size_t`), `from(&c).take(n).to_vector()` followed by
`from(&c).skip(n).to_vector()` is `c`, and for every predicate `P`
`take_while(P).to_vector()` followed by `skip_while(P).to_vector()` is `c`. -/
theorem take_skip_partition {α : Type} (c : List α) (P : α → Bool) (n fuel F : Nat)
    (hn : n < SIZE_MOD) (hfuel : c.length < fuel) (hF : c.length < F) :
    (∃ a b, to_vector fuel (take_range (from_ c) n) () = some a ∧
        to_vector fuel (skip_range F (from_ c) n) () = some b ∧ a ++ b = c) ∧
      (∃ a b, to_vector fuel (take_while_range (from_ c) P) () = some a ∧
        to_vector fuel (skip_while_range F (from_ c) P) () = some b ∧ a ++ b = c) := by
  have hm := from_container_range_models c
  constructor
  · refine ⟨c.take n, c.drop n, ?_, ?_, List.take_append_drop n c⟩
    · exact to_vector_of_models _ _ _ fuel (take_range_models _ () c n hm hn)
        (lt_of_le_of_lt (List.take_sublist n c).length_le hfuel)
    · exact to_vector_of_models _ _ _ fuel (skip_range_models _ () c n F hm hn hF)
        (lt_of_le_of_lt (List.drop_sublist n c).length_le hfuel)
  · refine ⟨c.takeWhile P, c.dropWhile P, ?_, ?_, List.takeWhile_append_dropWhile P c⟩
    · exact to_vector_of_models _ _ _ fuel
        (take_while_range_models _ P () c hm (from_container_range_eq_self c))
        (lt_of_le_of_lt (List.takeWhile_sublist P).length_le hfuel)
    · exact to_vector_of_models _ _ _ fuel (skip_while_range_models _ P () c F hm hF)
        (lt_of_le_of_lt (List.dropWhile_sublist P).length_le hfuel)

theorem take_skip_partition_witness :
    (∃ a b, to_vector 5 (take_range (from_ [3, 1, 4, 1]) 3) () = some a ∧
        to_vector 5 (skip_range 5 (from_ [3, 1, 4, 1]) 3) () = some b ∧
        a ++ b = [3, 1, 4, 1]) ∧
      (∃ a b, to_vector 5 (take_while_range (from_ [3, 1, 4, 1]) (fun x => decide (x ≠ 4))) ()
          = some a ∧
        to_vector 5 (skip_while_range 5 (from_ [3, 1, 4, 1]) (fun x => decide (x ≠ 4))) ()
          = some b ∧ a ++ b = [3, 1, 4, 1]) :=
  take_skip_partition [3, 1, 4, 1] (fun x => decide (x ≠ 4)) 3 5 5 (by decide) (by decide)
    (by decide)

/-- For `T = unsigned int` and `start > end_`, the first read of the begin cursor
of `from_to(start, end_, step)` already returns `end_`: `Step < T()` is never true
for an unsigned type, so `operator*` takes the upward branch and clamps
`Value > Bound` to `Bound`; the vector is `[end_]`. -/
theorem from_to_unsigned_downward (start end_ step : unsigned_int)
    (hs : start.val < UINT_MOD) (hlt : end_ < start) (n : Nat) :
    to_vector (n + 2) (from_to start end_ step) () = some [end_] := by
  have hlt1 : end_.val < start.val := hlt
  have hz : ((0 : Int) : unsigned_int) = ⟨0⟩ := rfl
  have hmul : ∀ S : unsigned_int, S * (⟨0⟩ : unsigned_int) = ⟨0⟩ := by
    intro S
    show (⟨(S.val * 0) % UINT_MOD⟩ : unsigned_int) = ⟨0⟩
    simp
  have hadd : (⟨0⟩ : unsigned_int) + start = start := by
    show (⟨(0 + start.val) % UINT_MOD⟩ : unsigned_int) = start
    rw [Nat.zero_add, Nat.mod_eq_of_lt hs]
  have hnneg : ∀ S : unsigned_int, ¬ S < 0 := by
    intro S h
    exact Nat.not_lt_zero _ h
  have hne : start ≠ end_ := by
    intro h
    rw [h] at hlt1
    exact lt_irrefl _ hlt1
  simp [to_vector, to_vector.run, from_to, to_vector.loop, from_to_range.iterator.mk_,
    from_to_range.iterator.deref, hz, hmul, hadd, hnneg, hlt, hne]

/-- C34 fails on the code: `from_to<unsigned>(10, 0, 2).to_vector()` is `[0]`, not
`[10, 8, 6, 4, 2, 0]`, for every amount of fuel that lets the loop finish. -/
theorem from_to_unsigned_downward_yields_only_end :
    ∀ n : Nat, to_vector (n + 2) (from_to (⟨10⟩ : unsigned_int) ⟨0⟩ ⟨2⟩) ()
      = some [(⟨0⟩ : unsigned_int)] := by
  intro n
  exact from_to_unsigned_downward ⟨10⟩ ⟨0⟩ ⟨2⟩ (by decide) (by decide) n

theorem list_flatMap_singleton_length {α β : Type} (f : α → β) (l : List α) :
    (l.flatMap fun a => [f a]).length = l.length := by
  induction l with
  | nil => rfl
  | cons a l ih => simp [List.flatMap_cons, ih]

/-- With `step = 0` and `start < end_` every read of a cursor of
`from_to(start, end_, 0)` returns `start` and the traversal loop never ends. -/
theorem from_to_zero_step_loop_none (start end_ : Int) (hlt : start < end_) :
    ∀ (fuel : Nat) (n : Int) (vec : List Int),
      to_vector.loop (from_to start end_ 0) (from_to_range.iterator.mk_ end_ 0 0) fuel
        ⟨n, start, start, end_, 0⟩ vec = none := by
  intro fuel
  induction fuel with
  | zero => intro n vec; rfl
  | succ f ih =>
    intro n vec
    have hne : start ≠ end_ := ne_of_lt hlt
    have hle : ¬ end_ < start := not_lt.mpr (le_of_lt hlt)
    have hd : (from_to start end_ 0).deref ⟨n, start, start, end_, 0⟩
        = some (start, ⟨n, start, start, end_, 0⟩) := by
      simp [from_to, from_to_range.iterator.deref, hle]
    have hn : (from_to start end_ 0).ne ⟨n, start, start, end_, 0⟩
        (from_to_range.iterator.mk_ end_ 0 0) = true := by
      simp [from_to, from_to_range.iterator.mk_, hne]
    have hi : (from_to start end_ 0).inc ⟨n, start, start, end_, 0⟩
        = some ⟨n + 1, start, start, end_, 0⟩ := rfl
    rw [to_vector.loop, hn, if_pos rfl, hd]
    simp only [hi]
    exact ih (n + 1) (vec ++ [start])

/-- C35: a numeric progression whose start equals its end is empty: for every
value `s` and every `step`, `from_to(s, s, step).begin() == from_to(s, s, step).end()`
and `to_vector()` is `[]`; whereas for `start != end_` (and `step != 0`) the
vector ends with the bound `end_`. -/
theorem from_to_start_eq_end_empty (s step start end_ step1 : Int) (fuel fuel1 : Nat)
    (hse : start ≠ end_) (hstep : step1 ≠ 0)
    (hfuel1 : ((end_ - start).natAbs + step1.natAbs - 1) / step1.natAbs + 1 < fuel1) :
    (∃ b e, (from_to s s step).begin () = some (b, ()) ∧
        (from_to s s step).end_ () = some (e, ()) ∧
        (from_to s s step).eq b e = true ∧ (from_to s s step).ne b e = false) ∧
      to_vector (fuel + 1) (from_to s s step) () = some [] ∧
      ∃ out, to_vector fuel1 (from_to start end_ step1) () = some out ∧
        out.getLast? = some end_ := by
  refine ⟨⟨_, _, rfl, rfl, ?_, ?_⟩, ?_, _, from_to_to_vector_eq start end_ step1 fuel1 hse hstep hfuel1, ?_⟩
  · simp [from_to, from_to_range.iterator.mk_]
  · simp [from_to, from_to_range.iterator.mk_]
  · simp [to_vector, to_vector.run, from_to, from_to_range.iterator.mk_, to_vector.loop]
  · simp

theorem from_to_start_eq_end_empty_witness :
    (∃ b e, (from_to (5 : Int) 5 2).begin () = some (b, ()) ∧
        (from_to (5 : Int) 5 2).end_ () = some (e, ()) ∧
        (from_to (5 : Int) 5 2).eq b e = true ∧ (from_to (5 : Int) 5 2).ne b e = false) ∧
      to_vector (0 + 1) (from_to (5 : Int) 5 2) () = some [] ∧
      ∃ out, to_vector 7 (from_to (0 : Int) 10 2) () = some out ∧
        out.getLast? = some 10 :=
  from_to_start_eq_end_empty 5 2 0 10 2 0 7 (by decide) (by decide) (by decide)

/-- C36 as stated is refuted: with `step = 0` and `start > end_` the traversal
does terminate; `from_to(10, 0, 0).to_vector()` is `[0]`, the first read returning
`end_` rather than `start`. -/
theorem from_to_zero_step_downward_terminates :
    to_vector 2 (from_to (10 : Int) 0 0) () = some [0] ∧
      ¬ ∀ (start end_ : Int), start ≠ end_ →
        ∀ fuel, to_vector fuel (from_to start end_ 0) () = none := by
  have h : to_vector 2 (from_to (10 : Int) 0 0) () = some [0] := by decide
  refine ⟨h, fun hall => ?_⟩
  rw [hall 10 0 (by decide) 2] at h
  exact absurd h (by simp)

/-- C36 amended: with `step = 0` and `start < end_` a traversal of
`from_to(start, end_, 0)` never terminates: after any number `n` of read/advance
rounds the cursor still differs from the end cursor, the element read is
`start`, and no amount of fuel produces a vector; with `step = 0` and
`start > end_` the first read returns `end_` and the vector is `[end_]`; for
every `step != 0` and `start != end_` (unbounded integers) the traversal
terminates after exactly `ceil(|end_ - start| / |step|) + 1` elements. -/
theorem from_to_zero_step (start end_ step : Int) (fuel : Nat) :
    (start < end_ →
      (from_to start end_ 0).begin () = some (⟨0, start, start, end_, 0⟩, ()) ∧
      (∀ n : Nat,
        (from_to start end_ 0).ne ⟨n, start, start, end_, 0⟩
          (from_to_range.iterator.mk_ end_ 0 0) = true ∧
        (from_to start end_ 0).deref ⟨n, start, start, end_, 0⟩
          = some (start, ⟨n, start, start, end_, 0⟩) ∧
        (from_to start end_ 0).inc ⟨n, start, start, end_, 0⟩
          = some ⟨(n + 1 : Nat), start, start, end_, 0⟩) ∧
      ∀ fuel0, to_vector fuel0 (from_to start end_ 0) () = none) ∧
    (end_ < start → to_vector (fuel + 2) (from_to start end_ 0) () = some [end_]) ∧
    (start ≠ end_ → step ≠ 0 →
      ((end_ - start).natAbs + step.natAbs - 1) / step.natAbs + 1 < fuel →
      ∃ out, to_vector fuel (from_to start end_ step) () = some out ∧
        out.length = ((end_ - start).natAbs + step.natAbs - 1) / step.natAbs + 1) := by
  refine ⟨fun hlt => ?_, fun hgt => ?_, fun hse hstep hfuel => ?_⟩
  · have hne : start ≠ end_ := ne_of_lt hlt
    have hle : ¬ end_ < start := not_lt.mpr (le_of_lt hlt)
    have hS : from_to_range.Step start end_ 0 = 0 := by
      simp [from_to_range.Step, hle]
    have hb : (from_to start end_ 0).begin () = some (⟨0, start, start, end_, 0⟩, ()) := by
      simp [from_to, from_to_range.iterator.mk_, hS]
    refine ⟨hb, fun n => ⟨?_, ?_, ?_⟩, fun fuel0 => ?_⟩
    · simp [from_to, from_to_range.iterator.mk_, hne]
    · simp [from_to, from_to_range.iterator.deref, hle]
    · simp [from_to]
    · have he : (from_to start end_ 0).end_ () = some (from_to_range.iterator.mk_ end_ 0 0, ()) :=
        rfl
      simp only [to_vector, to_vector.run, hb, he,
        from_to_zero_step_loop_none start end_ hlt fuel0 0 [], Option.map_none']
  · have hne : start ≠ end_ := ne_of_gt hgt
    have hS : from_to_range.Step start end_ 0 = 0 := by
      simp [from_to_range.Step]
    simp [to_vector, to_vector.run, from_to, to_vector.loop, from_to_range.iterator.mk_,
      from_to_range.iterator.deref, hS, hgt, hne]
  · refine ⟨(List.range (((end_ - start).natAbs + step.natAbs - 1) / step.natAbs)).map
        (fun i => start + (i : Int) * (if start < end_ then 1 else -1) * (step.natAbs : Int))
      ++ [end_], from_to_to_vector_eq start end_ step fuel hse hstep hfuel, ?_⟩
    simp only [List.length_append, List.length_map, List.length_singleton]
    exact congrArg (fun m => m + 1)
      ((list_flatMap_singleton_length (fun a : Nat => (a : Int)) _).trans (List.length_range _))

theorem from_to_zero_step_witness :
    ((from_to (0 : Int) 10 0).begin () = some (⟨0, 0, 0, 10, 0⟩, ()) ∧
      (∀ n : Nat,
        (from_to (0 : Int) 10 0).ne ⟨n, 0, 0, 10, 0⟩
          (from_to_range.iterator.mk_ 10 0 0) = true ∧
        (from_to (0 : Int) 10 0).deref ⟨n, 0, 0, 10, 0⟩
          = some (0, ⟨n, 0, 0, 10, 0⟩) ∧
        (from_to (0 : Int) 10 0).inc ⟨n, 0, 0, 10, 0⟩
          = some ⟨(n + 1 : Nat), 0, 0, 10, 0⟩) ∧
      ∀ fuel0, to_vector fuel0 (from_to (0 : Int) 10 0) () = none) ∧
    to_vector (7 + 2) (from_to (10 : Int) 0 0) () = some [0] ∧
    ∃ out, to_vector 7 (from_to (0 : Int) 10 2) () = some out ∧
      out.length = (((10 : Int) - 0).natAbs + (2 : Int).natAbs - 1) / (2 : Int).natAbs + 1 :=
  ⟨(from_to_zero_step 0 10 2 7).1 (by decide),
    (from_to_zero_step 10 0 2 7).2.1 (by decide),
    (from_to_zero_step 0 10 2 7).2.2 (by decide) (by decide) (by decide)⟩

theorem order_by_compare_keys_both_false_iff {α κ : Type} [LinearOrder κ] (k : α → κ)
    (d : sort_direction) (a b : α) :
    (order_by_range.compare_keys k d a b = false ∧ order_by_range.compare_keys k d b a = false)
      ↔ k a = k b := by
  cases d <;>
    simp only [order_by_range.compare_keys, if_true, decide_eq_false_iff_not, not_lt,
      reduceCtorEq, if_false]
  · exact ⟨fun h => le_antisymm h.2 h.1, fun h => ⟨h.ge, h.le⟩⟩
  · exact ⟨fun h => le_antisymm h.1 h.2, fun h => ⟨h.le, h.ge⟩⟩

theorem lexicographic_lt_append {α : Type} (t : sort_stage α) (a b : α) :
    ∀ l : List (sort_stage α),
      lexicographic_lt (l ++ [t]) a b =
        (lexicographic_lt l a b || (keys_equal l a b &&
          order_by_range.compare_keys t.KeySelector t.SortDirection a b)) := by
  intro l
  induction l with
  | nil => simp [lexicographic_lt, keys_equal]
  | cons u l ih =>
    simp only [List.cons_append, lexicographic_lt, keys_equal]
    cases order_by_range.compare_keys u.KeySelector u.SortDirection a b <;>
      cases decide (u.KeySelector a = u.KeySelector b) <;> simp [ih]

theorem keys_equal_iff_lexicographic_lt_both_false {α : Type} (a b : α) :
    ∀ l : List (sort_stage α),
      keys_equal l a b = true ↔
        (lexicographic_lt l a b = false ∧ lexicographic_lt l b a = false) := by
  intro l
  induction l with
  | nil => simp [lexicographic_lt, keys_equal]
  | cons u l ih =>
    have hu := order_by_compare_keys_both_false_iff u.KeySelector u.SortDirection a b
    simp only [lexicographic_lt, keys_equal, Bool.and_eq_true, decide_eq_true_eq, ih,
      Bool.or_eq_false_iff, Bool.and_eq_false_imp]
    constructor
    · rintro ⟨hk, h1, h2⟩
      obtain ⟨h3, h4⟩ := hu.mpr hk
      exact ⟨⟨h3, fun _ => h1⟩, ⟨h4, fun _ => h2⟩⟩
    · rintro ⟨⟨h3, h1⟩, ⟨h4, h2⟩⟩
      have hk := hu.mp ⟨h3, h4⟩
      exact ⟨hk, h1 hk, h2 hk.symm⟩

theorem chain_compare_keys_append {α : Type} (s : sort_stage α) (ts : List (sort_stage α))
    (t : sort_stage α) :
    chain_compare_keys s (ts ++ [t]) =
      then_by_range.compare_keys (chain_compare_keys s ts) t.KeySelector t.SortDirection := by
  simp [chain_compare_keys, List.foldl_append]

theorem chain_compare_keys_eq_lexicographic_lt {α : Type} (s : sort_stage α) :
    ∀ (ts : List (sort_stage α)) (a b : α),
      chain_compare_keys s ts a b = lexicographic_lt (s :: ts) a b := by
  intro ts
  induction ts using List.reverseRecOn with
  | nil =>
    intro a b
    simp [chain_compare_keys, lexicographic_lt]
  | append_singleton ts t ih =>
    intro a b
    have happ := lexicographic_lt_append t a b (s :: ts)
    rw [List.cons_append] at happ
    have hk := keys_equal_iff_lexicographic_lt_both_false a b (s :: ts)
    rw [chain_compare_keys_append, happ]
    unfold then_by_range.compare_keys
    rw [ih a b, ih b a]
    cases h1 : lexicographic_lt (s :: ts) a b with
    | true => simp
    | false =>
      cases h2 : lexicographic_lt (s :: ts) b a with
      | true =>
        have hke : keys_equal (s :: ts) a b = false := by
          cases hke : keys_equal (s :: ts) a b with
          | false => rfl
          | true =>
            have := (hk.mp hke).2
            rw [h2] at this
            exact absurd this (by simp)
        simp [hke]
      | false =>
        have hke : keys_equal (s :: ts) a b = true := hk.mpr ⟨h1, h2⟩
        simp [hke, order_by_range.compare_keys]

theorem chain_compare_keys_strict_weak {α : Type} (s : sort_stage α) :
    ∀ ts : List (sort_stage α), StrictWeakOrdering (chain_compare_keys s ts) := by
  intro ts
  induction ts using List.reverseRecOn with
  | nil => exact order_by_compare_keys_strict_weak s.KeySelector s.SortDirection
  | append_singleton ts t ih =>
    rw [chain_compare_keys_append]
    exact then_by_compare_keys_strict_weak _ ih t.KeySelector t.SortDirection

/-- C33: `then_by_range::compare_keys(a, b)` returns true iff
`prev.compare_keys(a, b)`, or neither `prev.compare_keys(a, b)` nor
`prev.compare_keys(b, a)` holds and this stage's keys compare in its direction
(`key(a) < key(b)` ascending, `key(b) < key(a)` descending).  For every chain
`order_by(k1, d1).then_by(k2, d2)...then_by(kn, dn)` whose key types are linearly
ordered by `<`, the last range's `compare_keys` is the lexicographic strict
order over `(k1, ..., kn)` and is a strict weak ordering: irreflexive,
asymmetric and transitive (with transitive incomparability). -/
theorem then_by_compare_keys_chain_lexicographic {α : Type} :
    (∀ (κ : Type) [LT κ] [DecidableRel (fun (x y : κ) => x < y)] (pc : α → α → Bool)
        (k : α → κ) (d : sort_direction) (a b : α),
      then_by_range.compare_keys pc k d a b = true ↔
        (pc a b = true ∨ (pc a b = false ∧ pc b a = false ∧
          ((d = sort_direction.ascending ∧ k a < k b) ∨
            (d = sort_direction.descending ∧ k b < k a))))) ∧
    (∀ (s : sort_stage α) (ts : List (sort_stage α)),
      (∀ a b, chain_compare_keys s ts a b = lexicographic_lt (s :: ts) a b) ∧
      StrictWeakOrdering (chain_compare_keys s ts) ∧
      (∀ a, chain_compare_keys s ts a a = false) ∧
      (∀ a b, chain_compare_keys s ts a b = true → chain_compare_keys s ts b a = false) ∧
      (∀ a b c, chain_compare_keys s ts a b = true → chain_compare_keys s ts b c = true →
        chain_compare_keys s ts a c = true)) := by
  constructor
  · intro κ _ _ pc k d a b
    unfold then_by_range.compare_keys
    cases hab : pc a b <;> cases hba : pc b a <;> cases d <;> simp
  · intro s ts
    have hswo := chain_compare_keys_strict_weak s ts
    refine ⟨chain_compare_keys_eq_lexicographic_lt s ts, hswo, hswo.1, ?_, hswo.2.1⟩
    intro a b hab
    cases hba : chain_compare_keys s ts b a with
    | false => rfl
    | true =>
      have haa := hswo.2.1 a b a hab hba
      rw [hswo.1 a] at haa
      exact absurd haa (by simp)

theorem then_by_compare_keys_chain_lexicographic_witness :
    (then_by_range.compare_keys (fun (a b : Nat × Nat) => decide (a.1 < b.1))
        (fun p : Nat × Nat => p.2) sort_direction.descending (1, 5) (1, 3) = true) ∧
      chain_compare_keys (⟨Nat, inferInstance, fun p : Nat × Nat => p.1,
          sort_direction.ascending⟩ : sort_stage (Nat × Nat))
        [⟨Nat, inferInstance, fun p : Nat × Nat => p.2, sort_direction.descending⟩]
        (1, 3) (1, 5) = false :=
  ⟨((then_by_compare_keys_chain_lexicographic).1 Nat
      (fun (a b : Nat × Nat) => decide (a.1 < b.1)) (fun p : Nat × Nat => p.2)
      sort_direction.descending (1, 5) (1, 3)).mpr
      (Or.inr ⟨by decide, by decide, Or.inr ⟨rfl, by decide⟩⟩),
    ((then_by_compare_keys_chain_lexicographic).2
      (⟨Nat, inferInstance, fun p : Nat × Nat => p.1, sort_direction.ascending⟩ :
        sort_stage (Nat × Nat))
      [⟨Nat, inferInstance, fun p : Nat × Nat => p.2, sort_direction.descending⟩]).2.2.2.1
      (1, 5) (1, 3) (by decide)⟩

/-- C37: a buffering sequence can be traversed repeatedly with the same result:
for every container `c`, the vector produced by a complete traversal of the
same `distinct()`, `reverse()`, `order_by()` or `then_by()` sequence value over
`c` does not depend on what the internal buffer holds when the traversal
starts (in particular on what an earlier traversal left in it), because
starting a traversal clears and refills the buffer; so two successive
traversals yield the same list. -/
theorem buffering_ranges_repeatable {α κ1 κ2 : Type} [DecidableEq α] [LinearOrder κ1]
    [LinearOrder κ2] (sort : (α : Type) → (α → α → Bool) → List α → List α)
    (hsort : StdSort sort) (c : List α) (k1 : α → κ1) (d1 : sort_direction) (k2 : α → κ2)
    (d2 : sort_direction) (fuel F F2 : Nat) (hfuel : c.length < fuel) (hF : c.length < F)
    (hF2 : c.length < F2) (hc : c.length < SIZE_MOD) :
    (∃ l, ∀ enc, to_vector fuel (distinct_range F (from_ c)) ((), enc) = some l) ∧
      (∃ l, ∀ cache, to_vector fuel (reverse_range F (from_ c)) ((), cache) = some l) ∧
      (∃ l, ∀ cache, to_vector fuel (order_by_range sort F (from_ c) k1 d1) ((), cache)
        = some l) ∧
      (∃ l, ∀ cache1 cache2, to_vector fuel
        (then_by_range sort F2 (order_by_range sort F (from_ c) k1 d1)
          (order_by_range.compare_keys k1 d1) k2 d2) (((), cache1), cache2) = some l) := by
  have hm := from_container_range_models c
  have hswo1 := order_by_compare_keys_strict_weak k1 d1
  obtain ⟨hperm1, _⟩ := hsort α (order_by_range.compare_keys k1 d1) c hswo1
  have hswo2 := then_by_compare_keys_strict_weak (order_by_range.compare_keys k1 d1) hswo1 k2 d2
  obtain ⟨hperm2, _⟩ := hsort α
    (then_by_range.compare_keys (order_by_range.compare_keys k1 d1) k2 d2)
    (sort α (order_by_range.compare_keys k1 d1) c) hswo2
  refine ⟨⟨firstOccurrences [] c, fun enc => ?_⟩, ⟨c.reverse, fun cache => ?_⟩,
    ⟨sort α (order_by_range.compare_keys k1 d1) c, fun cache => ?_⟩,
    ⟨sort α (then_by_range.compare_keys (order_by_range.compare_keys k1 d1) k2 d2)
      (sort α (order_by_range.compare_keys k1 d1) c), fun cache1 cache2 => ?_⟩⟩
  · exact to_vector_of_models _ _ _ fuel (distinct_range_models _ () enc c F hm hF)
      (lt_of_le_of_lt (firstOccurrences_length_le c []) hfuel)
  · exact to_vector_of_models _ _ _ fuel (reverse_range_models _ () cache c F hm hF hc)
      (by rw [List.length_reverse]; exact hfuel)
  · exact to_vector_of_models _ _ _ fuel (order_by_range_models sort F _ k1 d1 () cache c hm hF)
      (by rw [hperm1.length_eq]; exact hfuel)
  · have hm1 := order_by_range_models sort F _ k1 d1 () cache1 c hm hF
    have hm2 := then_by_range_models sort F2 _ (order_by_range.compare_keys k1 d1) k2 d2
      ((), cache1) cache2 _ hm1 (by rw [hperm1.length_eq]; exact hF2)
    exact to_vector_of_models _ _ _ fuel hm2
      (by rw [hperm2.length_eq, hperm1.length_eq]; exact hfuel)

theorem buffering_ranges_repeatable_witness :
    (∃ l, ∀ enc, to_vector 4 (distinct_range 4 (from_ [2, 1, 2])) ((), enc) = some l) ∧
      (∃ l, ∀ cache, to_vector 4 (reverse_range 4 (from_ [2, 1, 2])) ((), cache) = some l) ∧
      (∃ l, ∀ cache, to_vector 4 (order_by_range insertion_sort 4 (from_ [2, 1, 2])
        (fun n : Nat => n) sort_direction.ascending) ((), cache) = some l) ∧
      (∃ l, ∀ cache1 cache2, to_vector 4
        (then_by_range insertion_sort 4 (order_by_range insertion_sort 4 (from_ [2, 1, 2])
            (fun n : Nat => n) sort_direction.ascending)
          (order_by_range.compare_keys (fun n : Nat => n) sort_direction.ascending)
          (fun n : Nat => n % 2) sort_direction.descending) (((), cache1), cache2) = some l) :=
  buffering_ranges_repeatable insertion_sort insertion_sort_std_sort [2, 1, 2]
    (fun n : Nat => n) sort_direction.ascending (fun n : Nat => n % 2)
    sort_direction.descending 4 4 4 (by decide) (by decide) (by decide) (by decide)

/-- C39: a complete traversal of `reverse()` over a container of length `n`
(below `SIZE_MOD`) never reads out of bounds.  `begin()` buffers `n` cursors and
starts at index `n - 1` modulo `SIZE_MOD`; after `j < n` advances the index is
`n - 1 - j`, which is below the buffer size, so the bounds-checked lookup
succeeds and the read returns element `n - 1 - j` of the container; the cursor
then still differs from `end()`.  After the `n`-th advance the index has
wrapped to `SIZE_MOD - 1`, the value of `size_t(-1)`, which is the index of
`end()`; for `n = 0` this is `begin()` itself and nothing is read. -/
theorem reverse_traversal_in_bounds {α : Type} (c : List α)
    (cache : List from_container_range.iterator) (F : Nat) (hF : c.length < F)
    (hc : c.length < SIZE_MOD) :
    ∃ buf : List from_container_range.iterator, buf.length = c.length ∧
      (reverse_range F (from_ c)).begin ((), cache)
        = some (⟨some buf, (c.length - 0 + SIZE_MOD - 1) % SIZE_MOD⟩, ((), buf)) ∧
      (reverse_range F (from_ c)).end_ ((), buf) = some (⟨none, SIZE_MOD - 1⟩, ((), buf)) ∧
      (∀ j, j < c.length →
        (c.length - j + SIZE_MOD - 1) % SIZE_MOD = c.length - 1 - j ∧
        c.length - 1 - j < buf.length ∧
        (reverse_range F (from_ c)).ne ⟨some buf, (c.length - j + SIZE_MOD - 1) % SIZE_MOD⟩
          ⟨none, SIZE_MOD - 1⟩ = true ∧
        (∃ h : c.length - 1 - j < c.length,
          (reverse_range F (from_ c)).deref
              ⟨some buf, (c.length - j + SIZE_MOD - 1) % SIZE_MOD⟩
            = some (c.get ⟨c.length - 1 - j, h⟩,
                ⟨some buf, (c.length - j + SIZE_MOD - 1) % SIZE_MOD⟩)) ∧
        (reverse_range F (from_ c)).inc ⟨some buf, (c.length - j + SIZE_MOD - 1) % SIZE_MOD⟩
          = some ⟨some buf, (c.length - (j + 1) + SIZE_MOD - 1) % SIZE_MOD⟩) ∧
      (c.length - c.length + SIZE_MOD - 1) % SIZE_MOD = SIZE_MOD - 1 ∧
      (reverse_range F (from_ c)).eq
        ⟨some buf, (c.length - c.length + SIZE_MOD - 1) % SIZE_MOD⟩ ⟨none, SIZE_MOD - 1⟩
          = true := by
  obtain ⟨b, e, r1, hb, _, he, _, hy⟩ := from_container_range_models c
  obtain ⟨its, hloop, hits⟩ := reverse_range_begin_loop (from_ c) e b c hy F [] hF
  have hloop1 : reverse_range.begin.loop (from_ c) e F b [] = some its := by simpa using hloop
  have hlen : its.length = c.length := hits.length_eq
  have hwrap : (c.length - c.length + SIZE_MOD - 1) % SIZE_MOD = SIZE_MOD - 1 := by
    simp [SIZE_MOD]
  refine ⟨its, hlen, ?_, rfl, ?_, hwrap, ?_⟩
  · have hb1 : (from_ c).begin () = some (b, r1) := hb
    have he1 : (from_ c).end_ r1 = some (e, r1) := he
    simp [reverse_range, hb1, he1, hloop1, hlen]
  · intro j hj
    have hidx : (c.length - j + SIZE_MOD - 1) % SIZE_MOD = c.length - 1 - j := by
      have h1 : c.length - j + SIZE_MOD - 1 = (c.length - 1 - j) + SIZE_MOD := by omega
      rw [h1, Nat.add_mod_right, Nat.mod_eq_of_lt (by omega)]
    have hki : c.length - 1 - j < its.length := by omega
    have hkl : c.length - 1 - j < c.length := by omega
    have hd : (from_ c).deref (its.get ⟨c.length - 1 - j, hki⟩)
        = some (c.get ⟨c.length - 1 - j, hkl⟩, its.get ⟨c.length - 1 - j, hki⟩) :=
      List.Forall₂.get hits hki hkl
    have hg : its.get? (c.length - 1 - j) = some (its.get ⟨c.length - 1 - j, hki⟩) :=
      List.get?_eq_get hki
    refine ⟨hidx, hki, ?_, ⟨hkl, ?_⟩, ?_⟩
    · rw [hidx]
      simp [reverse_range, SIZE_MOD] at hc ⊢
      omega
    · rw [hidx]
      simp only [reverse_range, hg, hd]
      simp [list_set_getElem_self]
    · have h2 : c.length - (j + 1) = c.length - 1 - j := by omega
      rw [hidx, h2]
      simp [reverse_range]
  · rw [hwrap]
    simp [reverse_range]

theorem reverse_traversal_in_bounds_witness :
    ∃ buf : List from_container_range.iterator, buf.length = [7, 8, 9].length ∧
      (reverse_range 4 (from_ [7, 8, 9])).begin ((), [])
        = some (⟨some buf, ([7, 8, 9].length - 0 + SIZE_MOD - 1) % SIZE_MOD⟩, ((), buf)) ∧
      (reverse_range 4 (from_ [7, 8, 9])).end_ ((), buf)
        = some (⟨none, SIZE_MOD - 1⟩, ((), buf)) ∧
      (∀ j, j < [7, 8, 9].length →
        ([7, 8, 9].length - j + SIZE_MOD - 1) % SIZE_MOD = [7, 8, 9].length - 1 - j ∧
        [7, 8, 9].length - 1 - j < buf.length ∧
        (reverse_range 4 (from_ [7, 8, 9])).ne
          ⟨some buf, ([7, 8, 9].length - j + SIZE_MOD - 1) % SIZE_MOD⟩
          ⟨none, SIZE_MOD - 1⟩ = true ∧
        (∃ h : [7, 8, 9].length - 1 - j < [7, 8, 9].length,
          (reverse_range 4 (from_ [7, 8, 9])).deref
              ⟨some buf, ([7, 8, 9].length - j + SIZE_MOD - 1) % SIZE_MOD⟩
            = some ([7, 8, 9].get ⟨[7, 8, 9].length - 1 - j, h⟩,
                ⟨some buf, ([7, 8, 9].length - j + SIZE_MOD - 1) % SIZE_MOD⟩)) ∧
        (reverse_range 4 (from_ [7, 8, 9])).inc
            ⟨some buf, ([7, 8, 9].length - j + SIZE_MOD - 1) % SIZE_MOD⟩
          = some ⟨some buf, ([7, 8, 9].length - (j + 1) + SIZE_MOD - 1) % SIZE_MOD⟩) ∧
      ([7, 8, 9].length - [7, 8, 9].length + SIZE_MOD - 1) % SIZE_MOD = SIZE_MOD - 1 ∧
      (reverse_range 4 (from_ [7, 8, 9])).eq
        ⟨some buf, ([7, 8, 9].length - [7, 8, 9].length + SIZE_MOD - 1) % SIZE_MOD⟩
        ⟨none, SIZE_MOD - 1⟩ = true :=
  reverse_traversal_in_bounds [7, 8, 9] [] 4 (by decide) (by decide)

theorem unsigned_int_foldl_add :
    ∀ (rest : List unsigned_int) (x : unsigned_int), x.val < UINT_MOD →
      rest.foldl (fun acc p => acc + p) x
        = ⟨(x.val + (rest.map unsigned_int.val).sum) % UINT_MOD⟩ := by
  intro rest
  induction rest with
  | nil =>
    intro x hx
    cases x with
    | mk v =>
      simp only [List.foldl_nil, List.map_nil, List.sum_nil, Nat.add_zero]
      rw [Nat.mod_eq_of_lt hx]
  | cons a l ih =>
    intro x _
    have hxa : x + a = ⟨(x.val + a.val) % UINT_MOD⟩ := rfl
    have hlt : (x.val + a.val) % UINT_MOD < UINT_MOD := Nat.mod_lt _ (by decide)
    rw [List.foldl_cons, hxa, ih _ hlt]
    simp only [List.map_cons, List.sum_cons]
    rw [Nat.mod_add_mod, Nat.add_assoc]

/-- C20 as stated is refuted: for the container `{4294967295, 1}` of
`unsigned int`, `from(&c).sum()` is `0`, while the arithmetic sum of the elements
is `4294967296`. -/
theorem sum_unsigned_wraps_around :
    base_range.sum 3 (from_ [(⟨4294967295⟩ : unsigned_int), ⟨1⟩]) () = some ⟨0⟩ ∧
      ([(⟨4294967295⟩ : unsigned_int), ⟨1⟩].map unsigned_int.val).sum = 4294967296 ∧
      (base_range.sum 3 (from_ [(⟨4294967295⟩ : unsigned_int), ⟨1⟩]) ()).map unsigned_int.val
        ≠ some ([(⟨4294967295⟩ : unsigned_int), ⟨1⟩].map unsigned_int.val).sum := by
  have h : base_range.sum 3 (from_ [(⟨4294967295⟩ : unsigned_int), ⟨1⟩]) () = some ⟨0⟩ := by
    rw [base_range_sum_of_models (from_ _) () _ 3 (from_container_range_models _) (by decide)]
    decide
  refine ⟨h, by decide, ?_⟩
  rw [h]
  decide

/-- C20 amended: for every container `c` of integers, `from(&c).sum()` is the sum
of all elements of `c` computed in the element type: the first element seeds
the accumulator and every later element is added to it once with the
element type's `+`, which is the same value as `aggregate` with addition (any
element type `T`).  For `unsigned int` that value is the arithmetic sum modulo
`UINT_MOD`, hence the arithmetic sum itself when it is below `UINT_MOD`; over
unbounded integers (a signed type on which no addition overflows) it is the
arithmetic sum. -/
theorem sum_in_element_type {T : Type} [Zero T] [Add T] (ct : List T)
    (cu : List unsigned_int) (ci : List Int) (fuel : Nat)
    (hvalid : ∀ x, x ∈ cu → x.val < UINT_MOD)
    (hct : ct.length < fuel) (hcu : cu.length < fuel) (hci : ci.length < fuel) :
    (base_range.sum fuel (from_ ct) ()
        = base_range.aggregate fuel (from_ ct) () (fun a b => a + b) ∧
      ∀ x rest, ct = x :: rest →
        base_range.sum fuel (from_ ct) () = some (rest.foldl (fun acc p => acc + p) x)) ∧
    (base_range.sum fuel (from_ cu) ()
        = some ⟨(cu.map unsigned_int.val).sum % UINT_MOD⟩ ∧
      ((cu.map unsigned_int.val).sum < UINT_MOD →
        base_range.sum fuel (from_ cu) () = some ⟨(cu.map unsigned_int.val).sum⟩)) ∧
    (base_range.sum fuel (from_ ci) () = some ci.sum ∧
      base_range.aggregate fuel (from_ ci) () (fun a b => a + b) = some ci.sum) := by
  have hst := base_range_sum_of_models (from_ ct) () ct fuel (from_container_range_models ct) hct
  have hat := base_range_aggregate_of_models (from_ ct) () ct fuel (fun a b => a + b)
    (from_container_range_models ct) hct
  have hsu := base_range_sum_of_models (from_ cu) () cu fuel (from_container_range_models cu) hcu
  have hu : base_range.sum fuel (from_ cu) ()
      = some ⟨(cu.map unsigned_int.val).sum % UINT_MOD⟩ := by
    rw [hsu]
    cases cu with
    | nil => rfl
    | cons x rest =>
      simp only [List.map_cons, List.sum_cons]
      rw [unsigned_int_foldl_add rest x (hvalid x (List.mem_cons_self _ _))]
  refine ⟨⟨by rw [hst, hat], ?_⟩, ⟨hu, fun hlt => ?_⟩,
    (base_range_sum_unbounded ci fuel hci).1, (base_range_sum_unbounded ci fuel hci).2.2⟩
  · intro x rest hc
    subst hc
    exact hst
  · rw [hu, Nat.mod_eq_of_lt hlt]

theorem sum_in_element_type_witness :
    (base_range.sum 4 (from_ [(3 : Int), -1, 4]) ()
        = base_range.aggregate 4 (from_ [(3 : Int), -1, 4]) () (fun a b => a + b) ∧
      ∀ x rest, [(3 : Int), -1, 4] = x :: rest →
        base_range.sum 4 (from_ [(3 : Int), -1, 4]) ()
          = some (rest.foldl (fun acc p => acc + p) x)) ∧
    (base_range.sum 4 (from_ [(⟨4294967295⟩ : unsigned_int), ⟨2⟩, ⟨5⟩]) ()
        = some ⟨([(⟨4294967295⟩ : unsigned_int), ⟨2⟩, ⟨5⟩].map unsigned_int.val).sum
            % UINT_MOD⟩ ∧
      (([(⟨4294967295⟩ : unsigned_int), ⟨2⟩, ⟨5⟩].map unsigned_int.val).sum < UINT_MOD →
        base_range.sum 4 (from_ [(⟨4294967295⟩ : unsigned_int), ⟨2⟩, ⟨5⟩]) ()
          = some ⟨([(⟨4294967295⟩ : unsigned_int), ⟨2⟩, ⟨5⟩].map unsigned_int.val).sum⟩)) ∧
    (base_range.sum 4 (from_ [(3 : Int), -1, 4]) () = some [(3 : Int), -1, 4].sum ∧
      base_range.aggregate 4 (from_ [(3 : Int), -1, 4]) () (fun a b => a + b)
        = some [(3 : Int), -1, 4].sum) :=
  sum_in_element_type [(3 : Int), -1, 4] [(⟨4294967295⟩ : unsigned_int), ⟨2⟩, ⟨5⟩]
    [(3 : Int), -1, 4] 4 (by decide) (by decide) (by decide) (by decide)

end linq
